import Mathlib

/-!
The http server of `src/http/server.go`.

A shallow embedding of the route table (`pathMatch`, `Server.match`), the request
decoder (`httpConn.readReq`), the response encoder (`httpConn.writeResp`) and the
per-connection loop (`httpConn.serve`), with the properties proved about them.

Conventions of the embedding:
* a Go `string` or `[]byte` is a `List Char`, one `Char` per byte, so that `len` is
  `List.length`;
* a run-time panic is the value `none` of an `Option` result;
* a Go `map` is an association list; the order in which `range` visits it is an
  argument of the function that iterates (any permutation of the entries).
-/

namespace GoHttp

/-- A Go string, one `Char` per byte. -/
abbrev Str := List Char

/-! ## Go primitives -/

/-- Go's `s[i]`: `none` is the panic "index out of range". -/
def index (s : Str) (i : Int) : Option Char :=
  if 0 ≤ i ∧ i < (s.length : Int) then s.get? i.toNat else none

/-- Go's `s[lo:hi]` on a string: `none` is the panic "slice bounds out of range". -/
def slice (s : Str) (lo hi : Int) : Option Str :=
  if 0 ≤ lo ∧ lo ≤ hi ∧ hi ≤ (s.length : Int) then
    some ((s.drop lo.toNat).take (hi.toNat - lo.toNat))
  else none

/-- A value of the interface type `Handler`: the nil interface or a handler. -/
inductive Handler (H : Type) where
  | nil : Handler H
  | val (h : H) : Handler H
  deriving DecidableEq, Repr

/-! ## Route table: `pathMatch` and `Server.match` (server.go 105-136) -/

/-- The function `pathMatch(pattern, path)`. -/
def pathMatch (pattern path : Str) : Option Bool :=
  if pattern.length = 0 then
    some false
  else
    let n : Int := pattern.length
    match index pattern (n - 1) with
    | none => none
    | some c =>
      if c ≠ '/' then
        some (decide (pattern = path))
      else if (path.length : Int) ≥ n then
        match slice path 0 n with
        | none => none
        | some s => some (decide (s = pattern))
      else
        some false

/-- The body of `for k, v := range srv.handlers` in `Server.match`, run over the
entries in the order `range` delivers them; the state is `(matchLen, h)`. -/
def matchLoop {H : Type} (path : Str) :
    List (Str × Handler H) → Nat × Handler H → Option (Nat × Handler H)
  | [], acc => some acc
  | (k, v) :: rest, (matchLen, h) =>
    match pathMatch k path with
    | none => none
    | some m =>
      if m && decide (k.length > matchLen) then
        matchLoop path rest (k.length, v)
      else
        matchLoop path rest (matchLen, h)

/-- The method `Server.match(path)`; `handlers` lists the entries of `srv.handlers`
in iteration order and `NotFoundHandler` is the package variable of that name. -/
def Server.match {H : Type} (NotFoundHandler : H) (handlers : List (Str × Handler H))
    (path : Str) : Option (Handler H) :=
  match matchLoop path handlers (0, Handler.nil) with
  | none => none
  | some (_, h) =>
    match h with
    | Handler.nil => some (Handler.val NotFoundHandler)
    | Handler.val f => some (Handler.val f)

/-! ## Constants and types declared outside `server.go` -/

/-- Modelled from the spec: the constant `MethodGet`, declared in a file of the
package that is not under src/ ("Supported methods: GET, POST"). -/
def MethodGet : Str := "GET".toList

/-- Modelled from the spec: the constant `MethodPost`, declared in a file of the
package that is not under src/ ("Supported methods: GET, POST"). -/
def MethodPost : Str := "POST".toList

/-- Modelled from the spec: the constant `HTTPVersion`, declared in a file of the
package that is not under src/; the spec's examples use the literal `HTTP/1.1`. -/
def HTTPVersion : Str := "HTTP/1.1".toList

/-- Modelled from the spec: the constant `HeaderContentLength`, declared in a file of
the package that is not under src/; the spec names the header `Content-Length`. -/
def HeaderContentLength : Str := "Content-Length".toList

/-- The errors `readReq` and the connection can report. -/
inductive Err where
  /-- The value `io.EOF`. -/
  | EOF
  /-- The value `errors.New("Invalid request line")`. -/
  | InvalidRequestLine
  /-- The error returned by `url.ParseRequestURI`. -/
  | InvalidURI
  /-- The value `errors.New("Invalid request header")`. -/
  | InvalidRequestHeader
  /-- The value `errors.New("No Content-Length in POST request header")`. -/
  | NoContentLength
  /-- The value `errors.New("Content-Length must be numeric")`. -/
  | ContentLengthNotNumeric
  /-- The value `bufio.ErrBufferFull`. -/
  | BufferFull
  /-- Any other error of the connection. -/
  | transport (code : Nat)
  deriving DecidableEq, Repr

/-- The fields of `url.URL` that a request target can fill. -/
structure URL where
  Scheme : Str
  Host : Str
  Path : Str
  deriving DecidableEq, Repr

/-- A Go `map[string]V` as an association list. -/
abbrev GoMap (V : Type) := List (Str × V)

/-- The lookup `v, ok := m[k]`. -/
def GoMap.get {V : Type} (m : GoMap V) (k : Str) : Option V :=
  (m.find? (fun kv => decide (kv.1 = k))).map Prod.snd

/-- The assignment `m[k] = v`: the entry of `k`, if any, is replaced. -/
def GoMap.set {V : Type} (m : GoMap V) (k : Str) (v : V) : GoMap V :=
  (k, v) :: m.filter (fun kv => decide (kv.1 ≠ k))

/-- The fields of the type `Request` (declared outside `server.go`) that `readReq`
assigns. The field `Body` is the `io.LimitedReader` over the reader that `readReq`
hands back, with `N = ContentLength`; see `LimitedReader`. -/
structure Request where
  Method : Str
  URL : Option URL
  Proto : Str
  Header : GoMap Str
  ContentLength : Int
  deriving DecidableEq, Repr

/-- The fields of the type `Response` (declared outside `server.go`) that `serve` and
`writeResp` use. Of the slice `writeBuff`, the field `writeBuff` holds the bytes up to
its length and `writeBuffSpare` the bytes of its array from its length to its
capacity. The map `Header` is one made with `make`, as `serve` makes it, not the nil
map. -/
structure Response where
  Proto : Str
  StatusCode : Int
  Status : Str
  Header : GoMap Str
  writeBuff : Str
  ContentLength : Int
  writeBuffSpare : Str := []
  deriving DecidableEq, Repr

/-- How a call ends: `return a, nil`, `return nil, err`, or a run-time panic. -/
inductive Outcome (α : Type) where
  | ok (a : α) : Outcome α
  | fail (e : Err) : Outcome α
  | panic : Outcome α
  deriving DecidableEq, Repr

/-! ## Standard-library functions used by the decoder and the encoder -/

/-- The first occurrence of a non-empty `sep` in `s`, as in `strings.Index`: the text
before it and the text after it. -/
def cut (sep : Str) : Str → Option (Str × Str)
  | [] => none
  | c :: cs =>
    if sep.isPrefixOf (c :: cs) then
      some ([], (c :: cs).drop sep.length)
    else
      match cut sep cs with
      | none => none
      | some (a, b) => some (c :: a, b)

/-- The function `strings.SplitN(s, sep, n)` for a non-empty `sep` and `n ≥ 0`: at most
`n` substrings, the last one being the unsplit remainder. -/
def SplitN (s sep : Str) : Nat → List Str
  | 0 => []
  | 1 => [s]
  | n + 2 =>
    match cut sep s with
    | none => [s]
    | some (a, b) => a :: SplitN b sep (n + 1)

/-- The value of a string of decimal digits. -/
def digitsValue (ds : Str) : Nat :=
  ds.foldl (fun a c => 10 * a + (c.toNat - 48)) 0

/-- The function `strconv.Atoi` where `int` has 64 bits: an optional sign, then one
or more decimal digits, the value within the range of `int`; `none` is a non-nil
error. -/
def Atoi (s : Str) : Option Int :=
  let sd : Bool × Str :=
    match s with
    | '+' :: r => (false, r)
    | '-' :: r => (true, r)
    | r => (false, r)
  if sd.2.isEmpty || !(sd.2.all Char.isDigit) then none
  else
    let v : Int := if sd.1 then - (digitsValue sd.2 : Int) else (digitsValue sd.2 : Int)
    if v < -(2 : Int) ^ 63 ∨ v > (2 : Int) ^ 63 - 1 then none else some v

/-- The function `strconv.FormatInt(i, 10)`. -/
def FormatInt (i : Int) : Str :=
  if i < 0 then '-' :: Nat.toDigits 10 i.natAbs else Nat.toDigits 10 i.toNat

/-! ## The request decoder `httpConn.readReq` (server.go 274-369) -/

/-- The constants `RequestStepRequestLine`, `RequestStepHeader`, `RequestStepBody`. -/
inductive RequestStep where
  | RequestLine
  | Header
  | Body
  deriving DecidableEq, Repr

/-- What one call of `reader.ReadLine()` returns: `line, isPrefix, err`; and `front`,
the unread bytes that the call found or fetched (the slice it cut off, followed by what
stays buffered). After a call that returned a fragment the buffer is full and consumed,
so the next call starts with at most a put-back `\r`, which `fill` moves to the start
of the buffer before it reads behind it: `front` is then what the start of the buffer
holds after the call. For a fragment, which starts at the start of the buffer, `spare`
is `cap(line) - len(line)`, the room that the buffer has behind it. -/
structure ReadLineResult where
  line : Str
  isPrefix : Bool
  err : Option Err
  front : Str := []
  spare : Nat := 0
  deriving DecidableEq, Repr

/-- The local variables of `readReq`; `aliased` tells that the slice `wholeLine` is a
view of the reader's buffer, from its start (after `wholeLine = line` on a fragment),
and not a slice of its own (after an `append` that had to copy); `wholeLine` is then
what the view showed when it was taken, and `spare` is `cap(wholeLine) - len(wholeLine)`,
the room that the buffer has behind the view. -/
structure ReadState where
  req : Request
  wholeLine : Str
  lastWait : Bool
  step : RequestStep
  aliased : Bool := false
  spare : Nat := 0
  deriving DecidableEq, Repr

/-- The variables as `readReq` initialises them. -/
def ReadState.init : ReadState :=
  { req := { Method := [], URL := none, Proto := [], Header := [], ContentLength := 0 },
    wholeLine := [], lastWait := false, step := RequestStep.RequestLine }

/-- What one pass through the body of `LOOP` does. -/
inductive LoopStep where
  /-- The loop goes round again with these variables. -/
  | next (st : ReadState)
  /-- The statement `break LOOP`, followed by `return req, nil`. -/
  | done (req : Request)
  /-- A statement `return nil, err`. -/
  | fail (e : Err)
  /-- A run-time panic. -/
  | panic
  deriving DecidableEq, Repr

/-- The case `RequestStepRequestLine` of the switch, on the assembled line. -/
def requestLineStep (parseURI : Str → Option URL) (st : ReadState) (wholeLine : Str)
    (isWait : Bool) : LoopStep :=
  let reqLineWords := SplitN wholeLine " ".toList 3
  if reqLineWords.length ≠ 3 then LoopStep.fail Err.InvalidRequestLine
  else
    match reqLineWords.get? 0, reqLineWords.get? 1, reqLineWords.get? 2 with
    | some w0, some w1, some w2 =>
      if (w0 ≠ MethodPost ∧ w0 ≠ MethodGet) ∨ w2 ≠ HTTPVersion then
        LoopStep.fail Err.InvalidRequestLine
      else
        match parseURI w1 with
        | none => LoopStep.fail Err.InvalidURI
        | some urlObj =>
          LoopStep.next
            { req := { st.req with Method := w0, URL := some urlObj, Proto := w2 },
              wholeLine := wholeLine, lastWait := isWait, step := RequestStep.Header }
    | _, _, _ => LoopStep.panic

/-- The case `RequestStepHeader` of the switch; `line` is the fragment just read and
`wholeLine` the assembled line. -/
def headerStep (st : ReadState) (line wholeLine : Str) (isWait : Bool) : LoopStep :=
  if line.length ≠ 0 then
    let headerWords := SplitN wholeLine ": ".toList 2
    if headerWords.length ≠ 2 then LoopStep.fail Err.InvalidRequestHeader
    else
      match headerWords.get? 0, headerWords.get? 1 with
      | some w0, some w1 =>
        LoopStep.next
          { req := { st.req with Header := st.req.Header.set w0 w1 },
            wholeLine := wholeLine, lastWait := isWait, step := RequestStep.Header }
      | _, _ => LoopStep.panic
  else
    match st.req.Header.get HeaderContentLength with
    | none =>
      if st.req.Method = MethodPost then LoopStep.fail Err.NoContentLength
      else
        LoopStep.done
          { st.req with
            Header := st.req.Header.set HeaderContentLength "0".toList,
            ContentLength := 0 }
    | some cLenStr =>
      match Atoi cLenStr with
      | none => LoopStep.fail Err.ContentLengthNotNumeric
      | some cLen => LoopStep.done { st.req with ContentLength := cLen }

/-- What the slice `wholeLine` holds when the pass looks at it: its own bytes, or, when
it is a view of the reader's buffer, what the start of the buffer holds now, that is
`front` written over the bytes the view showed before. -/
def heldLine (st : ReadState) (r : ReadLineResult) : Str :=
  if st.aliased then (r.front ++ st.wholeLine.drop r.front.length).take st.wholeLine.length
  else st.wholeLine

/-- The bytes that `append(wholeLine, line...)` writes into the buffer of the reader,
behind the view `wholeLine`: the new bytes when `wholeLine` is a view of the buffer
and they fit into the room behind it, none otherwise. A full fragment leaves no room; a
fragment from which `ReadLine` dropped the last byte, a `\r`, leaves one byte. -/
def inPlace (st : ReadState) (r : ReadLineResult) : Str :=
  if r.err = none ∧ st.lastWait = true ∧ st.aliased = true ∧ r.line.length ≤ st.spare then
    r.line
  else []

/-- One pass through the body of `LOOP`, given what `reader.ReadLine()` returned. The
assignment `wholeLine = line` makes `wholeLine` a view of the reader's buffer. For a
complete line that view is used at once. For a fragment it is used in the next pass,
after the next `ReadLine` has written over the buffer: `append(wholeLine, line...)` then
gives what the view shows at that time (`heldLine`) followed by the new bytes, in a
slice of its own when the new bytes do not fit behind the view, and in the buffer
itself, still as a view, when they do (`inPlace`). -/
def readReqStep (parseURI : Str → Option URL) (st : ReadState) (r : ReadLineResult) :
    LoopStep :=
  match r.err with
  | some e => LoopStep.fail e
  | none =>
    let wholeLine := if !st.lastWait then r.line else heldLine st r ++ r.line
    if !r.isPrefix then
      match st.step with
      | RequestStep.RequestLine => requestLineStep parseURI st wholeLine r.isPrefix
      | RequestStep.Header => headerStep st r.line wholeLine r.isPrefix
      | RequestStep.Body => LoopStep.panic
    else
      LoopStep.next
        { st with wholeLine := wholeLine, lastWait := r.isPrefix,
                  aliased := if !st.lastWait then true
                    else st.aliased && decide (r.line.length ≤ st.spare),
                  spare := if !st.lastWait then r.spare else st.spare - r.line.length }

/-- The reader after a pass: as `ReadLine` left it, with the bytes that `append` wrote
into its buffer, if any, at the place behind the view; `write rd r pos bytes` is the
reader `rd` with `bytes` written at `pos` in the buffer that `r` came from. -/
def afterAppend {σ : Type} (write : σ → ReadLineResult → Nat → Str → σ) (st : ReadState)
    (r : ReadLineResult) (rd : σ) : σ :=
  if inPlace st r = [] then rd else write rd r st.wholeLine.length (inPlace st r)

/-- The loop `LOOP` of `readReq` over a line reader with state `σ`. The loop of the
source is unbounded; `fuel` bounds the number of passes and `none` means that the
bound was reached. The reader is returned with the outcome. -/
def readReqLoop {σ : Type} (ReadLine : σ → ReadLineResult × σ)
    (write : σ → ReadLineResult → Nat → Str → σ)
    (parseURI : Str → Option URL) : Nat → ReadState → σ → Option (Outcome Request × σ)
  | 0, _, _ => none
  | fuel + 1, st, rd =>
    match readReqStep parseURI st (ReadLine rd).1 with
    | LoopStep.next st2 =>
      readReqLoop ReadLine write parseURI fuel st2
        (afterAppend write st (ReadLine rd).1 (ReadLine rd).2)
    | LoopStep.done req =>
      some (Outcome.ok req, afterAppend write st (ReadLine rd).1 (ReadLine rd).2)
    | LoopStep.fail e =>
      some (Outcome.fail e, afterAppend write st (ReadLine rd).1 (ReadLine rd).2)
    | LoopStep.panic =>
      some (Outcome.panic, afterAppend write st (ReadLine rd).1 (ReadLine rd).2)

/-- A script of results has no buffer to write to. -/
def scriptWrite (script : List ReadLineResult) (_ : ReadLineResult) (_ : Nat) (_ : Str) :
    List ReadLineResult :=
  script

/-- A line reader that returns the given results one after the other, and `io.EOF`
once they are used up. -/
def scriptReadLine : List ReadLineResult → ReadLineResult × List ReadLineResult
  | [] => ({ line := [], isPrefix := false, err := some Err.EOF }, [])
  | r :: rs => (r, rs)

/-- A complete line, as `ReadLine` returns it. -/
def wholeLineResult (line : Str) : ReadLineResult :=
  { line := line, isPrefix := false, err := none }

/-- The function `readReq` run on a given sequence of `ReadLine` results. One pass is
made per result and one more at the end of the sequence, so it always returns. -/
def readReqOn (parseURI : Str → Option URL) (script : List ReadLineResult) :
    Option (Outcome Request × List ReadLineResult) :=
  readReqLoop scriptReadLine scriptWrite parseURI (script.length + 1) ReadState.init script

/-- A stand-in for `url.ParseRequestURI` on targets that are a plain absolute path
(`/x`, `/add`): the path is the target itself. It is used where a theorem is
evaluated at a concrete request; the theorems take the parser as an argument. -/
def pathOnlyURI (s : Str) : Option URL :=
  match s with
  | '/' :: _ => some { Scheme := [], Host := [], Path := s }
  | _ => none

/-! ## The connection and the buffered reader (`net.TCPConn`, `bufio.Reader`) -/

/-- The state of the connection `hc.tcpConn`. A read blocks until data or the end of
the stream arrives, so what matters of the input is the data in the portions in
which reads will find it. A write succeeds, or the connection takes some of the bytes
and fails from then on. -/
structure Conn where
  /-- The incoming data not read yet, in arrival portions. -/
  pending : List Str
  /-- What `Read` reports once all data is read (`io.EOF` for an orderly close). -/
  closeErr : Err
  /-- The bytes written to the peer so far. -/
  sent : Str
  /-- Whether `Close` was called. -/
  closed : Bool
  /-- How many more bytes the connection takes before `Write` fails, and the error it
  then reports; `none` when every write succeeds. -/
  writeLimit : Option (Nat × Err) := none
  deriving DecidableEq, Repr

/-- The incoming portions seen by a `Read` into a buffer of `n > 0` bytes: the data
returned and what stays pending; `none` when no data is left. -/
def readPending (n : Nat) : List Str → Option (Str × List Str)
  | [] => none
  | seg :: rest =>
    if seg.isEmpty then readPending n rest
    else if seg.length ≤ n then some (seg, rest)
    else some (seg.take n, seg.drop n :: rest)

/-- The method `Read(p)` of the connection with `len(p) = n`. -/
def Conn.Read (c : Conn) (n : Nat) : (Str × Option Err) × Conn :=
  if n = 0 then (([], none), c)
  else
    match readPending n c.pending with
    | none => (([], some c.closeErr), { c with pending := [] })
    | some (data, rest) => ((data, none), { c with pending := rest })

/-- The state of a `bufio.Reader`: the length of its buffer, the bytes buffered and
not yet consumed (`b.buf[b.r:b.w]`) and the connection it reads. A read of the
connection returns data or an error, never both, so the deferred error `b.err` is
nil between calls and is no part of the state. -/
structure Reader where
  size : Nat
  buf : Str
  rd : Conn
  deriving DecidableEq, Repr

/-- The function `bufio.NewReaderSize`: the buffer has at least 16 bytes. -/
def NewReaderSize (rd : Conn) (size : Nat) : Reader :=
  { size := max size 16, buf := [], rd := rd }

/-- The bytes up to and including the first newline, and the bytes after it. -/
def cutLine : Str → Option (Str × Str)
  | [] => none
  | c :: cs =>
    if c = '\n' then some ([c], cs)
    else
      match cutLine cs with
      | none => none
      | some (l, r) => some (c :: l, r)

/-- The last pass of the loop of `ReadSlice` once the buffer `buf` is full. -/
def readSliceFull (buf : Str) (pending : List Str) :
    (Str × Option Err) × (Str × List Str) :=
  match cutLine buf with
  | some (line, rest) => ((line, none), (rest, pending))
  | none => ((buf, some Err.BufferFull), ([], pending))

/-- The loop of `ReadSlice('\n')`: search the buffer, else report a read error, else
report a full buffer, else `fill` and go round again. The result is the slice, the
error, and the new buffer contents and pending data. -/
def readSliceFrom (size : Nat) (closeErr : Err) :
    List Str → Str → (Str × Option Err) × (Str × List Str)
  | [], buf =>
    match cutLine buf with
    | some (line, rest) => ((line, none), (rest, []))
    | none =>
      if buf.length ≥ size then ((buf, some Err.BufferFull), ([], []))
      else ((buf, some closeErr), ([], []))
  | seg :: more, buf =>
    match cutLine buf with
    | some (line, rest) => ((line, none), (rest, seg :: more))
    | none =>
      if buf.length ≥ size then ((buf, some Err.BufferFull), ([], seg :: more))
      else if seg.isEmpty then readSliceFrom size closeErr more buf
      else if seg.length ≤ size - buf.length then
        readSliceFrom size closeErr more (buf ++ seg)
      else
        readSliceFull (buf ++ seg.take (size - buf.length))
          (seg.drop (size - buf.length) :: more)

/-- The method `ReadSlice('\n')` of `bufio.Reader`. -/
def Reader.ReadSlice (b : Reader) : (Str × Option Err) × Reader :=
  let r := readSliceFrom b.size b.rd.closeErr b.rd.pending b.buf
  (r.1, { b with buf := r.2.1, rd := { b.rd with pending := r.2.2 } })

/-- A line without its end-of-line bytes `\n` or `\r\n`. -/
def dropEOL (line : Str) : Str :=
  if line.getLast? = some '\n' then
    if line.dropLast.getLast? = some '\r' then line.dropLast.dropLast else line.dropLast
  else line

/-- The method `ReadLine` of `bufio.Reader`; `front` is the slice that `ReadSlice` cut
off followed by what stays buffered. -/
def Reader.ReadLine (b : Reader) : ReadLineResult × Reader :=
  let r := b.ReadSlice
  if r.1.2 = some Err.BufferFull then
    if r.1.1.getLast? = some '\r' then
      ({ line := r.1.1.dropLast, isPrefix := true, err := none, front := r.1.1 ++ r.2.buf,
         spare := 1 },
        { r.2 with buf := '\r' :: r.2.buf })
    else
      ({ line := r.1.1, isPrefix := true, err := none, front := r.1.1 ++ r.2.buf }, r.2)
  else if r.1.1.length = 0 then
    ({ line := [], isPrefix := false, err := r.1.2, front := r.1.1 ++ r.2.buf }, r.2)
  else
    ({ line := dropEOL r.1.1, isPrefix := false, err := none, front := r.1.1 ++ r.2.buf },
      r.2)

/-- The reader after `bytes` are written at `pos` in its buffer, which holds `r.front`
from its start, the unread bytes `b.buf` last: the places of the buffer behind
`r.front` hold no data of the stream. -/
def Reader.writeAt (b : Reader) (r : ReadLineResult) (pos : Nat) (bytes : Str) : Reader :=
  { b with
    buf := ((r.front.take pos ++ bytes ++ r.front.drop (pos + bytes.length)).take
      r.front.length).drop (r.front.length - b.buf.length) }

/-- The method `Read(p)` of `bufio.Reader` with `len(p) = n`: buffered bytes first;
with an empty buffer one read of the connection, straight into `p` when `p` is at
least as long as the buffer and into the buffer otherwise. -/
def Reader.Read (b : Reader) (n : Nat) : (Str × Option Err) × Reader :=
  if n = 0 then (([], none), b)
  else if b.buf.isEmpty then
    if n ≥ b.size then
      let r := b.rd.Read n
      (r.1, { b with rd := r.2 })
    else
      let r := b.rd.Read b.size
      if r.1.1.length = 0 then (([], r.1.2), { b with rd := r.2 })
      else ((r.1.1.take n, none), { b with buf := r.1.1.drop n, rd := r.2 })
  else
    ((b.buf.take n, none), { b with buf := b.buf.drop n })

/-- The bytes of the stream that a reader has not handed out yet: its buffer, then
the data pending on the connection. -/
def Reader.rest (b : Reader) : Str :=
  b.buf ++ b.rd.pending.flatten

/-- An `io.LimitedReader` over a `bufio.Reader`: the value of `req.Body`. -/
structure LimitedReader where
  R : Reader
  N : Int
  deriving DecidableEq, Repr

/-- The method `Read(p)` of `io.LimitedReader` with `len(p) = n`. -/
def LimitedReader.Read (l : LimitedReader) (n : Nat) : (Str × Option Err) × LimitedReader :=
  if l.N ≤ 0 then (([], some Err.EOF), l)
  else
    let m : Nat := if (n : Int) > l.N then l.N.toNat else n
    let r := l.R.Read m
    (r.1, { R := r.2, N := l.N - (r.1.1.length : Int) })

/-- Reading a body until `Read` reports an error (`io.EOF` at its end), with a buffer
of `chunk` bytes; at most `fuel` reads. -/
def readToEndLoop (chunk : Nat) : Nat → LimitedReader → Str × LimitedReader
  | 0, l => ([], l)
  | fuel + 1, l =>
    match (l.Read chunk).1.2 with
    | some _ => ((l.Read chunk).1.1, (l.Read chunk).2)
    | none =>
      ((l.Read chunk).1.1 ++ (readToEndLoop chunk fuel (l.Read chunk).2).1,
        (readToEndLoop chunk fuel (l.Read chunk).2).2)

/-- Reading a body to its end with a buffer of `chunk > 0` bytes: the bytes read and
the reader afterwards. Every read but the last returns at least one byte, so `N + 1`
reads are enough. -/
def readToEnd (chunk : Nat) (l : LimitedReader) : Str × LimitedReader :=
  readToEndLoop chunk (l.N.toNat + 1) l

/-- The call `io.Copy(ioutil.Discard, req.Body)`: `ioutil.Discard` reads with a buffer
of 8192 bytes and drops what it reads. -/
def copyDiscard (l : LimitedReader) : LimitedReader :=
  (readToEnd 8192 l).2

/-- The number of bytes still to come on a connection. -/
def Conn.unread (c : Conn) : Nat :=
  c.pending.flatten.length

/-- The method `httpConn.readReq`: a new `bufio.Reader` of `bufSize`
(`ServerRequestBufSize`) bytes on the connection, then the loop. On a connection whose
error is not `ErrBufferFull` every `ReadLine` consumes a byte or reports an error,
which bounds the passes; `none` means that the bound was reached. The reader comes back with the outcome: `req.Body` is the
`LimitedReader` over it with `N = req.ContentLength`, and the connection is its
field `rd`. -/
def readReq (bufSize : Nat) (parseURI : Str → Option URL) (c : Conn) :
    Option (Outcome Request × Reader) :=
  readReqLoop Reader.ReadLine Reader.writeAt parseURI (c.unread + 1) ReadState.init
    (NewReaderSize c bufSize)

/-! ## The response encoder `httpConn.writeResp` (server.go 242-272) -/

/-- The text `fmt.Sprintf("%s %d %s\n", resp.Proto, resp.StatusCode, resp.Status)`. -/
def statusLine (resp : Response) : Str :=
  resp.Proto ++ " ".toList ++ FormatInt resp.StatusCode ++ " ".toList ++ resp.Status
    ++ "\n".toList

/-- The text `fmt.Sprintf("%s: %s\n", key, value)`. -/
def headerLine (kv : Str × Str) : Str :=
  kv.1 ++ ": ".toList ++ kv.2 ++ "\n".toList

/-- The method `Write(p)` of the connection: the number of bytes taken and the error. -/
def Conn.Write (c : Conn) (p : Str) : (Nat × Option Err) × Conn :=
  match c.writeLimit with
  | none => ((p.length, none), { c with sent := c.sent ++ p })
  | some (k, e) =>
    if p.length ≤ k then
      ((p.length, none), { c with sent := c.sent ++ p, writeLimit := some (k - p.length, e) })
    else
      ((k, some e), { c with sent := c.sent ++ p.take k, writeLimit := some (0, e) })

/-- The state of a `bufio.Writer`: the length of its buffer, the bytes buffered
(`b.buf[0:b.n]`), its error `b.err`, and the connection it writes to. -/
structure Writer where
  size : Nat
  buf : Str
  err : Option Err
  wr : Conn
  deriving DecidableEq, Repr

/-- The function `bufio.NewWriterSize`: a size that is not positive gives the default
size of 4096 bytes. -/
def NewWriterSize (wr : Conn) (size : Nat) : Writer :=
  { size := if size = 0 then 4096 else size, buf := [], err := none, wr := wr }

/-- The method `Flush` of `bufio.Writer`. -/
def Writer.Flush (b : Writer) : Option Err × Writer :=
  match b.err with
  | some e => (some e, b)
  | none =>
    if b.buf.isEmpty then (none, b)
    else
      match (b.wr.Write b.buf).1.2 with
      | none => (none, { b with buf := [], wr := (b.wr.Write b.buf).2 })
      | some e =>
        (some e, { b with buf := b.buf.drop (b.wr.Write b.buf).1.1, err := some e,
                          wr := (b.wr.Write b.buf).2 })

/-- The loop of `WriteString`: while the text does not fit in the free part of the
buffer and there is no error, fill the buffer from the text and flush. The result is
the writer and the text left; at most `fuel` rounds. -/
def writeStringLoop : Nat → Writer → Str → Writer × Str
  | 0, b, s => (b, s)
  | fuel + 1, b, s =>
    if s.length > b.size - b.buf.length ∧ b.err = none then
      writeStringLoop fuel
        ({ b with buf := b.buf ++ s.take (b.size - b.buf.length) } : Writer).Flush.2
        (s.drop (b.size - b.buf.length))
    else (b, s)

/-- The method `WriteString(s)` of `bufio.Writer`: the error it returns and the writer
afterwards. Each round of its loop but the first takes at least one byte of the text,
so `len(s) + 2` rounds are enough. -/
def Writer.WriteString (b : Writer) (s : Str) : Option Err × Writer :=
  match (writeStringLoop (s.length + 2) b s).1.err with
  | some e => (some e, (writeStringLoop (s.length + 2) b s).1)
  | none =>
    (none, { (writeStringLoop (s.length + 2) b s).1 with
      buf := (writeStringLoop (s.length + 2) b s).1.buf ++ (writeStringLoop (s.length + 2) b s).2 })

/-- The method `WriteByte(c)` of `bufio.Writer`. -/
def Writer.WriteByte (b : Writer) (c : Char) : Option Err × Writer :=
  match b.err with
  | some e => (some e, b)
  | none =>
    if b.size - b.buf.length ≤ 0 then
      match b.Flush.1 with
      | some e => (some e, b.Flush.2)
      | none => (none, { b.Flush.2 with buf := b.Flush.2.buf ++ [c] })
    else (none, { b with buf := b.buf ++ [c] })

/-- The loop of `Write`: as that of `WriteString`, but with an empty buffer the bytes
go straight to the connection. -/
def writeLoop : Nat → Writer → Str → Writer × Str
  | 0, b, p => (b, p)
  | fuel + 1, b, p =>
    if p.length > b.size - b.buf.length ∧ b.err = none then
      if b.buf.isEmpty then
        writeLoop fuel { b with err := (b.wr.Write p).1.2, wr := (b.wr.Write p).2 }
          (p.drop (b.wr.Write p).1.1)
      else
        writeLoop fuel
          ({ b with buf := b.buf ++ p.take (b.size - b.buf.length) } : Writer).Flush.2
          (p.drop (b.size - b.buf.length))
    else (b, p)

/-- The method `Write(p)` of `bufio.Writer`: the error it returns and the writer
afterwards. -/
def Writer.Write (b : Writer) (p : Str) : Option Err × Writer :=
  match (writeLoop (p.length + 2) b p).1.err with
  | some e => (some e, (writeLoop (p.length + 2) b p).1)
  | none =>
    (none, { (writeLoop (p.length + 2) b p).1 with
      buf := (writeLoop (p.length + 2) b p).1.buf ++ (writeLoop (p.length + 2) b p).2 })

/-- What a call of `writeResp` leaves: how it ended, the texts it handed to the writer
in calls that reported no error, in order, the connection, and the response. -/
structure Written where
  outcome : Outcome Unit
  handed : List Str
  conn : Conn
  resp : Response

/-- The loop `for key, value := range resp.Header` of `writeResp` over the entries in
the order of iteration: the error that ended it, if any, the writer, and the texts
handed so far. -/
def writeHeaderLines : List (Str × Str) → Writer → List Str → Option Err × Writer × List Str
  | [], w, handed => (none, w, handed)
  | kv :: rest, w, handed =>
    match (w.WriteString (headerLine kv)).1 with
    | some e => (some e, (w.WriteString (headerLine kv)).2, handed)
    | none =>
      writeHeaderLines rest (w.WriteString (headerLine kv)).2 (handed ++ [headerLine kv])

/-- The method `httpConn.writeResp` on the connection `c`, with a writer of `bufSize`
(`ServerResponseBufSize`) bytes; `range` gives the order in which the header map is
iterated. An error of the writer ends it at once. A panic of `resp.writeBuff[:n]` leaves
what the writer holds unwritten. -/
def writeResp (range : GoMap Str → List (Str × Str)) (bufSize : Nat) (c : Conn)
    (resp : Response) : Written :=
  let w1 := (NewWriterSize c bufSize).WriteString (statusLine resp)
  match w1.1 with
  | some e => { outcome := Outcome.fail e, handed := [], conn := w1.2.wr, resp := resp }
  | none =>
    let header := resp.Header.set HeaderContentLength (FormatInt resp.ContentLength)
    let resp2 : Response := { resp with Header := header }
    let w2 := writeHeaderLines (range header) w1.2 [statusLine resp]
    match w2.1 with
    | some e => { outcome := Outcome.fail e, handed := w2.2.2, conn := w2.2.1.wr, resp := resp2 }
    | none =>
      let w3 := w2.2.1.WriteByte '\n'
      match w3.1 with
      | some e =>
        { outcome := Outcome.fail e, handed := w2.2.2, conn := w3.2.wr, resp := resp2 }
      | none =>
        match slice (resp.writeBuff ++ resp.writeBuffSpare) 0 resp.ContentLength with
        | none =>
          { outcome := Outcome.panic, handed := w2.2.2 ++ ["\n".toList], conn := w3.2.wr,
            resp := resp2 }
        | some body =>
          let w4 := w3.2.Write body
          match w4.1 with
          | some e =>
            { outcome := Outcome.fail e, handed := w2.2.2 ++ ["\n".toList], conn := w4.2.wr,
              resp := resp2 }
          | none =>
            let w5 := w4.2.Flush
            match w5.1 with
            | some e =>
              { outcome := Outcome.fail e, handed := w2.2.2 ++ ["\n".toList] ++ [body],
                conn := w5.2.wr, resp := resp2 }
            | none =>
              { outcome := Outcome.ok (), handed := w2.2.2 ++ ["\n".toList] ++ [body],
                conn := w5.2.wr, resp := resp2 }

/-! ## The connection loop `httpConn.serve` (server.go 210-240) -/

/-- What a handler does: it fills the response and may read the request body. -/
abbrev HandlerFn := Response → Request → LimitedReader → Response × LimitedReader

/-- What `serve` depends on besides the connection. -/
structure ServeEnv where
  /-- The constant `ServerRequestBufSize`. -/
  bufSize : Nat
  /-- The function `url.ParseRequestURI`. -/
  parseURI : Str → Option URL
  /-- The variable `NotFoundHandler`. -/
  NotFoundHandler : HandlerFn
  /-- The table `srv.handlers`. -/
  handlers : GoMap (Handler HandlerFn)
  /-- The order in which `range` visits the handler table. -/
  rangeHandlers : GoMap (Handler HandlerFn) → List (Str × Handler HandlerFn)
  /-- The order in which `range` visits a header map. -/
  rangeHeader : GoMap Str → List (Str × Str)
  /-- The constant `ServerResponseBufSize`. -/
  respBufSize : Nat

/-- The response that `serve` makes for a request before it calls the handler:
`&Response{Proto: HTTPVersion, Header: make(map[string]string)}`. -/
def freshResponse : Response :=
  { Proto := HTTPVersion, StatusCode := 0, Status := [], Header := [], writeBuff := [],
    ContentLength := 0 }

/-- How one pass of the loop of `serve` ends. -/
inductive ServeStep where
  /-- The response is written and the loop goes round again on this connection. -/
  | next (c : Conn)
  /-- The call `hc.clean()` and `return`. -/
  | closed (c : Conn)
  /-- A run-time panic. -/
  | panic
  /-- The bound on the passes of `readReq` was reached. -/
  | outOfFuel
  deriving DecidableEq, Repr

/-- One pass of the loop of `serve`: decode, look up, call the handler, discard the
rest of the body, write the response. -/
def serveStep (env : ServeEnv) (c : Conn) : ServeStep :=
  match readReq env.bufSize env.parseURI c with
  | none => ServeStep.outOfFuel
  | some (Outcome.panic, _) => ServeStep.panic
  | some (Outcome.fail _, reader) => ServeStep.closed { reader.rd with closed := true }
  | some (Outcome.ok req, reader) =>
    match req.URL with
    | none => ServeStep.panic
    | some u =>
      match Server.match env.NotFoundHandler (env.rangeHandlers env.handlers) u.Path with
      | none => ServeStep.panic
      | some Handler.nil => ServeStep.panic
      | some (Handler.val handler) =>
        let served := handler freshResponse req { R := reader, N := req.ContentLength }
        let body := copyDiscard served.2
        let written := writeResp env.rangeHeader env.respBufSize body.R.rd served.1
        match written.outcome with
        | Outcome.panic => ServeStep.panic
        | Outcome.fail _ => ServeStep.closed { written.conn with closed := true }
        | Outcome.ok _ => ServeStep.next written.conn

/-- The method `httpConn.serve`, for at most `fuel` passes of its loop: the
connection when it returns, `none` for a panic or when a bound was reached. -/
def serve (env : ServeEnv) : Nat → Conn → Option Conn
  | 0, _ => none
  | fuel + 1, c =>
    match serveStep env c with
    | ServeStep.next c2 => serve env fuel c2
    | ServeStep.closed c2 => some c2
    | ServeStep.panic => none
    | ServeStep.outOfFuel => none

/-! ## Predicates used in the statements -/

/-- The text `s` is `a`, then the separator, then `b`, and the separator does not
occur in `s` before that place. -/
def FirstSplit (sep s a b : Str) : Prop :=
  s = a ++ sep ++ b ∧ ∀ a2 b2 : Str, s = a2 ++ sep ++ b2 → a.length ≤ a2.length

/-- The line is three fields without a space, with one space between them; the first
is `GET` or `POST` and the third is `HTTPVersion`. -/
def RequestLineOK (line f0 f1 f2 : Str) : Prop :=
  line = f0 ++ ' ' :: (f1 ++ ' ' :: f2) ∧ ' ' ∉ f0 ∧ ' ' ∉ f1 ∧ ' ' ∉ f2 ∧
    (f0 = MethodGet ∨ f0 = MethodPost) ∧ f2 = HTTPVersion

/-- The state of `readReq` after the request line `GET /x HTTP/1.1` and the header
line `Host: a`; used to evaluate statements about the header step. -/
def sampleHeaderState : ReadState :=
  { req := { Method := MethodGet,
             URL := some { Scheme := [], Host := [], Path := "/x".toList },
             Proto := HTTPVersion, Header := [("Host".toList, "a".toList)],
             ContentLength := 0 },
    wholeLine := "Host: a".toList, lastWait := false, step := RequestStep.Header }

/-- A connection on which the given portions arrive, followed by an orderly close. -/
def connOf (portions : List Str) : Conn :=
  { pending := portions, closeErr := Err.EOF, sent := [], closed := false }

/-- Modelled from the spec: the handler `NotFoundHandler` calls `Response.Write` and
`Response.WriteStatus`, which are declared outside `server.go`; by the spec it
"always responds with a not found status and an empty body". It does not read the
request body. -/
def notFound : HandlerFn :=
  fun resp _ body =>
    ({ resp with StatusCode := 404, Status := "Not Found".toList, ContentLength := 0 }, body)

/-- A server without registered handlers whose reader has `bufSize` bytes; maps are
iterated in the order of their association lists. -/
def plainEnv (bufSize : Nat) : ServeEnv :=
  { bufSize := bufSize, parseURI := pathOnlyURI, NotFoundHandler := notFound,
    handlers := [], rangeHandlers := id, rangeHeader := id, respBufSize := 4096 }

/-- A handler that reads the request body to its end and answers with status 200. -/
def bodyReadingHandler : HandlerFn :=
  fun resp _ body =>
    ({ resp with StatusCode := 200, Status := "OK".toList, ContentLength := 0 },
      (readToEnd 512 body).2)

/-- The server of `plainEnv` with `bodyReadingHandler` registered under `/`. -/
def readingEnv (bufSize : Nat) : ServeEnv :=
  { plainEnv bufSize with handlers := [("/".toList, Handler.val bodyReadingHandler)] }

/-- What the next `readReq` on a connection finds after one pass of `serve`: the data
still pending on the connection and the outcome of `readReq`. -/
def afterServeStep (env : ServeEnv) (c : Conn) :
    Option (List Str × Option (Outcome Request)) :=
  match serveStep env c with
  | ServeStep.next c2 =>
    some (c2.pending, (readReq env.bufSize env.parseURI c2).map Prod.fst)
  | _ => none

/-- A response whose header map already holds a `Content-Length` set by the caller. -/
def sampleResponse : Response :=
  { Proto := HTTPVersion, StatusCode := 200, Status := "OK".toList,
    Header := [(HeaderContentLength, "999".toList), ("X".toList, "y".toList)],
    writeBuff := "hi".toList, ContentLength := 2 }

/-! ## Registration: `NewServer` and `Server.AddHandler` (server.go 44-103) -/

/-- The handler table of a server made by `NewServer`: `make(map[string]Handler)`. -/
def NewServer {H : Type} : GoMap (Handler H) := []

/-- The method `Server.AddHandler(pattern, handler)` on the table `handlers`: the
message of the panic, if it panics, and the table afterwards. -/
def Server.AddHandler {H : Type} (handlers : GoMap (Handler H)) (pattern : Str)
    (handler : Handler H) : Option Str × GoMap (Handler H) :=
  if pattern = [] then
    (some ("http: invalid pattern ".toList ++ pattern), handlers)
  else
    match handler with
    | Handler.nil => (some "http: nil handler".toList, handlers)
    | Handler.val _ => (none, handlers.set pattern handler)

/-- The table after a sequence of calls of `AddHandler`, starting from `handlers`;
`none` when one of the calls panics. -/
def registerAll {H : Type} :
    List (Str × Handler H) → GoMap (Handler H) → Option (GoMap (Handler H))
  | [], handlers => some handlers
  | (pattern, handler) :: rest, handlers =>
    match (Server.AddHandler handlers pattern handler).1 with
    | none => registerAll rest (Server.AddHandler handlers pattern handler).2
    | some _ => none

/-- The handler of the last call for `pattern` in a sequence of calls of `AddHandler`. -/
def lastRegistered {H : Type} (regs : List (Str × Handler H)) (pattern : Str) :
    Option (Handler H) :=
  (regs.reverse.find? (fun r => decide (r.1 = pattern))).map Prod.snd

/-! ## The accept loop `Server.Serve` (server.go 162-188) -/

/-- What a call of `l.Accept()` returns in `Serve`: a connection, or an error, with
whether `srv.doneChan` is closed (by `Shutdown`) when `Serve` looks at it. -/
inductive AcceptResult where
  | conn : AcceptResult
  | err (e : Err) (done : Bool) : AcceptResult
  deriving DecidableEq, Repr

/-- The non-nil errors that `Serve` can be asked to return: the variable
`ErrServerClosed`, or the error of `Accept`. -/
inductive ServeErr where
  | ErrServerClosed : ServeErr
  | accept (e : Err) : ServeErr
  deriving DecidableEq, Repr

/-- The method `Server.Serve` over the results of its calls of `Accept`; `closed` is the
field `srv.closed`, which nothing assigns after `NewServer` set it to false. The result
is the error returned (`none` is nil); the outer `none` means that `Serve` is still
waiting in `Accept` when the results are used up. Each connection is served by a
goroutine of its own, which has no part in the result. -/
def Server.Serve (closed : Bool) : List AcceptResult → Option (Option ServeErr)
  | [] => if closed then some none else none
  | AcceptResult.conn :: rest => if closed then some none else Server.Serve closed rest
  | AcceptResult.err e done :: _ =>
    if closed then some none
    else if done then some (some (ServeErr.accept e))
    else some (some (ServeErr.accept e))

/-! ## Runs of `httpConn.serve` -/

/-- A handler that leaves alone what was written to the peer: it has the request body
to read and no access to the write side of the connection. -/
def KeepsSent (h : HandlerFn) : Prop :=
  ∀ resp req body, (h resp req body).2.R.rd.sent = body.R.rd.sent

/-- All handlers of a server leave alone what was written to the peer. -/
def HandlersKeepSent (env : ServeEnv) : Prop :=
  KeepsSent env.NotFoundHandler ∧
    ∀ kv ∈ env.handlers, ∀ f, kv.2 = Handler.val f → KeepsSent f

/-- The wire format of a response, as the spec words it: the version, the status code
in decimal and the status text with single spaces between them and a newline; each
header as name, colon, space, value and a newline; an empty line; then the first
`ContentLength` bytes of the body buffer. `lines` lists the headers in the order in
which they are sent. -/
def responseBytes (lines : List (Str × Str)) (resp : Response) : Str :=
  resp.Proto ++ " ".toList ++ FormatInt resp.StatusCode ++ " ".toList ++ resp.Status
    ++ "\n".toList
    ++ (lines.map (fun kv => kv.1 ++ ": ".toList ++ kv.2 ++ "\n".toList)).flatten
    ++ "\n".toList
    ++ (resp.writeBuff ++ resp.writeBuffSpare).take resp.ContentLength.toNat

/-- How a run of `serve` ends: `readReq` returns an error, or `writeResp` does. -/
inductive RunEnd where
  | readError
  | writeError
  deriving DecidableEq, Repr

/-- A run of the loop of `serve` from a connection to the connection it leaves. Each
pass decodes a request, calls the handler that `match` finds for its path on a fresh
response, and leaves on the connection, behind what was sent before, the bytes of that
response with the `Content-Length` header set; the log lists the requests of the passes
with these bytes, in order. The run ends in the pass in which `readReq` returns an
error, with the connection closed, or in one in which `writeResp` fails. -/
inductive ServeRun (env : ServeEnv) : Conn → List (Request × Str) → RunEnd → Conn → Prop where
  | stop (c : Conn) (reader : Reader) (e : Err)
      (hdec : readReq env.bufSize env.parseURI c = some (Outcome.fail e, reader)) :
      ServeRun env c [] RunEnd.readError { reader.rd with closed := true }
  | stopWrite (c c2 : Conn) (req : Request) (reader : Reader)
      (hdec : readReq env.bufSize env.parseURI c = some (Outcome.ok req, reader))
      (hstep : serveStep env c = ServeStep.closed c2) :
      ServeRun env c [] RunEnd.writeError c2
  | pass (c c2 cEnd : Conn) (req : Request) (reader : Reader) (u : URL)
      (handler : HandlerFn) (lines : List (Str × Str)) (log : List (Request × Str))
      (ending : RunEnd)
      (hdec : readReq env.bufSize env.parseURI c = some (Outcome.ok req, reader))
      (hurl : req.URL = some u)
      (hmatch : Server.match env.NotFoundHandler (env.rangeHandlers env.handlers) u.Path
        = some (Handler.val handler))
      (hlines : lines.Perm
        ((handler freshResponse req { R := reader, N := req.ContentLength }).1.Header.set
          HeaderContentLength
          (FormatInt
            (handler freshResponse req { R := reader, N := req.ContentLength }).1.ContentLength)))
      (hstep : serveStep env c = ServeStep.next c2)
      (hsent : c2.sent = c.sent ++
        responseBytes lines (handler freshResponse req { R := reader, N := req.ContentLength }).1)
      (hrest : ServeRun env c2 log ending cEnd) :
      ServeRun env c
        ((req, responseBytes lines
            (handler freshResponse req { R := reader, N := req.ContentLength }).1) :: log)
        ending cEnd

/-- A writer without an error on a connection that takes every write. -/
def Writer.Healthy (b : Writer) : Prop :=
  b.err = none ∧ b.wr.writeLimit = none

/-! ## A model of `url.ParseRequestURI` -/

/-- The function `getScheme` of `net/url`: the scheme before the first `:` when only
letters, and after the first byte digits, `+`, `-`, `.`, come before it, and the rest;
`none` is the error "missing protocol scheme". `seen` holds the bytes passed. -/
def getSchemeFrom (rawURL : Str) : Str → Str → Option (Str × Str)
  | _, [] => some ([], rawURL)
  | seen, c :: cs =>
    if c.isAlpha then getSchemeFrom rawURL (seen ++ [c]) cs
    else if c.isDigit ∨ c = '+' ∨ c = '-' ∨ c = '.' then
      if seen = [] then some ([], rawURL) else getSchemeFrom rawURL (seen ++ [c]) cs
    else if c = ':' then
      if seen = [] then none else some (seen, cs)
    else some ([], rawURL)

/-- Whether `unescape` in host mode accepts the byte: letters, digits and the
punctuation that `shouldEscape` lets through in a host. -/
def hostByteOK (c : Char) : Bool :=
  c.isAlphanum || "!$&'()*+,;=:[]<>\"-_.~".toList.contains c || decide (c.toNat ≥ 128)

/-- The function `validOptionalPort` of `net/url`: empty, or `:` and digits. -/
def validOptionalPort (port : Str) : Bool :=
  match port with
  | [] => true
  | c :: ds => decide (c = ':') && ds.all Char.isDigit

/-- The text from the last `:` on, if there is a `:`. -/
def fromLastColon : Str → Option Str
  | [] => none
  | c :: cs =>
    match fromLastColon cs with
    | some r => some r
    | none => if c = ':' then some (c :: cs) else none

/-- The function `url.ParseRequestURI` of the standard library for targets without
`%`, `@` and `[` (no escapes, no user information, no IP literal): such targets are
outside this model, which rejects them. The result has the scheme (in lower case), the
host and the path of the URL; the query is cut off, and `none` is a non-nil error. The
steps are those of `parse` with `viaRequest`: no control byte; not empty; `*` alone is
the path `*`; `getScheme`; the query; without a leading `/` the target is opaque when
it has a scheme and an error otherwise; with a scheme and a leading `//` the authority
up to the next `/` is the host; the rest is the path. -/
def ParseRequestURI (rawURL : Str) : Option URL :=
  if rawURL.any (fun c => decide (c.toNat < 32 ∨ c.toNat = 127)) then none
  else if rawURL.any (fun c => decide (c = '%' ∨ c = '@' ∨ c = '[')) then none
  else if rawURL = [] then none
  else if rawURL = ['*'] then some { Scheme := [], Host := [], Path := ['*'] }
  else
    match getSchemeFrom rawURL [] rawURL with
    | none => none
    | some (scheme, rest0) =>
      let scheme := scheme.map Char.toLower
      let rest := (rest0.takeWhile (fun c => decide (c ≠ '?')))
      if rest.head? ≠ some '/' then
        if scheme ≠ [] then some { Scheme := scheme, Host := [], Path := [] } else none
      else if scheme ≠ [] ∧ ['/', '/'].isPrefixOf rest then
        let authority := (rest.drop 2).takeWhile (fun c => decide (c ≠ '/'))
        let path := (rest.drop 2).dropWhile (fun c => decide (c ≠ '/'))
        if !(validOptionalPort ((fromLastColon authority).getD [])) then none
        else if !(authority.all hostByteOK) then none
        else some { Scheme := scheme, Host := authority, Path := path }
      else some { Scheme := scheme, Host := [], Path := rest }

/-! ## Properties of the route table -/

theorem index_last (s : Str) (h : s ≠ []) :
    index s ((s.length : Int) - 1) = s.getLast? := by
  have hl : 0 < s.length := List.length_pos.mpr h
  have h1 : ((s.length : Int) - 1) = ((s.length - 1 : Nat) : Int) := by omega
  unfold index
  rw [h1, if_pos (by omega), Int.toNat_ofNat, List.getLast?_eq_getElem?, List.get?_eq_getElem?]

theorem slice_zero (s : Str) (n : Nat) (h : n ≤ s.length) :
    slice s 0 (n : Int) = some (s.take n) := by
  unfold slice
  rw [if_pos (by omega)]
  simp

/-- Closed form of `pathMatch`: it never panics and decides the two match rules. -/
theorem pathMatch_eq (pattern path : Str) :
    pathMatch pattern path = some (decide (pattern ≠ [] ∧
      ((pattern.getLast? ≠ some '/' ∧ pattern = path) ∨
       (pattern.getLast? = some '/' ∧ pattern <+: path)))) := by
  unfold pathMatch
  by_cases h0 : pattern = []
  · subst h0; simp
  · have hl : pattern.length ≠ 0 := fun h => h0 (List.length_eq_zero.mp h)
    rw [if_neg hl]
    simp only [index_last pattern h0]
    obtain ⟨c, hc⟩ : ∃ c, pattern.getLast? = some c := by
      cases hg : pattern.getLast? with
      | none => exact absurd (List.getLast?_eq_none_iff.mp hg) h0
      | some c => exact ⟨c, rfl⟩
    rw [hc]
    by_cases hs : c = '/'
    · subst hs
      simp only [ne_eq, not_true_eq_false, if_false, ite_false]
      by_cases hlen : (path.length : Int) ≥ (pattern.length : Int)
      · rw [if_pos hlen, slice_zero path pattern.length (by omega)]
        simp only [h0, not_false_eq_true, true_and, false_and, false_or]
        have hiff : (List.take pattern.length path = pattern) ↔ pattern <+: path := by
          rw [List.prefix_iff_eq_take]
          exact eq_comm
        simp only [hiff]
      · rw [if_neg hlen]
        have : ¬ pattern <+: path := fun hp => hlen (by have := hp.length_le; omega)
        simp [this]
    · simp [hs, h0]

theorem pathMatch_true_iff (pattern path : Str) :
    pathMatch pattern path = some true ↔
      (pattern ≠ [] ∧ ((pattern.getLast? ≠ some '/' ∧ pattern = path) ∨
        (pattern.getLast? = some '/' ∧ pattern <+: path))) := by
  rw [pathMatch_eq]
  simp only [Option.some.injEq, decide_eq_true_eq]

theorem prefix_of_pathMatch {pattern path : Str} (h : pathMatch pattern path = some true) :
    pattern <+: path := by
  rcases (pathMatch_true_iff pattern path).mp h with ⟨_, ⟨_, he⟩ | ⟨_, hp⟩⟩
  · exact he ▸ List.prefix_refl _
  · exact hp

/-- Two patterns of the same length that match the same path are the same pattern. -/
theorem pathMatch_same_length {p q path : Str} (hp : pathMatch p path = some true)
    (hq : pathMatch q path = some true) (hlen : p.length = q.length) : p = q :=
  (List.prefix_of_prefix_length_le (prefix_of_pathMatch hp) (prefix_of_pathMatch hq)
    (le_of_eq hlen)).eq_of_length hlen

/-- In a table with distinct keys a key has one value. -/
theorem value_unique {V : Type} :
    ∀ (t : List (Str × V)), (t.map Prod.fst).Nodup →
      ∀ (k : Str) (v w : V), (k, v) ∈ t → (k, w) ∈ t → v = w
  | [], _, _, _, _, hv, _ => by cases hv
  | (k0, v0) :: rest, hnd, k, v, w, hv, hw => by
    rw [List.map_cons, List.nodup_cons] at hnd
    have hin : ∀ u, (k, u) ∈ rest → k ∈ rest.map Prod.fst := fun u hu =>
      List.mem_map.mpr ⟨(k, u), hu, rfl⟩
    rcases List.mem_cons.mp hv with hv | hv <;> rcases List.mem_cons.mp hw with hw | hw
    · cases hv; cases hw; rfl
    · cases hv; exact absurd (hin w hw) hnd.1
    · cases hw; exact absurd (hin v hv) hnd.1
    · exact value_unique rest hnd.2 k v w hv hw

/-- What the loop of `Server.match` leaves in `(matchLen, h)`: the state it started
from when nothing longer matched, and otherwise a matching entry at least as long as
every matching entry. It never panics. -/
theorem matchLoop_spec {H : Type} (path : Str) :
    ∀ (l : List (Str × Handler H)) (acc : Nat × Handler H),
      ∃ r, matchLoop path l acc = some r ∧
        ((r = acc ∧ ∀ kv ∈ l, pathMatch kv.1 path = some true → kv.1.length ≤ acc.1) ∨
         (∃ kv ∈ l, pathMatch kv.1 path = some true ∧ r = (kv.1.length, kv.2) ∧
            acc.1 < kv.1.length ∧
            ∀ kv2 ∈ l, pathMatch kv2.1 path = some true → kv2.1.length ≤ kv.1.length))
  | [], acc => ⟨acc, rfl, Or.inl ⟨rfl, fun _ h => by cases h⟩⟩
  | (k, v) :: rest, (matchLen, h) => by
    obtain ⟨b, hb⟩ : ∃ b, pathMatch k path = some b := ⟨_, pathMatch_eq k path⟩
    by_cases hc : (b && decide (k.length > matchLen)) = true
    · obtain ⟨r, hr, hcase⟩ := matchLoop_spec path rest (k.length, v)
      have hbt : b = true := by
        simp only [Bool.and_eq_true] at hc; exact hc.1
      have hgt : matchLen < k.length := by
        simp only [Bool.and_eq_true, decide_eq_true_eq] at hc; exact hc.2
      subst hbt
      refine ⟨r, ?_, Or.inr ?_⟩
      · simp only [matchLoop, hb, hc, if_true]; exact hr
      · rcases hcase with ⟨hreq, hle⟩ | ⟨kv, hmem, hm, hreq, hlt, hle⟩
        · refine ⟨(k, v), List.mem_cons_self _ _, hb, hreq, hgt, ?_⟩
          intro kv2 hmem2 hm2
          rcases List.mem_cons.mp hmem2 with h2 | h2
          · rw [h2]
          · exact hle kv2 h2 hm2
        · refine ⟨kv, List.mem_cons_of_mem _ hmem, hm, hreq, ?_, ?_⟩
          · simp only at hlt ⊢; omega
          · intro kv2 hmem2 hm2
            rcases List.mem_cons.mp hmem2 with h2 | h2
            · rw [h2]; simp only at hlt ⊢; omega
            · exact hle kv2 h2 hm2
    · obtain ⟨r, hr, hcase⟩ := matchLoop_spec path rest (matchLen, h)
      have hk : pathMatch k path = some true → k.length ≤ matchLen := by
        intro hkt
        rw [hb] at hkt
        cases hkt
        simp only [Bool.true_and, decide_eq_true_eq] at hc
        omega
      refine ⟨r, ?_, ?_⟩
      · simp only [matchLoop, hb, hc]; exact hr
      · rcases hcase with ⟨hreq, hle⟩ | ⟨kv, hmem, hm, hreq, hlt, hle⟩
        · refine Or.inl ⟨hreq, ?_⟩
          intro kv2 hmem2 hm2
          rcases List.mem_cons.mp hmem2 with h2 | h2
          · rw [h2]; exact hk (by rw [h2] at hm2; exact hm2)
          · exact hle kv2 h2 hm2
        · refine Or.inr ⟨kv, List.mem_cons_of_mem _ hmem, hm, hreq, hlt, ?_⟩
          intro kv2 hmem2 hm2
          rcases List.mem_cons.mp hmem2 with h2 | h2
          · rw [h2]
            have := hk (by rw [h2] at hm2; exact hm2)
            simp only at hlt ⊢; omega
          · exact hle kv2 h2 hm2

/-- What `Server.match` returns, read off the final loop state. -/
theorem match_of_loop {H : Type} (nf : H) (order : List (Str × Handler H)) (path : Str)
    (n : Nat) (f : H) (h : matchLoop path order (0, Handler.nil) = some (n, Handler.val f)) :
    Server.match nf order path = some (Handler.val f) := by
  simp only [Server.match, h]

/-- C1: in a handler table (distinct patterns, handlers not nil, as `AddHandler` leaves
it) iterated in any order, when some registered pattern matches the path,
`Server.match` returns the handler of a matching pattern of greatest length; and a
registered pattern `P` ending in `/` that is a prefix of the path has its handler
returned unless a strictly longer registered pattern matches. Empty patterns need no
assumption: they match nothing. -/
theorem match_longest_wins {H : Type} (NotFoundHandler : H)
    (t order : List (Str × Handler H)) (path : Str)
    (hkeys : (t.map Prod.fst).Nodup) (hperm : order.Perm t)
    (hnn : ∀ kv ∈ t, kv.2 ≠ Handler.nil)
    (hex : ∃ kv ∈ t, pathMatch kv.1 path = some true) :
    (∃ kv ∈ t, pathMatch kv.1 path = some true ∧
        (∀ kv2 ∈ t, pathMatch kv2.1 path = some true → kv2.1.length ≤ kv.1.length) ∧
        Server.match NotFoundHandler order path = some kv.2) ∧
    (∀ (P : Str) (v : Handler H), (P, v) ∈ t → P.getLast? = some '/' → P <+: path →
        (∀ kv2 ∈ t, pathMatch kv2.1 path = some true → ¬ P.length < kv2.1.length) →
        Server.match NotFoundHandler order path = some v) := by
  obtain ⟨r, hr, hcase⟩ := matchLoop_spec path order (0, Handler.nil)
  have hfound : ∃ kv ∈ t, pathMatch kv.1 path = some true ∧
      (∀ kv2 ∈ t, pathMatch kv2.1 path = some true → kv2.1.length ≤ kv.1.length) ∧
      Server.match NotFoundHandler order path = some kv.2 := by
    rcases hcase with ⟨_, hle⟩ | ⟨kv, hmem, hm, hreq, _, hle⟩
    · obtain ⟨kv, hmem, hm⟩ := hex
      have h0 := hle kv (hperm.symm.subset hmem) hm
      have hne : kv.1 ≠ [] := ((pathMatch_true_iff kv.1 path).mp hm).1
      have := List.length_pos.mpr hne
      simp only at h0
      omega
    · have hmem2 : kv ∈ t := hperm.subset hmem
      refine ⟨kv, hmem2, hm, fun kv2 h2 hm2 => hle kv2 (hperm.symm.subset h2) hm2, ?_⟩
      obtain ⟨k, v⟩ := kv
      cases v with
      | nil => exact absurd rfl (hnn _ hmem2)
      | val f =>
        rw [hreq] at hr
        exact match_of_loop NotFoundHandler order path _ f hr
  refine ⟨hfound, ?_⟩
  intro P v hP hslash hpre hnolonger
  obtain ⟨kv, hmem, hm, hle, hres⟩ := hfound
  have hPne : P ≠ [] := by
    intro h; rw [h] at hslash; cases hslash
  have hPm : pathMatch P path = some true :=
    (pathMatch_true_iff P path).mpr ⟨hPne, Or.inr ⟨hslash, hpre⟩⟩
  have h1 : P.length ≤ kv.1.length := hle (P, v) hP hPm
  have h2 : ¬ P.length < kv.1.length := hnolonger kv hmem hm
  have heq : P = kv.1 := pathMatch_same_length hPm hm (by omega)
  have hv : v = kv.2 := by
    obtain ⟨k, w⟩ := kv
    simp only at heq
    subst heq
    exact value_unique t hkeys P v w hP hmem
  rw [hres, hv]

/-- C1, at a table of two prefix patterns iterated in the order opposite to the one
they are listed in. -/
theorem match_longest_wins_witness :
    Server.match 0 [("/a/".toList, Handler.val 2), ("/".toList, Handler.val 1)]
        "/a/b".toList = some (Handler.val 2) :=
  (match_longest_wins 0
      [("/".toList, Handler.val 1), ("/a/".toList, Handler.val 2)]
      [("/a/".toList, Handler.val 2), ("/".toList, Handler.val 1)] "/a/b".toList
      (by decide) (List.Perm.swap _ _ _) (by decide)
      ⟨("/".toList, Handler.val 1), by decide, by decide⟩).2
    "/a/".toList (Handler.val 2) (by decide) (by decide) (by decide) (by decide)

/-- C2: `pathMatch` always returns (it never indexes out of bounds), and it returns
true exactly when the pattern is not empty and either does not end in `/` and equals
the path, or ends in `/` and is a prefix of the path; for the empty pattern it returns
false. -/
theorem pathMatch_rules (pattern path : Str) :
    (∃ b, pathMatch pattern path = some b ∧
      (b = true ↔ (pattern ≠ [] ∧
        ((pattern.getLast? ≠ some '/' ∧ pattern = path) ∨
         (pattern.getLast? = some '/' ∧ pattern <+: path))))) ∧
    pathMatch [] path = some false := by
  refine ⟨⟨_, pathMatch_eq pattern path, ?_⟩, ?_⟩
  · simp only [decide_eq_true_eq]
  · rw [pathMatch_eq]; simp

/-- C3: when no registered pattern matches the path, `Server.match` returns
`NotFoundHandler` and does not panic; the table may be empty. -/
theorem match_not_found {H : Type} (NotFoundHandler : H)
    (order : List (Str × Handler H)) (path : Str)
    (hno : ∀ kv ∈ order, pathMatch kv.1 path ≠ some true) :
    Server.match NotFoundHandler order path = some (Handler.val NotFoundHandler) := by
  obtain ⟨r, hr, hcase⟩ := matchLoop_spec path order (0, Handler.nil)
  rcases hcase with ⟨hreq, _⟩ | ⟨kv, hmem, hm, _⟩
  · rw [hreq] at hr
    simp only [Server.match, hr]
  · exact absurd hm (hno kv hmem)

/-- C3, at the empty table and at a table whose only pattern does not match. -/
theorem match_not_found_witness :
    Server.match 0 ([] : List (Str × Handler Nat)) "/x".toList = some (Handler.val 0) ∧
    Server.match 0 [("/login".toList, Handler.val 1)] "/login/".toList
      = some (Handler.val 0) :=
  ⟨match_not_found 0 [] "/x".toList (by decide),
   match_not_found 0 [("/login".toList, Handler.val 1)] "/login/".toList (by decide)⟩

/-! ## Properties of `cut`, `SplitN` and the map operations -/

theorem cut_eq_some {sep : Str} : ∀ {s a b : Str}, cut sep s = some (a, b) → s = a ++ sep ++ b
  | [], a, b, h => by simp [cut] at h
  | c :: cs, a, b, h => by
    unfold cut at h
    by_cases hp : sep.isPrefixOf (c :: cs) = true
    · rw [if_pos hp] at h
      simp only [Option.some.injEq, Prod.mk.injEq] at h
      obtain ⟨t, ht⟩ := List.isPrefixOf_iff_prefix.mp hp
      rw [← h.1, ← h.2, ← ht]
      simp
    · rw [if_neg hp] at h
      cases hc : cut sep cs with
      | none => rw [hc] at h; cases h
      | some ab =>
        obtain ⟨a2, b2⟩ := ab
        rw [hc] at h
        simp only [Option.some.injEq, Prod.mk.injEq] at h
        rw [← h.1, ← h.2, cut_eq_some hc]
        simp

theorem cut_first {sep : Str} : ∀ {s a b : Str}, cut sep s = some (a, b) →
    ∀ a2 b2 : Str, s = a2 ++ sep ++ b2 → a.length ≤ a2.length
  | [], a, b, h => by simp [cut] at h
  | c :: cs, a, b, h => by
    intro a2 b2 hs
    unfold cut at h
    by_cases hp : sep.isPrefixOf (c :: cs) = true
    · rw [if_pos hp] at h
      simp only [Option.some.injEq, Prod.mk.injEq] at h
      rw [← h.1]; simp
    · rw [if_neg hp] at h
      cases hc : cut sep cs with
      | none => rw [hc] at h; cases h
      | some ab =>
        obtain ⟨a3, b3⟩ := ab
        rw [hc] at h
        simp only [Option.some.injEq, Prod.mk.injEq] at h
        cases a2 with
        | nil =>
          exfalso
          apply hp
          rw [List.isPrefixOf_iff_prefix]
          exact ⟨b2, by rw [hs]; simp⟩
        | cons d a4 =>
          simp only [List.cons_append, List.cons.injEq] at hs
          have := cut_first hc a4 b2 (by rw [hs.2])
          rw [← h.1]
          simp only [List.length_cons]
          omega

theorem cut_of_firstSplit {sep : Str} (hsep : sep ≠ []) :
    ∀ {a s b : Str}, FirstSplit sep s a b → cut sep s = some (a, b)
  | [], s, b, ⟨hs, _⟩ => by
    obtain ⟨c, cs, hcs⟩ : ∃ c cs, s = c :: cs := by
      cases s with
      | nil =>
        exfalso; apply hsep
        have : ([] : Str).length = (([] : Str) ++ sep ++ b).length := by rw [← hs]
        simp at this
        exact List.length_eq_zero.mp (by omega)
      | cons c cs => exact ⟨c, cs, rfl⟩
    have hp : sep.isPrefixOf (c :: cs) = true := by
      rw [List.isPrefixOf_iff_prefix]; exact ⟨b, by rw [← hcs, hs]; simp⟩
    rw [hcs]
    unfold cut
    rw [if_pos hp, ← hcs, hs]
    simp
  | c :: a, s, b, ⟨hs, hmin⟩ => by
    have hnp : ¬ sep.isPrefixOf s = true := by
      intro hp
      obtain ⟨t, ht⟩ := List.isPrefixOf_iff_prefix.mp hp
      have := hmin [] t (by rw [← ht]; simp)
      simp at this
    have hrec : cut sep (a ++ sep ++ b) = some (a, b) := by
      apply cut_of_firstSplit hsep
      refine ⟨rfl, ?_⟩
      intro a2 b2 h2
      have := hmin (c :: a2) b2 (by rw [hs]; simp only [List.cons_append]; rw [h2])
      simp only [List.length_cons] at this
      omega
    rw [hs] at hnp ⊢
    simp only [List.cons_append] at hnp ⊢
    unfold cut
    rw [if_neg hnp, hrec]

theorem cut_iff_firstSplit {sep : Str} (hsep : sep ≠ []) (s a b : Str) :
    cut sep s = some (a, b) ↔ FirstSplit sep s a b :=
  ⟨fun h => ⟨cut_eq_some h, cut_first h⟩, cut_of_firstSplit hsep⟩

theorem cut_isSome_of_eq {sep : Str} (hsep : sep ≠ []) :
    ∀ (p s q : Str), s = p ++ sep ++ q → ∃ ab, cut sep s = some ab
  | [], s, q, hs => by
    cases s with
    | nil =>
      exfalso; apply hsep
      have : ([] : Str).length = (([] : Str) ++ sep ++ q).length := by rw [← hs]
      simp at this
      exact List.length_eq_zero.mp (by omega)
    | cons c cs =>
      have hp : sep.isPrefixOf (c :: cs) = true := by
        rw [List.isPrefixOf_iff_prefix]; exact ⟨q, by rw [hs]; simp⟩
      unfold cut
      rw [if_pos hp]
      exact ⟨_, rfl⟩
  | c :: p, s, q, hs => by
    rw [hs]
    simp only [List.cons_append]
    unfold cut
    by_cases hp : sep.isPrefixOf (c :: (p ++ sep ++ q)) = true
    · simp only [List.append_assoc] at hp ⊢
      rw [if_pos hp]; exact ⟨_, rfl⟩
    · obtain ⟨ab, hab⟩ := cut_isSome_of_eq hsep p (p ++ sep ++ q) q rfl
      simp only [List.append_assoc] at hp hab ⊢
      rw [if_neg hp, hab]
      exact ⟨_, rfl⟩

/-- The separator does not occur exactly when `cut` finds nothing. -/
theorem cut_eq_none_iff {sep : Str} (hsep : sep ≠ []) (s : Str) :
    cut sep s = none ↔ ¬ sep <:+: s := by
  constructor
  · rintro h ⟨p, q, hpq⟩
    obtain ⟨ab, hab⟩ := cut_isSome_of_eq hsep p s q hpq.symm
    rw [h] at hab; cases hab
  · intro h
    cases hc : cut sep s with
    | none => rfl
    | some ab =>
      exfalso; apply h
      obtain ⟨a, b⟩ := ab
      exact ⟨a, b, (cut_eq_some hc).symm⟩

theorem SplitN_two (s sep : Str) :
    SplitN s sep 2 = match cut sep s with
      | none => [s]
      | some (a, b) => [a, b] := by
  unfold SplitN
  cases cut sep s with
  | none => rfl
  | some ab => obtain ⟨a, b⟩ := ab; simp [SplitN]

theorem SplitN_three (s sep : Str) :
    SplitN s sep 3 = match cut sep s with
      | none => [s]
      | some (a, b) =>
        match cut sep b with
        | none => [a, b]
        | some (c, d) => [a, c, d] := by
  unfold SplitN
  cases cut sep s with
  | none => rfl
  | some ab =>
    obtain ⟨a, b⟩ := ab
    have h2 := SplitN_two b sep
    cases hc : cut sep b with
    | none => rw [hc] at h2; simp only [h2, hc]
    | some cd => rw [hc] at h2; simp only [h2, hc]

theorem find_filter_ne {V : Type} (k k2 : Str) (h : k2 ≠ k) :
    ∀ m : GoMap V, (m.filter (fun kv => decide (kv.1 ≠ k))).find? (fun kv => decide (kv.1 = k2))
      = m.find? (fun kv => decide (kv.1 = k2))
  | [] => rfl
  | kv :: rest => by
    by_cases h1 : kv.1 = k
    · have h2 : ¬ kv.1 = k2 := fun e => h (e.symm.trans h1)
      rw [List.filter_cons_of_neg (by simpa using h1),
        List.find?_cons_of_neg _ (by simpa using h2)]
      exact find_filter_ne k k2 h rest
    · rw [List.filter_cons_of_pos (by simpa using h1)]
      by_cases h2 : kv.1 = k2
      · rw [List.find?_cons_of_pos _ (by simpa using h2),
          List.find?_cons_of_pos _ (by simpa using h2)]
      · rw [List.find?_cons_of_neg _ (by simpa using h2),
          List.find?_cons_of_neg _ (by simpa using h2)]
        exact find_filter_ne k k2 h rest

/-- A map after `m[k] = v`: `k` has the value `v`, every other key is as before. -/
theorem get_set {V : Type} (m : GoMap V) (k : Str) (v : V) (k2 : Str) :
    (m.set k v).get k2 = if k2 = k then some v else m.get k2 := by
  unfold GoMap.set GoMap.get
  by_cases h : k2 = k
  · subst h
    rw [if_pos rfl, List.find?_cons_of_pos _ (by simp)]
    rfl
  · have hk : ¬ k = k2 := fun e => h e.symm
    rw [if_neg h, List.find?_cons_of_neg _ (by simpa using hk), find_filter_ne k k2 h m]

/-! ## Properties of the decoder -/

theorem cut_space_append : ∀ (a b : Str), ' ' ∉ a → cut [' '] (a ++ ' ' :: b) = some (a, b)
  | [], b, _ => by simp [cut, List.isPrefixOf]
  | c :: a, b, h => by
    have hc : c ≠ ' ' := fun e => h (e ▸ List.mem_cons_self _ _)
    have ha : ' ' ∉ a := fun e => h (List.mem_cons_of_mem _ e)
    simp only [List.cons_append]
    unfold cut
    have hp : ¬ List.isPrefixOf [' '] (c :: (a ++ ' ' :: b)) = true := by
      simp [List.isPrefixOf, Ne.symm hc]
    rw [if_neg hp, cut_space_append a b ha]

theorem cut_space_not_mem {s a b : Str} (h : cut [' '] s = some (a, b)) :
    s = a ++ ' ' :: b ∧ ' ' ∉ a := by
  have hs : s = a ++ ' ' :: b := by
    have := cut_eq_some h
    simpa using this
  refine ⟨hs, ?_⟩
  intro hmem
  obtain ⟨p, q, hpq⟩ := List.append_of_mem hmem
  have := cut_first h p (q ++ ' ' :: b) (by rw [hs, hpq]; simp)
  rw [hpq] at this
  simp at this

/-- The request-line case either rejects the line as invalid, or the line has the
three fields and the outcome depends on the parse of the target alone. -/
theorem requestLineStep_cases (parseURI : Str → Option URL) (st : ReadState) (line : Str)
    (w : Bool) :
    requestLineStep parseURI st line w = LoopStep.fail Err.InvalidRequestLine ∨
    ∃ f0 f1 f2, RequestLineOK line f0 f1 f2 ∧
      requestLineStep parseURI st line w =
        match parseURI f1 with
        | none => LoopStep.fail Err.InvalidURI
        | some urlObj =>
          LoopStep.next
            { req := { st.req with Method := f0, URL := some urlObj, Proto := f2 },
              wholeLine := line, lastWait := w, step := RequestStep.Header } := by
  unfold requestLineStep
  rw [show " ".toList = [' '] from rfl]
  have h3 := SplitN_three line [' ']
  cases hc1 : cut [' '] line with
  | none =>
    simp only [hc1] at h3
    left
    simp [h3]
  | some ab =>
    obtain ⟨a, b⟩ := ab
    simp only [hc1] at h3
    cases hc2 : cut [' '] b with
    | none =>
      simp only [hc2] at h3
      left
      simp [h3]
    | some cd =>
      obtain ⟨c, d⟩ := cd
      simp only [hc2] at h3
      simp only [h3]
      by_cases hbad : (a ≠ MethodPost ∧ a ≠ MethodGet) ∨ d ≠ HTTPVersion
      · left
        simp [hbad]
      · right
        have hd : d = HTTPVersion := by
          by_contra hne; exact hbad (Or.inr hne)
        have ha : a = MethodGet ∨ a = MethodPost := by
          by_contra hne
          push_neg at hne
          exact hbad (Or.inl ⟨hne.2, hne.1⟩)
        obtain ⟨hl1, hna⟩ := cut_space_not_mem hc1
        obtain ⟨hl2, hnc⟩ := cut_space_not_mem hc2
        refine ⟨a, c, d, ⟨by rw [hl1, hl2], hna, hnc, ?_, ha, hd⟩, ?_⟩
        · rw [hd]; decide
        · simp [hbad]

theorem requestLineStep_of_ok (parseURI : Str → Option URL) (st : ReadState) (line : Str)
    (w : Bool) (f0 f1 f2 : Str) (h : RequestLineOK line f0 f1 f2) :
    requestLineStep parseURI st line w =
      match parseURI f1 with
      | none => LoopStep.fail Err.InvalidURI
      | some urlObj =>
        LoopStep.next
          { req := { st.req with Method := f0, URL := some urlObj, Proto := f2 },
            wholeLine := line, lastWait := w, step := RequestStep.Header } := by
  obtain ⟨hl, h0, h1, _, hm, hv⟩ := h
  have hc1 : cut [' '] line = some (f0, f1 ++ ' ' :: f2) := by
    rw [hl]; exact cut_space_append f0 _ h0
  have hc2 : cut [' '] (f1 ++ ' ' :: f2) = some (f1, f2) := cut_space_append f1 _ h1
  have h3 := SplitN_three line [' ']
  simp only [hc1, hc2] at h3
  unfold requestLineStep
  rw [show " ".toList = [' '] from rfl]
  simp only [h3]
  have hgood : ¬ ((f0 ≠ MethodPost ∧ f0 ≠ MethodGet) ∨ f2 ≠ HTTPVersion) := by
    rintro (⟨hp, hg⟩ | hne)
    · rcases hm with e | e
      · exact hg e
      · exact hp e
    · exact hne hv
  simp [hgood]

/-- A complete line delivered whole: the step is the case of the switch on that line. -/
theorem readReqStep_whole (parseURI : Str → Option URL) (st : ReadState) (line : Str)
    (hlw : st.lastWait = false) :
    readReqStep parseURI st (wholeLineResult line) =
      match st.step with
      | RequestStep.RequestLine => requestLineStep parseURI st line false
      | RequestStep.Header => headerStep st line line false
      | RequestStep.Body => LoopStep.panic := by
  simp [readReqStep, wholeLineResult, hlw]
theorem headerStep_nonempty (st : ReadState) (line whole : Str) (w : Bool)
    (hne : line ≠ []) :
    headerStep st line whole w =
      match cut [':', ' '] whole with
      | none => LoopStep.fail Err.InvalidRequestHeader
      | some (a, b) =>
        LoopStep.next
          { req := { st.req with Header := st.req.Header.set a b },
            wholeLine := whole, lastWait := w, step := RequestStep.Header } := by
  have hl : line.length ≠ 0 := fun h => hne (List.length_eq_zero.mp h)
  unfold headerStep
  rw [if_pos hl, show ": ".toList = [':', ' '] from rfl]
  have h2 := SplitN_two whole [':', ' ']
  cases hc : cut [':', ' '] whole with
  | none =>
    simp only [hc] at h2
    simp [h2]
  | some ab =>
    obtain ⟨a, b⟩ := ab
    simp only [hc] at h2
    simp [h2]

/-- What the header case does at the empty line that ends the headers. -/
theorem headerStep_empty (st : ReadState) (whole : Str) (w : Bool) :
    headerStep st [] whole w =
      match st.req.Header.get HeaderContentLength with
      | none =>
        if st.req.Method = MethodPost then LoopStep.fail Err.NoContentLength
        else
          LoopStep.done
            { st.req with
              Header := st.req.Header.set HeaderContentLength "0".toList,
              ContentLength := 0 }
      | some cLenStr =>
        match Atoi cLenStr with
        | none => LoopStep.fail Err.ContentLengthNotNumeric
        | some cLen => LoopStep.done { st.req with ContentLength := cLen } := by
  simp [headerStep]

/-- The property of a decoded request that its length is what `Atoi` makes of its
`Content-Length` header. -/
theorem headerStep_done {st : ReadState} {line whole : Str} {w : Bool} {req : Request}
    (h : headerStep st line whole w = LoopStep.done req) :
    req.Method = st.req.Method ∧ req.Proto = st.req.Proto ∧ req.URL = st.req.URL ∧
      ∃ v, req.Header.get HeaderContentLength = some v ∧ Atoi v = some req.ContentLength := by
  by_cases hne : line = []
  · subst hne
    rw [headerStep_empty] at h
    cases hg : st.req.Header.get HeaderContentLength with
    | none =>
      simp only [hg] at h
      by_cases hp : st.req.Method = MethodPost
      · rw [if_pos hp] at h; cases h
      · rw [if_neg hp] at h
        cases h
        have h0 : Atoi "0".toList = some 0 := by decide
        refine ⟨rfl, rfl, rfl, "0".toList, ?_, h0⟩
        simp only [get_set, if_true]
    | some v =>
      simp only [hg] at h
      cases ha : Atoi v with
      | none => simp only [ha] at h; cases h
      | some n =>
        simp only [ha] at h
        cases h
        exact ⟨rfl, rfl, rfl, v, hg, ha⟩
  · rw [headerStep_nonempty st line whole w hne] at h
    cases hc : cut [':', ' '] whole with
    | none => simp only [hc] at h; cases h
    | some ab => simp only [hc] at h; cases h

theorem headerStep_next {st st2 : ReadState} {line whole : Str} {w : Bool}
    (h : headerStep st line whole w = LoopStep.next st2) :
    st2.step = RequestStep.Header ∧ st2.req.Method = st.req.Method ∧
      st2.req.Proto = st.req.Proto ∧ st2.req.URL = st.req.URL := by
  by_cases hne : line = []
  · subst hne
    rw [headerStep_empty] at h
    cases hg : st.req.Header.get HeaderContentLength with
    | none =>
      simp only [hg] at h
      by_cases hp : st.req.Method = MethodPost
      · rw [if_pos hp] at h; cases h
      · rw [if_neg hp] at h; cases h
    | some v =>
      simp only [hg] at h
      cases ha : Atoi v with
      | none => simp only [ha] at h; cases h
      | some n => simp only [ha] at h; cases h
  · rw [headerStep_nonempty st line whole w hne] at h
    cases hc : cut [':', ' '] whole with
    | none => simp only [hc] at h; cases h
    | some ab =>
      simp only [hc] at h
      cases h
      exact ⟨rfl, rfl, rfl, rfl⟩

theorem requestLineStep_next {parseURI : Str → Option URL} {st st2 : ReadState}
    {line : Str} {w : Bool} (h : requestLineStep parseURI st line w = LoopStep.next st2) :
    st2.step = RequestStep.Header ∧
      ∃ f0 f1 f2, RequestLineOK line f0 f1 f2 ∧ st2.req.Method = f0 ∧ st2.req.Proto = f2 := by
  rcases requestLineStep_cases parseURI st line w with hf | ⟨f0, f1, f2, hok, heq⟩
  · rw [hf] at h; cases h
  · rw [heq] at h
    cases hp : parseURI f1 with
    | none => simp only [hp] at h; cases h
    | some u =>
      simp only [hp] at h
      cases h
      exact ⟨rfl, f0, f1, f2, hok, rfl, rfl⟩

theorem requestLineStep_not_done {parseURI : Str → Option URL} {st : ReadState}
    {line : Str} {w : Bool} {req : Request} :
    requestLineStep parseURI st line w ≠ LoopStep.done req := by
  intro h
  rcases requestLineStep_cases parseURI st line w with hf | ⟨f0, f1, f2, _, heq⟩
  · rw [hf] at h; cases h
  · rw [heq] at h
    cases hp : parseURI f1 with
    | none => simp only [hp] at h; cases h
    | some u => simp only [hp] at h; cases h

/-- One pass that goes round again: a state in the body step is never produced, and in
the header step the method, protocol and target stay. -/
theorem readReqStep_next {parseURI : Str → Option URL} {st st2 : ReadState}
    {r : ReadLineResult} (h : readReqStep parseURI st r = LoopStep.next st2)
    (hb : st.step ≠ RequestStep.Body) :
    st2.step ≠ RequestStep.Body ∧
      (st.step = RequestStep.Header → st2.step = RequestStep.Header ∧
        st2.req.Method = st.req.Method ∧ st2.req.Proto = st.req.Proto ∧
        st2.req.URL = st.req.URL) := by
  unfold readReqStep at h
  cases he : r.err with
  | some e => simp only [he] at h; cases h
  | none =>
    simp only [he] at h
    cases hp : r.isPrefix with
    | true =>
      simp only [hp, Bool.not_true, Bool.false_eq_true, if_false] at h
      cases h
      exact ⟨hb, fun hs => ⟨hs, rfl, rfl, rfl⟩⟩
    | false =>
      simp only [hp, Bool.not_false, if_true] at h
      cases hs : st.step with
      | RequestLine =>
        simp only [hs] at h
        have := (requestLineStep_next h).1
        exact ⟨by rw [this]; decide, fun hh => by cases hh⟩
      | Header =>
        simp only [hs] at h
        have := headerStep_next h
        exact ⟨by rw [this.1]; decide, fun _ => this⟩
      | Body => exact absurd hs hb

theorem readReqStep_done {parseURI : Str → Option URL} {st : ReadState}
    {r : ReadLineResult} {req : Request} (h : readReqStep parseURI st r = LoopStep.done req) :
    st.step = RequestStep.Header ∧
      req.Method = st.req.Method ∧ req.Proto = st.req.Proto ∧ req.URL = st.req.URL ∧
      ∃ v, req.Header.get HeaderContentLength = some v ∧ Atoi v = some req.ContentLength := by
  unfold readReqStep at h
  cases he : r.err with
  | some e => simp only [he] at h; cases h
  | none =>
    simp only [he] at h
    cases hp : r.isPrefix with
    | true =>
      simp only [hp, Bool.not_true, Bool.false_eq_true, if_false] at h
      cases h
    | false =>
      simp only [hp, Bool.not_false, if_true] at h
      cases hs : st.step with
      | RequestLine =>
        simp only [hs] at h
        exact absurd h requestLineStep_not_done
      | Header =>
        simp only [hs] at h
        exact ⟨rfl, headerStep_done h⟩
      | Body => simp only [hs] at h; cases h

theorem afterAppend_script (st : ReadState) (r : ReadLineResult)
    (script : List ReadLineResult) : afterAppend scriptWrite st r script = script := by
  unfold afterAppend scriptWrite
  split_ifs <;> rfl

theorem afterAppend_rd (st : ReadState) (r : ReadLineResult) (b : Reader) :
    (afterAppend Reader.writeAt st r b).rd = b.rd := by
  unfold afterAppend Reader.writeAt
  split_ifs <;> rfl

/-- Every request that the loop returns has the length that `Atoi` makes of its
`Content-Length` header; from the header step on, method, protocol and target are
those of the state. -/
theorem readReqLoop_ok {σ : Type} (ReadLine : σ → ReadLineResult × σ)
    (write : σ → ReadLineResult → Nat → Str → σ) (parseURI : Str → Option URL) :
    ∀ (fuel : Nat) (st : ReadState) (rd rd2 : σ) (req : Request),
      st.step ≠ RequestStep.Body →
      readReqLoop ReadLine write parseURI fuel st rd = some (Outcome.ok req, rd2) →
      (∃ v, req.Header.get HeaderContentLength = some v ∧ Atoi v = some req.ContentLength) ∧
      (st.step = RequestStep.Header →
        req.Method = st.req.Method ∧ req.Proto = st.req.Proto ∧ req.URL = st.req.URL)
  | 0, _, _, _, _, _, h => by simp [readReqLoop] at h
  | fuel + 1, st, rd, rd2, req, hb, h => by
    unfold readReqLoop at h
    cases hs : readReqStep parseURI st (ReadLine rd).1 with
    | next st2 =>
      simp only [hs] at h
      obtain ⟨hb2, hkeep⟩ := readReqStep_next hs hb
      obtain ⟨hv, hrest⟩ := readReqLoop_ok ReadLine write parseURI fuel st2 _ rd2 req hb2 h
      refine ⟨hv, fun hh => ?_⟩
      obtain ⟨h1, h2, h3, h4⟩ := hkeep hh
      obtain ⟨g1, g2, g3⟩ := hrest h1
      exact ⟨g1.trans h2, g2.trans h3, g3.trans h4⟩
    | done req2 =>
      simp only [hs, Option.some.injEq, Prod.mk.injEq, Outcome.ok.injEq] at h
      obtain ⟨_, h1, h2, h3, hv⟩ := readReqStep_done hs
      rw [← h.1]
      exact ⟨hv, fun _ => ⟨h1, h2, h3⟩⟩
    | fail e => simp only [hs, Option.some.injEq, Prod.mk.injEq] at h; cases h.1
    | panic => simp only [hs, Option.some.injEq, Prod.mk.injEq] at h; cases h.1

/-- What `Atoi` accepts: an optional sign and one or more decimal digits, the value in
the range of a 64-bit `int`. -/
theorem Atoi_some {s : Str} {n : Int} (h : Atoi s = some n) :
    ∃ ds : Str, ds ≠ [] ∧ ds.all Char.isDigit = true ∧
      (((s = ds ∨ s = '+' :: ds) ∧ n = (digitsValue ds : Int)) ∨
        (s = '-' :: ds ∧ n = - (digitsValue ds : Int))) ∧
      -(2 : Int) ^ 63 ≤ n ∧ n ≤ (2 : Int) ^ 63 - 1 := by
  unfold Atoi at h
  split at h
  · rename_i r
    simp only [Bool.or_eq_true, Bool.not_eq_true', Bool.false_eq_true, if_false] at h
    split at h
    · cases h
    · rename_i hd
      split at h
      · cases h
      · rename_i hr
        simp only [Option.some.injEq] at h
        push_neg at hd hr
        refine ⟨r, ?_, ?_, Or.inl ⟨Or.inr rfl, h.symm⟩, by omega, by omega⟩
        · intro e; rw [e] at hd; simp at hd
        · have := hd.2; simpa using this
  · rename_i r
    simp only [Bool.or_eq_true, Bool.not_eq_true', if_true] at h
    split at h
    · cases h
    · rename_i hd
      split at h
      · cases h
      · rename_i hr
        simp only [Option.some.injEq] at h
        push_neg at hd hr
        refine ⟨r, ?_, ?_, Or.inr ⟨rfl, h.symm⟩, by omega, by omega⟩
        · intro e; rw [e] at hd; simp at hd
        · have := hd.2; simpa using this
  · simp only [Bool.or_eq_true, Bool.not_eq_true', Bool.false_eq_true, if_false] at h
    split at h
    · cases h
    · rename_i hd
      split at h
      · cases h
      · rename_i hr
        simp only [Option.some.injEq] at h
        push_neg at hd hr
        refine ⟨s, ?_, ?_, Or.inl ⟨Or.inl rfl, h.symm⟩, by omega, by omega⟩
        · intro e; rw [e] at hd; simp at hd
        · have := hd.2; simpa using this

/-- Header lines without a `Content-Length` header, then the empty line: the loop ends
at the empty line, with the missing-length error for `POST` and with length 0
otherwise. -/
theorem header_run (parseURI : Str → Option URL) (rest : List ReadLineResult) :
    ∀ (hs : List Str) (st : ReadState) (n : Nat),
      st.step = RequestStep.Header → st.lastWait = false →
      st.req.Header.get HeaderContentLength = none →
      (∀ h ∈ hs, ∃ name value,
        FirstSplit ": ".toList h name value ∧ name ≠ HeaderContentLength) →
      ∃ hdr, readReqLoop scriptReadLine scriptWrite parseURI (hs.length + 1 + n) st
          (hs.map wholeLineResult ++ wholeLineResult [] :: rest) =
        if st.req.Method = MethodPost then some (Outcome.fail Err.NoContentLength, rest)
        else some (Outcome.ok { st.req with Header := hdr, ContentLength := 0 }, rest)
  | [], st, n, hstep, hlw, hget, _ => by
    refine ⟨st.req.Header.set HeaderContentLength "0".toList, ?_⟩
    have hfuel : ([] : List Str).length + 1 + n = n + 1 := by simp; omega
    rw [hfuel]
    simp only [List.map_nil, List.nil_append]
    unfold readReqLoop
    simp only [scriptReadLine, afterAppend_script]
    rw [readReqStep_whole parseURI st [] hlw]
    simp only [hstep, headerStep_empty, hget]
    by_cases hp : st.req.Method = MethodPost
    · simp only [hp, if_true]
    · simp only [hp, if_false]
  | h :: hs, st, n, hstep, hlw, hget, hhs => by
    obtain ⟨name, value, hsplit, hname⟩ := hhs h (List.mem_cons_self _ _)
    have hcut : cut [':', ' '] h = some (name, value) :=
      cut_of_firstSplit (by decide) hsplit
    have hne : h ≠ [] := by
      intro e; rw [e] at hcut; simp [cut] at hcut
    obtain ⟨hdr, hrun⟩ := header_run parseURI rest hs
      { req := { st.req with Header := st.req.Header.set name value },
        wholeLine := h, lastWait := false, step := RequestStep.Header } n rfl rfl
      (by
        simp only [get_set]
        rw [if_neg (fun e => hname e.symm)]
        exact hget)
      (fun h2 hm => hhs h2 (List.mem_cons_of_mem _ hm))
    refine ⟨hdr, ?_⟩
    have hfuel : (h :: hs).length + 1 + n = (hs.length + 1 + n) + 1 := by
      simp only [List.length_cons]; omega
    rw [hfuel]
    simp only [List.map_cons, List.cons_append]
    unfold readReqLoop
    simp only [scriptReadLine, afterAppend_script]
    rw [readReqStep_whole parseURI st h hlw]
    simp only [hstep, headerStep_nonempty st h h false hne, hcut]
    exact hrun

/-- With every line delivered whole: a request whose header lines (each a `name: value`
line, none of them named `Content-Length`) are followed by the empty line is rejected
for want of a `Content-Length` when its method is `POST`, and is decoded with
`ContentLength = 0` when its method is `GET`. -/
theorem post_needs_content_length (parseURI : Str → Option URL) (target : Str) (u : URL)
    (hs : List Str) (rest : List ReadLineResult)
    (htarget : ' ' ∉ target) (hparse : parseURI target = some u)
    (hhs : ∀ h ∈ hs, ∃ name value,
      FirstSplit ": ".toList h name value ∧ name ≠ HeaderContentLength) :
    readReqOn parseURI
        (wholeLineResult (MethodPost ++ ' ' :: (target ++ ' ' :: HTTPVersion)) ::
          (hs.map wholeLineResult ++ wholeLineResult [] :: rest))
      = some (Outcome.fail Err.NoContentLength, rest) ∧
    ∃ req, readReqOn parseURI
        (wholeLineResult (MethodGet ++ ' ' :: (target ++ ' ' :: HTTPVersion)) ::
          (hs.map wholeLineResult ++ wholeLineResult [] :: rest))
      = some (Outcome.ok req, rest) ∧
      req.ContentLength = 0 ∧ req.Method = MethodGet ∧ req.URL = some u := by
  have hfuel : ∀ m : Str, (wholeLineResult m ::
      (hs.map wholeLineResult ++ wholeLineResult [] :: rest)).length + 1
        = (hs.length + 1 + (rest.length + 1)) + 1 := by
    intro m
    simp only [List.length_cons, List.length_append, List.length_map]
    omega
  have hfirst : ∀ m : Str, (m = MethodGet ∨ m = MethodPost) →
      ∃ st1, readReqStep parseURI ReadState.init
          (wholeLineResult (m ++ ' ' :: (target ++ ' ' :: HTTPVersion))) = LoopStep.next st1 ∧
        st1.step = RequestStep.Header ∧ st1.lastWait = false ∧
        st1.req.Header.get HeaderContentLength = none ∧ st1.req.Method = m ∧
        st1.req.URL = some u := by
    intro m hm
    have hms : ' ' ∉ m := by
      rcases hm with e | e <;> rw [e] <;> decide
    rw [readReqStep_whole parseURI ReadState.init _ rfl]
    have hok : RequestLineOK (m ++ ' ' :: (target ++ ' ' :: HTTPVersion)) m target HTTPVersion :=
      ⟨rfl, hms, htarget, by decide, hm, rfl⟩
    show ∃ st1, requestLineStep parseURI ReadState.init _ false = _ ∧ _
    rw [requestLineStep_of_ok parseURI ReadState.init _ false m target HTTPVersion hok]
    simp only [hparse]
    exact ⟨_, rfl, rfl, rfl, rfl, rfl, rfl⟩
  constructor
  · obtain ⟨st1, hst1, hstep1, hlw1, hget1, hm1, _⟩ := hfirst MethodPost (Or.inr rfl)
    unfold readReqOn
    rw [hfuel]
    unfold readReqLoop
    simp only [scriptReadLine, afterAppend_script, hst1]
    obtain ⟨hdr, hrun⟩ := header_run parseURI rest hs st1 (rest.length + 1) hstep1 hlw1 hget1 hhs
    rw [hrun, if_pos hm1]
  · obtain ⟨st1, hst1, hstep1, hlw1, hget1, hm1, hu1⟩ := hfirst MethodGet (Or.inl rfl)
    unfold readReqOn
    rw [hfuel]
    unfold readReqLoop
    simp only [scriptReadLine, afterAppend_script, hst1]
    obtain ⟨hdr, hrun⟩ := header_run parseURI rest hs st1 (rest.length + 1) hstep1 hlw1 hget1 hhs
    have hgp : ¬ st1.req.Method = MethodPost := by rw [hm1]; decide
    rw [hrun, if_neg hgp]
    exact ⟨_, rfl, rfl, hm1, hu1⟩

/-- The two decodings at the target `/x` with the single header line `Host: a`. -/
theorem post_needs_content_length_witness :
    readReqOn pathOnlyURI
        [wholeLineResult "POST /x HTTP/1.1".toList, wholeLineResult "Host: a".toList,
          wholeLineResult []]
      = some (Outcome.fail Err.NoContentLength, []) ∧
    ∃ req, readReqOn pathOnlyURI
        [wholeLineResult "GET /x HTTP/1.1".toList, wholeLineResult "Host: a".toList,
          wholeLineResult []]
      = some (Outcome.ok req, []) ∧
      req.ContentLength = 0 ∧ req.Method = MethodGet ∧
      req.URL = some { Scheme := [], Host := [], Path := "/x".toList } :=
  post_needs_content_length pathOnlyURI "/x".toList
    { Scheme := [], Host := [], Path := "/x".toList } ["Host: a".toList] []
    (by decide) rfl
    (fun h hm => by
      rw [List.mem_singleton] at hm
      subst hm
      exact ⟨"Host".toList, "a".toList,
        (cut_iff_firstSplit (by decide) _ _ _).mp (by decide), by decide⟩)

/-- C5 as stated fails: the request `POST /x HTTP/1.1` with the header
`Content-Length: -5` is decoded, and its `ContentLength` is `-5`. -/
theorem negative_content_length_accepted :
    readReqOn pathOnlyURI
        [wholeLineResult "POST /x HTTP/1.1".toList,
          wholeLineResult "Content-Length: -5".toList, wholeLineResult []]
      = some (Outcome.ok
          { Method := MethodPost,
            URL := some { Scheme := [], Host := [], Path := "/x".toList },
            Proto := HTTPVersion,
            Header := [(HeaderContentLength, "-5".toList)],
            ContentLength := -5 }, []) ∧
    ¬ ((0 : Int) ≤ -5) := by
  constructor
  · decide
  · decide

/-- C5, amended: every request that `readReq` returns carries a `Content-Length`
header whose value `strconv.Atoi` accepts (an optional sign, then decimal digits, in
the range of `int`), and its `ContentLength` is that integer; at the end of the
headers a value that `Atoi` rejects gives the error "Content-Length must be numeric"
and a value that it accepts, negative ones included, gives the request. -/
theorem content_length_is_atoi (parseURI : Str → Option URL) :
    (∀ (script rest : List ReadLineResult) (req : Request),
      readReqOn parseURI script = some (Outcome.ok req, rest) →
      ∃ v ds, req.Header.get HeaderContentLength = some v ∧
        Atoi v = some req.ContentLength ∧
        ds ≠ [] ∧ ds.all Char.isDigit = true ∧
        (((v = ds ∨ v = '+' :: ds) ∧ req.ContentLength = (digitsValue ds : Int)) ∨
          (v = '-' :: ds ∧ req.ContentLength = - (digitsValue ds : Int)))) ∧
    (∀ (st : ReadState) (v : Str), st.step = RequestStep.Header → st.lastWait = false →
      st.req.Header.get HeaderContentLength = some v →
      readReqStep parseURI st (wholeLineResult []) =
        match Atoi v with
        | none => LoopStep.fail Err.ContentLengthNotNumeric
        | some n => LoopStep.done { st.req with ContentLength := n }) := by
  constructor
  · intro script rest req h
    obtain ⟨⟨v, hv, ha⟩, _⟩ :=
      readReqLoop_ok scriptReadLine scriptWrite parseURI _ ReadState.init script rest req (by decide) h
    obtain ⟨ds, hne, hall, hform, _, _⟩ := Atoi_some ha
    exact ⟨v, ds, hv, ha, hne, hall, hform⟩
  · intro st v hstep hlw hget
    rw [readReqStep_whole parseURI st [] hlw]
    simp only [hstep, headerStep_empty, hget]

/-- C5, amended, at the values `abc` (rejected) and `-5` (accepted). -/
theorem content_length_is_atoi_witness :
    readReqStep pathOnlyURI
        { sampleHeaderState with
          req := { sampleHeaderState.req with
            Header := [(HeaderContentLength, "abc".toList)] } }
        (wholeLineResult [])
      = LoopStep.fail Err.ContentLengthNotNumeric ∧
    ∃ v ds, v = "-5".toList ∧ ds = "5".toList ∧
      Atoi v = some (-5) ∧ (-5 : Int) = - (digitsValue ds : Int) := by
  refine ⟨?_, "-5".toList, "5".toList, rfl, rfl, by decide, by decide⟩
  have h := (content_length_is_atoi pathOnlyURI).2
    { sampleHeaderState with
      req := { sampleHeaderState.req with Header := [(HeaderContentLength, "abc".toList)] } }
    "abc".toList rfl rfl (by decide)
  rw [h]
  decide

/-- C6: for a complete first line, the request-line step either rejects it or goes on
to the headers; it goes on only if the line is exactly three fields separated by single
spaces, the first `GET` or `POST` and the third `HTTPVersion`, and then `Method` is the
first field and `Proto` the third, also in the request that `readReq` finally returns;
every line that is not of that form is rejected as an invalid request line. -/
theorem request_line_fields (parseURI : Str → Option URL) (line : Str) :
    (readReqStep parseURI ReadState.init (wholeLineResult line)
        = LoopStep.fail Err.InvalidRequestLine ∨
      readReqStep parseURI ReadState.init (wholeLineResult line)
        = LoopStep.fail Err.InvalidURI ∨
      ∃ st2 f0 f1 f2,
        readReqStep parseURI ReadState.init (wholeLineResult line) = LoopStep.next st2 ∧
        RequestLineOK line f0 f1 f2 ∧ st2.req.Method = f0 ∧ st2.req.Proto = f2 ∧
        st2.step = RequestStep.Header) ∧
    ((¬ ∃ f0 f1 f2, RequestLineOK line f0 f1 f2) →
      readReqStep parseURI ReadState.init (wholeLineResult line)
        = LoopStep.fail Err.InvalidRequestLine) ∧
    (∀ (rest rest2 : List ReadLineResult) (req : Request),
      readReqOn parseURI (wholeLineResult line :: rest) = some (Outcome.ok req, rest2) →
      ∃ f0 f1 f2, RequestLineOK line f0 f1 f2 ∧ req.Method = f0 ∧ req.Proto = f2) := by
  have hstep : readReqStep parseURI ReadState.init (wholeLineResult line)
      = requestLineStep parseURI ReadState.init line false :=
    readReqStep_whole parseURI ReadState.init line rfl
  refine ⟨?_, ?_, ?_⟩
  · rw [hstep]
    rcases requestLineStep_cases parseURI ReadState.init line false with
      hf | ⟨f0, f1, f2, hok, heq⟩
    · exact Or.inl hf
    · right
      rw [heq]
      cases hp : parseURI f1 with
      | none => exact Or.inl rfl
      | some u => exact Or.inr ⟨_, f0, f1, f2, rfl, hok, rfl, rfl, rfl⟩
  · intro hno
    rw [hstep]
    rcases requestLineStep_cases parseURI ReadState.init line false with
      hf | ⟨f0, f1, f2, hok, _⟩
    · exact hf
    · exact absurd ⟨f0, f1, f2, hok⟩ hno
  · intro rest rest2 req h
    unfold readReqOn at h
    simp only [List.length_cons] at h
    unfold readReqLoop at h
    simp only [scriptReadLine, afterAppend_script] at h
    cases hs : readReqStep parseURI ReadState.init (wholeLineResult line) with
    | next st2 =>
      simp only [hs] at h
      rw [hstep] at hs
      obtain ⟨hhead, f0, f1, f2, hok, hm, hp⟩ := requestLineStep_next hs
      obtain ⟨_, hkeep⟩ := readReqLoop_ok scriptReadLine scriptWrite parseURI _ st2 rest rest2 req
        (by rw [hhead]; decide) h
      obtain ⟨g1, g2, _⟩ := hkeep hhead
      exact ⟨f0, f1, f2, hok, g1.trans hm, g2.trans hp⟩
    | done req2 =>
      rw [hstep] at hs
      exact absurd hs requestLineStep_not_done
    | fail e => simp only [hs, Option.some.injEq, Prod.mk.injEq] at h; cases h.1
    | panic => simp only [hs, Option.some.injEq, Prod.mk.injEq] at h; cases h.1

/-- C6, at the request `GET /x HTTP/1.1` followed by the empty line. -/
theorem request_line_fields_witness :
    ∃ f0 f1 f2, RequestLineOK "GET /x HTTP/1.1".toList f0 f1 f2 ∧
      MethodGet = f0 ∧ HTTPVersion = f2 :=
  (request_line_fields pathOnlyURI "GET /x HTTP/1.1".toList).2.2 [wholeLineResult []] []
    { Method := MethodGet,
      URL := some { Scheme := [], Host := [], Path := "/x".toList },
      Proto := HTTPVersion,
      Header := [(HeaderContentLength, "0".toList)],
      ContentLength := 0 }
    (by decide)

/-- In the header step, a non-empty line delivered whole is rejected as an invalid
request header exactly when it does not contain the separator `": "`; otherwise the
loop goes on in the header step with a header map in which the text before the first
separator is mapped to all the text after it, and every other name is as before. -/
theorem header_line_stored (parseURI : Str → Option URL) (st : ReadState) (line : Str)
    (hstep : st.step = RequestStep.Header) (hlw : st.lastWait = false) (hne : line ≠ []) :
    (readReqStep parseURI st (wholeLineResult line) = LoopStep.fail Err.InvalidRequestHeader
      ↔ ¬ ": ".toList <:+: line) ∧
    (": ".toList <:+: line →
      ∃ name value st2, FirstSplit ": ".toList line name value ∧
        readReqStep parseURI st (wholeLineResult line) = LoopStep.next st2 ∧
        st2.step = RequestStep.Header ∧
        st2.req.Header.get name = some value ∧
        ∀ k, k ≠ name → st2.req.Header.get k = st.req.Header.get k) := by
  have hsep : (": ".toList : Str) = [':', ' '] := rfl
  have hnesep : ([':', ' '] : Str) ≠ [] := by decide
  have hs : readReqStep parseURI st (wholeLineResult line) =
      match cut [':', ' '] line with
      | none => LoopStep.fail Err.InvalidRequestHeader
      | some (a, b) =>
        LoopStep.next
          { req := { st.req with Header := st.req.Header.set a b },
            wholeLine := line, lastWait := false, step := RequestStep.Header } := by
    rw [readReqStep_whole parseURI st line hlw]
    simp only [hstep]
    exact headerStep_nonempty st line line false hne
  rw [hsep, hs]
  constructor
  · rw [← cut_eq_none_iff hnesep]
    cases hc : cut [':', ' '] line with
    | none => simp
    | some ab => simp
  · intro hin
    cases hc : cut [':', ' '] line with
    | none => exact absurd hin ((cut_eq_none_iff hnesep line).mp hc)
    | some ab =>
      obtain ⟨a, b⟩ := ab
      refine ⟨a, b, _, (cut_iff_firstSplit hnesep line a b).mp hc, rfl, rfl, ?_, ?_⟩
      · simp only [get_set, if_true]
      · intro k hk
        simp only [get_set]
        rw [if_neg hk]

/-- The header step at the whole line `Host: b: c` after an earlier `Host: a`. -/
theorem header_line_stored_witness :
    (readReqStep pathOnlyURI sampleHeaderState (wholeLineResult "Host: b: c".toList)
        = LoopStep.fail Err.InvalidRequestHeader
      ↔ ¬ ": ".toList <:+: "Host: b: c".toList) ∧
    (": ".toList <:+: "Host: b: c".toList →
      ∃ name value st2, FirstSplit ": ".toList "Host: b: c".toList name value ∧
        readReqStep pathOnlyURI sampleHeaderState (wholeLineResult "Host: b: c".toList)
          = LoopStep.next st2 ∧
        st2.step = RequestStep.Header ∧
        st2.req.Header.get name = some value ∧
        ∀ k, k ≠ name → st2.req.Header.get k = sampleHeaderState.req.Header.get k) :=
  header_line_stored pathOnlyURI sampleHeaderState "Host: b: c".toList rfl rfl (by decide)

/-! ## Properties of the encoder -/

theorem filter_set_key (m : GoMap Str) (k v : Str) :
    (m.set k v).filter (fun kv => decide (kv.1 = k)) = [(k, v)] := by
  unfold GoMap.set
  rw [List.filter_cons_of_pos (by simp), List.filter_filter]
  have : (m.filter (fun a => decide (a.1 = k) && decide (a.1 ≠ k))) = [] := by
    rw [List.filter_eq_nil_iff]
    intro a _
    by_cases h : a.1 = k <;> simp [h]
  rw [this]

/-! ## Properties of the connection loop -/

/-- C9 fails on the code: a request and the request that follows it, arriving together
in one portion. The pass of `serve` for the first request leaves the following one in
the buffer of the reader that `readReq` created, and the next `readReq` creates a new
reader on the connection: with a buffer of 4096 bytes nothing is left to read and it
reports `io.EOF`, whether the first request has no body (handler not reading) or a body
of three bytes that the handler reads; with a buffer of 16 bytes only the last two
bytes are left and it reports an invalid request line. Alone on a connection the
following request decodes. -/
theorem pipelined_request_lost :
    afterServeStep (plainEnv 4096)
        (connOf ["GET /a HTTP/1.1\n\nGET /b HTTP/1.1\n\n".toList])
      = some ([], some (Outcome.fail Err.EOF)) ∧
    afterServeStep (readingEnv 4096)
        (connOf ["POST /a HTTP/1.1\nContent-Length: 3\n\nabcGET /b HTTP/1.1\n\n".toList])
      = some ([], some (Outcome.fail Err.EOF)) ∧
    afterServeStep (plainEnv 16)
        (connOf ["GET /a HTTP/1.1\n\nGET /b HTTP/1.1\n\n".toList])
      = some (["\n\n".toList], some (Outcome.fail Err.InvalidRequestLine)) ∧
    (readReq 4096 pathOnlyURI (connOf ["GET /b HTTP/1.1\n\n".toList])).map Prod.fst
      = some (Outcome.ok
          { Method := MethodGet,
            URL := some { Scheme := [], Host := [], Path := "/b".toList },
            Proto := HTTPVersion,
            Header := [(HeaderContentLength, "0".toList)],
            ContentLength := 0 }) := by
  refine ⟨?_, ?_, ?_, ?_⟩
  · decide
  · decide
  · decide
  · decide

/-! ## Properties of the readers -/

theorem readPending_spec (n : Nat) (hn : 0 < n) :
    ∀ (p : List Str),
      (readPending n p = none → p.flatten = []) ∧
      (∀ d r, readPending n p = some (d, r) →
        d ≠ [] ∧ d.length ≤ n ∧ d ++ r.flatten = p.flatten)
  | [] => ⟨fun _ => rfl, fun d r h => by simp [readPending] at h⟩
  | seg :: rest => by
    obtain ⟨ih1, ih2⟩ := readPending_spec n hn rest
    unfold readPending
    by_cases he : seg.isEmpty = true
    · have hs : seg = [] := List.isEmpty_iff.mp he
      rw [if_pos he]
      subst hs
      exact ⟨fun h => by simpa using ih1 h, fun d r h => by simpa using ih2 d r h⟩
    · have hs : seg ≠ [] := fun e => he (List.isEmpty_iff.mpr e)
      rw [if_neg he]
      by_cases hl : seg.length ≤ n
      · rw [if_pos hl]
        constructor
        · intro h; cases h
        · intro d r h
          simp only [Option.some.injEq, Prod.mk.injEq] at h
          rw [← h.1, ← h.2]
          exact ⟨hs, hl, by simp⟩
      · rw [if_neg hl]
        constructor
        · intro h; cases h
        · intro d r h
          simp only [Option.some.injEq, Prod.mk.injEq] at h
          rw [← h.1, ← h.2]
          refine ⟨?_, by simp, ?_⟩
          · intro e
            have := congrArg List.length e
            simp at this
            rcases this with h0 | h0
            · omega
            · exact hs h0
          · simp only [List.flatten_cons, ← List.append_assoc, List.take_append_drop]

/-- A read of the connection into `n > 0` bytes: the data returned and what stays
pending make up what was pending; without an error at least one byte is returned, and
with an error nothing was pending. -/
theorem Conn_Read_spec (c : Conn) (n : Nat) (hn : 0 < n) :
    (c.Read n).1.1 ++ (c.Read n).2.pending.flatten = c.pending.flatten ∧
    (c.Read n).1.1.length ≤ n ∧
    ((c.Read n).1.2 = none → (c.Read n).1.1 ≠ []) ∧
    ((c.Read n).1.2 ≠ none → c.pending.flatten = []) := by
  obtain ⟨h1, h2⟩ := readPending_spec n hn c.pending
  unfold Conn.Read
  rw [if_neg (by omega)]
  cases hr : readPending n c.pending with
  | none =>
    refine ⟨?_, by simp, fun h => ?_, fun _ => h1 hr⟩
    · simp only [List.nil_append, List.flatten_nil]
      exact (h1 hr).symm
    · cases h
  | some dr =>
    obtain ⟨d, r⟩ := dr
    obtain ⟨g1, g2, g3⟩ := h2 d r hr
    exact ⟨g3, g2, fun _ => g1, fun h => absurd rfl h⟩

/-- A read of the buffered reader into `n > 0` bytes hands out the next bytes of the
stream, at most `n` of them and at least one unless it reports an error, which it does
only when the stream is at its end. -/
theorem Reader_Read_spec (b : Reader) (n : Nat) (hn : 0 < n) :
    (b.Read n).1.1 ++ (b.Read n).2.rest = b.rest ∧
    (b.Read n).1.1.length ≤ n ∧
    ((b.Read n).1.2 = none → (b.Read n).1.1 ≠ []) ∧
    ((b.Read n).1.2 ≠ none → b.rest = []) := by
  unfold Reader.Read
  rw [if_neg (by omega)]
  by_cases he : b.buf.isEmpty = true
  · have hb : b.buf = [] := List.isEmpty_iff.mp he
    simp only [he, if_true]
    by_cases hbig : n ≥ b.size
    · simp only [hbig, if_true]
      obtain ⟨g1, g2, g3, g4⟩ := Conn_Read_spec b.rd n hn
      refine ⟨?_, g2, g3, fun h => ?_⟩
      · simp only [Reader.rest, hb, List.nil_append]
        exact g1
      · simp only [Reader.rest, hb, List.nil_append]
        exact g4 h
    · simp only [hbig, if_false]
      have hsz : 0 < b.size := by omega
      obtain ⟨g1, g2, g3, g4⟩ := Conn_Read_spec b.rd b.size hsz
      by_cases hz : ((b.rd.Read b.size).1.1).length = 0
      · simp only [hz, if_true]
        have hd : (b.rd.Read b.size).1.1 = [] := List.length_eq_zero.mp hz
        have herr : (b.rd.Read b.size).1.2 ≠ none := fun h => g3 h hd
        refine ⟨?_, by simp, fun h => absurd h herr, fun _ => ?_⟩
        · simp only [Reader.rest, hb, List.nil_append]
          rw [hd] at g1
          simpa using g1
        · simp only [Reader.rest, hb, List.nil_append]
          exact g4 herr
      · simp only [hz, if_false]
        refine ⟨?_, by simp, fun _ => ?_, fun h => absurd rfl h⟩
        · simp only [Reader.rest, hb, List.nil_append, ← List.append_assoc,
            List.take_append_drop]
          exact g1
        · intro e
          have := congrArg List.length e
          simp at this
          rcases this with h0 | h0
          · omega
          · exact hz (by rw [h0]; rfl)
  · have hb : b.buf ≠ [] := fun e => he (List.isEmpty_iff.mpr e)
    simp only [he, Bool.false_eq_true, if_false]
    refine ⟨?_, by simp, fun _ => ?_, fun h => absurd rfl h⟩
    · simp only [Reader.rest, ← List.append_assoc, List.take_append_drop]
    · intro e
      have := congrArg List.length e
      simp at this
      rcases this with h0 | h0
      · omega
      · exact hb h0

/-- A read of the body into `n > 0` bytes while `N > 0`: the next bytes of the stream,
at most `N` of them, and `N` goes down by their number. -/
theorem LimitedReader_Read_spec (l : LimitedReader) (n : Nat) (hn : 0 < n) (hN : 0 < l.N) :
    (l.Read n).1.1 ++ (l.Read n).2.R.rest = l.R.rest ∧
    ((l.Read n).1.1.length : Int) ≤ l.N ∧
    (l.Read n).2.N = l.N - ((l.Read n).1.1.length : Int) ∧
    ((l.Read n).1.2 = none → (l.Read n).1.1 ≠ []) ∧
    ((l.Read n).1.2 ≠ none → l.R.rest = []) := by
  unfold LimitedReader.Read
  rw [if_neg (by omega)]
  by_cases hc : (n : Int) > l.N
  · simp only [hc, if_true]
    have hm : 0 < l.N.toNat := by omega
    obtain ⟨g1, g2, g3, g4⟩ := Reader_Read_spec l.R l.N.toNat hm
    exact ⟨g1, by omega, trivial, g3, g4⟩
  · simp only [hc, if_false]
    obtain ⟨g1, g2, g3, g4⟩ := Reader_Read_spec l.R n hn
    exact ⟨g1, by omega, trivial, g3, g4⟩

/-- Reading a body to its end hands out the first `N` bytes of the stream, or all of
them when there are fewer. -/
theorem readToEndLoop_spec (chunk : Nat) (hchunk : 0 < chunk) :
    ∀ (fuel : Nat) (l : LimitedReader), l.N.toNat < fuel →
      (readToEndLoop chunk fuel l).1 = l.R.rest.take l.N.toNat
  | 0, _, h => by omega
  | fuel + 1, l, h => by
    unfold readToEndLoop
    by_cases hN : 0 < l.N
    · obtain ⟨g1, g2, g3, g4, g5⟩ := LimitedReader_Read_spec l chunk hchunk hN
      cases herr : (l.Read chunk).1.2 with
      | some e =>
        have hrest : l.R.rest = [] := g5 (by rw [herr]; simp)
        rw [hrest] at g1 ⊢
        simp only [List.take_nil]
        exact (List.append_eq_nil.mp g1).1
      | none =>
        have hne : (l.Read chunk).1.1 ≠ [] := g4 herr
        have hpos : 0 < (l.Read chunk).1.1.length := List.length_pos.mpr hne
        have ih := readToEndLoop_spec chunk hchunk fuel (l.Read chunk).2 (by rw [g3]; omega)
        simp only
        rw [ih, ← g1, List.take_append_eq_append_take, g3]
        have h1 : List.take l.N.toNat (l.Read chunk).1.1 = (l.Read chunk).1.1 :=
          List.take_of_length_le (by omega)
        have h2 : (l.N - ((l.Read chunk).1.1.length : Int)).toNat
            = l.N.toNat - (l.Read chunk).1.1.length := by omega
        rw [h1, h2]
    · have h0 : l.N.toNat = 0 := by omega
      have hread : l.Read chunk = (([], some Err.EOF), l) := by
        unfold LimitedReader.Read
        rw [if_pos (by omega)]
      rw [hread, h0]
      simp

theorem cutLine_spec : ∀ (s l r : Str), cutLine s = some (l, r) → l ++ r = s ∧ l ≠ []
  | [], l, r, h => by simp [cutLine] at h
  | c :: cs, l, r, h => by
    unfold cutLine at h
    by_cases hc : c = '\n'
    · rw [if_pos hc] at h
      simp only [Option.some.injEq, Prod.mk.injEq] at h
      rw [← h.1, ← h.2]
      exact ⟨rfl, by simp⟩
    · rw [if_neg hc] at h
      cases hr : cutLine cs with
      | none => rw [hr] at h; cases h
      | some lr =>
        obtain ⟨l2, r2⟩ := lr
        rw [hr] at h
        simp only [Option.some.injEq, Prod.mk.injEq] at h
        obtain ⟨g1, _⟩ := cutLine_spec cs l2 r2 hr
        rw [← h.1, ← h.2]
        exact ⟨by simp [g1], by simp⟩

theorem readSliceFull_spec (buf : Str) (p : List Str) :
    (readSliceFull buf p).1.1 ++ ((readSliceFull buf p).2.1 ++ (readSliceFull buf p).2.2.flatten)
      = buf ++ p.flatten ∧
    ((readSliceFull buf p).1.2 = none → (readSliceFull buf p).1.1 ≠ []) := by
  unfold readSliceFull
  cases hc : cutLine buf with
  | none => exact ⟨by simp, fun h => by cases h⟩
  | some lr =>
    obtain ⟨l, r⟩ := lr
    obtain ⟨g1, g2⟩ := cutLine_spec buf l r hc
    exact ⟨by simp only [← List.append_assoc, g1], fun _ => g2⟩

/-- The loop of `ReadSlice` hands out the next bytes of the stream, and without an
error at least one byte. -/
theorem readSliceFrom_spec (size : Nat) (closeErr : Err) :
    ∀ (p : List Str) (buf : Str),
      (readSliceFrom size closeErr p buf).1.1 ++
          ((readSliceFrom size closeErr p buf).2.1 ++
            (readSliceFrom size closeErr p buf).2.2.flatten)
        = buf ++ p.flatten ∧
      ((readSliceFrom size closeErr p buf).1.2 = none →
        (readSliceFrom size closeErr p buf).1.1 ≠ [])
  | [], buf => by
    unfold readSliceFrom
    cases hc : cutLine buf with
    | none =>
      by_cases hf : buf.length ≥ size
      · simp only [hf, if_true]
        exact ⟨by simp, fun h => by cases h⟩
      · simp only [hf, if_false]
        exact ⟨by simp, fun h => by cases h⟩
    | some lr =>
      obtain ⟨l, r⟩ := lr
      obtain ⟨g1, g2⟩ := cutLine_spec buf l r hc
      exact ⟨by simp only [List.flatten_nil, List.append_nil, g1], fun _ => g2⟩
  | seg :: more, buf => by
    unfold readSliceFrom
    cases hc : cutLine buf with
    | some lr =>
      obtain ⟨l, r⟩ := lr
      obtain ⟨g1, g2⟩ := cutLine_spec buf l r hc
      exact ⟨by simp only [← List.append_assoc, g1], fun _ => g2⟩
    | none =>
      by_cases hf : buf.length ≥ size
      · simp only [hf, if_true]
        exact ⟨by simp, fun h => by cases h⟩
      · simp only [hf, if_false]
        by_cases he : seg.isEmpty = true
        · have hs : seg = [] := List.isEmpty_iff.mp he
          simp only [he, if_true]
          obtain ⟨g1, g2⟩ := readSliceFrom_spec size closeErr more buf
          refine ⟨?_, g2⟩
          rw [g1, hs]
          simp
        · simp only [he, Bool.false_eq_true, if_false]
          by_cases hl : seg.length ≤ size - buf.length
          · simp only [hl, if_true]
            obtain ⟨g1, g2⟩ := readSliceFrom_spec size closeErr more (buf ++ seg)
            refine ⟨?_, g2⟩
            rw [g1]
            simp
          · simp only [hl, if_false]
            obtain ⟨g1, g2⟩ := readSliceFull_spec (buf ++ seg.take (size - buf.length))
              (seg.drop (size - buf.length) :: more)
            refine ⟨?_, g2⟩
            rw [g1]
            simp only [List.flatten_cons, List.append_assoc]
            rw [← List.append_assoc (List.take _ seg), List.take_append_drop]

theorem dropEOL_nil {raw : Str} (hne : raw ≠ []) (h : dropEOL raw = []) :
    raw = ['\n'] ∨ raw = ['\r', '\n'] := by
  unfold dropEOL at h
  by_cases hn : raw.getLast? = some '\n'
  · rw [if_pos hn] at h
    have hraw : raw = raw.dropLast ++ ['\n'] := by
      have := List.dropLast_append_getLast? '\n' (by simpa using hn)
      exact this.symm
    by_cases hr : raw.dropLast.getLast? = some '\r'
    · rw [if_pos hr] at h
      have hd : raw.dropLast = raw.dropLast.dropLast ++ ['\r'] := by
        have := List.dropLast_append_getLast? '\r' (by simpa using hr)
        exact this.symm
      rw [h] at hd
      right
      rw [hraw, hd]
      rfl
    · rw [if_neg hr] at h
      left
      rw [hraw, h]
      rfl
  · rw [if_neg hn] at h
    exact absurd h hne

/-- A call of `ReadLine` takes the next bytes `raw` off the stream; when it returns an
empty complete line, these bytes are an end of line. -/
theorem ReadLine_spec (b : Reader) :
    ∃ raw, raw ++ (b.ReadLine).2.rest = b.rest ∧
      ((b.ReadLine).1.err = none → (b.ReadLine).1.isPrefix = false →
        (b.ReadLine).1.line = [] → raw = ['\n'] ∨ raw = ['\r', '\n']) := by
  obtain ⟨g1, g2⟩ := readSliceFrom_spec b.size b.rd.closeErr b.rd.pending b.buf
  unfold Reader.ReadLine Reader.ReadSlice
  simp only
  generalize readSliceFrom b.size b.rd.closeErr b.rd.pending b.buf = r at g1 g2
  by_cases hfull : r.1.2 = some Err.BufferFull
  · simp only [hfull, if_true]
    by_cases hcr : r.1.1.getLast? = some '\r'
    · simp only [hcr, if_true]
      refine ⟨r.1.1.dropLast, ?_, fun _ h => by cases h⟩
      have := List.dropLast_append_getLast? '\r' (by simpa using hcr)
      simp only [Reader.rest]
      rw [← g1]
      conv_rhs => rw [← this]
      simp
    · simp only [hcr, if_false]
      exact ⟨r.1.1, by simp only [Reader.rest]; exact g1, fun _ h => by cases h⟩
  · simp only [hfull, if_false]
    by_cases hz : r.1.1.length = 0
    · simp only [hz, if_true]
      refine ⟨r.1.1, by simp only [Reader.rest]; exact g1, fun he _ _ => ?_⟩
      exact absurd (List.length_eq_zero.mp hz) (g2 he)
    · simp only [hz, if_false]
      refine ⟨r.1.1, by simp only [Reader.rest]; exact g1, fun _ _ hl => ?_⟩
      exact dropEOL_nil (fun e => hz (by rw [e]; rfl)) hl

/-- Reading `req.Body`, the `LimitedReader` with `N = L` over the reader that `readReq`
leaves, to its end (with a buffer of any size `chunk > 0`) yields the first `L` of the
bytes that the reader has not handed out, or all of them when fewer are there, and so
never more than `L` bytes (none when `L` is negative). -/
theorem body_limited (reader : Reader) (L : Int) (chunk : Nat) (hchunk : 0 < chunk) :
    (readToEnd chunk { R := reader, N := L }).1 = reader.rest.take L.toNat ∧
    (readToEnd chunk { R := reader, N := L }).1.length = min L.toNat reader.rest.length ∧
    (0 ≤ L → ((readToEnd chunk { R := reader, N := L }).1.length : Int) ≤ L) := by
  have hbody : (readToEnd chunk { R := reader, N := L }).1 = reader.rest.take L.toNat :=
    readToEndLoop_spec chunk hchunk _ { R := reader, N := L } (by simp)
  refine ⟨hbody, ?_, ?_⟩
  · rw [hbody, List.length_take]
  · intro hL
    rw [hbody, List.length_take]
    omega

/-! ## The encoder on the wire, uniqueness of the longest match, and the loop of the decoder -/

/-- The final state of the loop of `Server.match` does not depend on the order in which
a table with distinct patterns is iterated. -/
theorem matchLoop_order {H : Type} (t o1 o2 : List (Str × Handler H)) (path : Str)
    (hkeys : (t.map Prod.fst).Nodup) (h1 : o1.Perm t) (h2 : o2.Perm t) :
    matchLoop path o1 (0, Handler.nil) = matchLoop path o2 (0, Handler.nil) := by
  obtain ⟨r1, hr1, c1⟩ := matchLoop_spec path o1 ((0 : Nat), (Handler.nil : Handler H))
  obtain ⟨r2, hr2, c2⟩ := matchLoop_spec path o2 ((0 : Nat), (Handler.nil : Handler H))
  rw [hr1, hr2]
  have hpos : ∀ kv : Str × Handler H, pathMatch kv.1 path = some true → 0 < kv.1.length :=
    fun kv hm => List.length_pos.mpr ((pathMatch_true_iff kv.1 path).mp hm).1
  rcases c1 with ⟨e1, le1⟩ | ⟨kv1, m1, pm1, e1, _, le1⟩ <;>
    rcases c2 with ⟨e2, le2⟩ | ⟨kv2, m2, pm2, e2, _, le2⟩
  · rw [e1, e2]
  · have := le1 kv2 (h1.symm.subset (h2.subset m2)) pm2
    have := hpos kv2 pm2
    simp only at *
    omega
  · have := le2 kv1 (h2.symm.subset (h1.subset m1)) pm1
    have := hpos kv1 pm1
    simp only at *
    omega
  · have ha := le1 kv2 (h1.symm.subset (h2.subset m2)) pm2
    have hb := le2 kv1 (h2.symm.subset (h1.subset m1)) pm1
    have hk : kv1.1 = kv2.1 := pathMatch_same_length pm1 pm2 (by omega)
    obtain ⟨k1, v1⟩ := kv1
    obtain ⟨k2, v2⟩ := kv2
    simp only at hk
    subst hk
    have hv : v1 = v2 := value_unique t hkeys k1 v1 v2 (h1.subset m1) (h2.subset m2)
    rw [e1, e2, hv]

/-- C18: two distinct non-empty patterns that both match a path have different lengths;
hence the result of `Server.match` on a table with distinct patterns is the same in
every order of iteration. -/
theorem longest_match_unique :
    (∀ (path P Q : Str), P ≠ [] → Q ≠ [] → P ≠ Q →
      pathMatch P path = some true → pathMatch Q path = some true →
      P.length ≠ Q.length) ∧
    (∀ {H : Type} (NotFoundHandler : H) (t o1 o2 : List (Str × Handler H)) (path : Str),
      (t.map Prod.fst).Nodup → o1.Perm t → o2.Perm t →
      Server.match NotFoundHandler o1 path = Server.match NotFoundHandler o2 path) := by
  constructor
  · intro path P Q _ _ hne hp hq hlen
    exact hne (pathMatch_same_length hp hq hlen)
  · intro H nf t o1 o2 path hkeys h1 h2
    unfold Server.match
    rw [matchLoop_order t o1 o2 path hkeys h1 h2]

/-- C18, at the patterns `/` and `/a/` on the path `/a/b`, in both orders. -/
theorem longest_match_unique_witness :
    "/".toList.length ≠ "/a/".toList.length ∧
    Server.match 0 [("/".toList, Handler.val 1), ("/a/".toList, Handler.val 2)] "/a/b".toList
      = Server.match 0 [("/a/".toList, Handler.val 2), ("/".toList, Handler.val 1)]
          "/a/b".toList :=
  ⟨longest_match_unique.1 "/a/b".toList "/".toList "/a/".toList (by decide) (by decide)
      (by decide) (by decide) (by decide),
   longest_match_unique.2 0 [("/".toList, Handler.val 1), ("/a/".toList, Handler.val 2)]
      [("/".toList, Handler.val 1), ("/a/".toList, Handler.val 2)]
      [("/a/".toList, Handler.val 2), ("/".toList, Handler.val 1)] "/a/b".toList
      (by decide) (List.Perm.refl _) (List.Perm.swap _ _ _)⟩

theorem requestLineStep_outcomes (parseURI : Str → Option URL) (st : ReadState) (line : Str)
    (w : Bool) :
    requestLineStep parseURI st line w = LoopStep.fail Err.InvalidRequestLine ∨
    requestLineStep parseURI st line w = LoopStep.fail Err.InvalidURI ∨
    ∃ st2, requestLineStep parseURI st line w = LoopStep.next st2 := by
  rcases requestLineStep_cases parseURI st line w with hf | ⟨f0, f1, f2, _, heq⟩
  · exact Or.inl hf
  · right
    rw [heq]
    cases parseURI f1 with
    | none => exact Or.inl rfl
    | some u => exact Or.inr ⟨_, rfl⟩

theorem headerStep_outcomes (st : ReadState) (line whole : Str) (w : Bool) :
    headerStep st line whole w = LoopStep.fail Err.InvalidRequestHeader ∨
    headerStep st line whole w = LoopStep.fail Err.NoContentLength ∨
    headerStep st line whole w = LoopStep.fail Err.ContentLengthNotNumeric ∨
    (∃ st2, headerStep st line whole w = LoopStep.next st2) ∨
    ∃ req, headerStep st line whole w = LoopStep.done req := by
  by_cases hne : line = []
  · subst hne
    rw [headerStep_empty]
    cases hg : st.req.Header.get HeaderContentLength with
    | none =>
      simp only []
      by_cases hp : st.req.Method = MethodPost
      · rw [if_pos hp]; exact Or.inr (Or.inl rfl)
      · rw [if_neg hp]; exact Or.inr (Or.inr (Or.inr (Or.inr ⟨_, rfl⟩)))
    | some v =>
      simp only []
      cases ha : Atoi v with
      | none => exact Or.inr (Or.inr (Or.inl rfl))
      | some n => exact Or.inr (Or.inr (Or.inr (Or.inr ⟨_, rfl⟩)))
  · rw [headerStep_nonempty st line whole w hne]
    cases hc : cut [':', ' '] whole with
    | none => exact Or.inl rfl
    | some ab => exact Or.inr (Or.inr (Or.inr (Or.inl ⟨_, rfl⟩)))

/-- One pass of the loop in a state that is not in the body step does not panic, and
when no reader error came in, its own failures are not `io.EOF`. -/
theorem readReqStep_safe (parseURI : Str → Option URL) (st : ReadState) (r : ReadLineResult)
    (hb : st.step ≠ RequestStep.Body) :
    readReqStep parseURI st r ≠ LoopStep.panic ∧
    (r.err = none → readReqStep parseURI st r ≠ LoopStep.fail Err.EOF) := by
  unfold readReqStep
  cases he : r.err with
  | some e => exact ⟨fun h => (by cases h), fun h => (by cases h)⟩
  | none =>
    simp only
    cases hp : r.isPrefix with
    | true =>
      simp only [Bool.not_true, Bool.false_eq_true, if_false]
      exact ⟨fun h => (by cases h), fun _ h => (by cases h)⟩
    | false =>
      simp only [Bool.not_false, if_true]
      cases hs : st.step with
      | RequestLine =>
        simp only
        rcases requestLineStep_outcomes parseURI st
            (if (!st.lastWait) = true then r.line else heldLine st r ++ r.line) false
          with h | h | ⟨st2, h⟩ <;> rw [h] <;>
          exact ⟨fun h => (by cases h), fun _ h => (by cases h)⟩
      | Header =>
        simp only
        rcases headerStep_outcomes st r.line
            (if (!st.lastWait) = true then r.line else heldLine st r ++ r.line) false
          with h | h | h | ⟨st2, h⟩ | ⟨req, h⟩ <;> rw [h] <;>
          exact ⟨fun h => (by cases h), fun _ h => (by cases h)⟩
      | Body => exact absurd hs hb

theorem readReqLoop_no_panic {σ : Type} (ReadLine : σ → ReadLineResult × σ)
    (write : σ → ReadLineResult → Nat → Str → σ) (parseURI : Str → Option URL) :
    ∀ (fuel : Nat) (st : ReadState) (rd rd2 : σ) (out : Outcome Request),
      st.step ≠ RequestStep.Body →
      readReqLoop ReadLine write parseURI fuel st rd = some (out, rd2) → out ≠ Outcome.panic
  | 0, _, _, _, _, _, h => by simp [readReqLoop] at h
  | fuel + 1, st, rd, rd2, out, hb, h => by
    unfold readReqLoop at h
    have hsafe := (readReqStep_safe parseURI st (ReadLine rd).1 hb).1
    cases hs : readReqStep parseURI st (ReadLine rd).1 with
    | next st2 =>
      simp only [hs] at h
      exact readReqLoop_no_panic ReadLine write parseURI fuel st2 _ rd2 out
        (readReqStep_next hs hb).1 h
    | done req =>
      simp only [hs, Option.some.injEq, Prod.mk.injEq] at h
      rw [← h.1]; intro e; cases e
    | fail e =>
      simp only [hs, Option.some.injEq, Prod.mk.injEq] at h
      rw [← h.1]; intro e; cases e
    | panic => exact absurd hs hsafe

/-- On a script of `ReadLine` results the loop returns when it has one more pass than
there are results. -/
theorem readReqLoop_script_returns (parseURI : Str → Option URL) :
    ∀ (script : List ReadLineResult) (fuel : Nat) (st : ReadState),
      script.length < fuel →
      ∃ out rest, readReqLoop scriptReadLine scriptWrite parseURI fuel st script = some (out, rest)
  | _, 0, _, h => by omega
  | [], fuel + 1, st, _ => by
    unfold readReqLoop
    have : readReqStep parseURI st (scriptReadLine []).1 = LoopStep.fail Err.EOF := by
      simp [readReqStep, scriptReadLine]
    rw [this]
    exact ⟨_, _, rfl⟩
  | r :: rs, fuel + 1, st, h => by
    unfold readReqLoop
    simp only [scriptReadLine, afterAppend_script]
    cases hs : readReqStep parseURI st r with
    | next st2 =>
      simp only
      exact readReqLoop_script_returns parseURI rs fuel st2
        (by simp only [List.length_cons] at h; omega)
    | done req => exact ⟨_, _, rfl⟩
    | fail e => exact ⟨_, _, rfl⟩
    | panic => exact ⟨_, _, rfl⟩

/-- C20: `readReq` never panics. For every sequence of `ReadLine` results it returns,
and not with a panic; a pass that starts in the request-line or header step does not
panic (the fields of the request line are indexed only when there are three) and goes
round again only in the request-line or header step, so the case `RequestStepBody` of
the switch is never reached; this holds over every line reader. -/
theorem readReq_never_panics (parseURI : Str → Option URL) :
    (∀ script : List ReadLineResult, ∃ out rest,
      readReqOn parseURI script = some (out, rest) ∧ out ≠ Outcome.panic) ∧
    (∀ (st : ReadState) (r : ReadLineResult), st.step ≠ RequestStep.Body →
      readReqStep parseURI st r ≠ LoopStep.panic ∧
      ∀ st2, readReqStep parseURI st r = LoopStep.next st2 → st2.step ≠ RequestStep.Body) ∧
    (∀ {σ : Type} (ReadLine : σ → ReadLineResult × σ)
        (write : σ → ReadLineResult → Nat → Str → σ) (fuel : Nat) (rd rd2 : σ)
        (out : Outcome Request),
      readReqLoop ReadLine write parseURI fuel ReadState.init rd = some (out, rd2) →
      out ≠ Outcome.panic) := by
  refine ⟨?_, ?_, ?_⟩
  · intro script
    obtain ⟨out, rest, h⟩ := readReqLoop_script_returns parseURI script (script.length + 1)
      ReadState.init (by omega)
    exact ⟨out, rest, h, readReqLoop_no_panic scriptReadLine scriptWrite parseURI _ ReadState.init
      script rest out (by decide) h⟩
  · intro st r hb
    exact ⟨(readReqStep_safe parseURI st r hb).1, fun st2 h => (readReqStep_next h hb).1⟩
  · intro σ ReadLine write fuel rd rd2 out h
    exact readReqLoop_no_panic ReadLine write parseURI fuel ReadState.init rd rd2 out (by decide) h

/-- C20, at a request line of two fields and at a complete request. -/
theorem readReq_never_panics_witness :
    (∃ out rest, readReqOn pathOnlyURI [wholeLineResult "GET /x".toList]
        = some (out, rest) ∧ out ≠ Outcome.panic) ∧
    (∃ out rest, readReqOn pathOnlyURI
        [wholeLineResult "GET /x HTTP/1.1".toList, wholeLineResult []]
        = some (out, rest) ∧ out ≠ Outcome.panic) :=
  ⟨(readReq_never_panics pathOnlyURI).1 [wholeLineResult "GET /x".toList],
   (readReq_never_panics pathOnlyURI).1
     [wholeLineResult "GET /x HTTP/1.1".toList, wholeLineResult []]⟩

/-- C16 as stated fails: the stream ends after the request line and a header line have
been read, and `readReq` returns `io.EOF`, the same error as when the stream ends before
any line; so it is on a connection that is closed after `GET /x HTTP/1.1` and
`Host: a`. -/
theorem eof_after_lines_is_eof :
    readReqOn pathOnlyURI
        [wholeLineResult "GET /x HTTP/1.1".toList, wholeLineResult "Host: a".toList]
      = some (Outcome.fail Err.EOF, []) ∧
    readReqOn pathOnlyURI [] = some (Outcome.fail Err.EOF, []) ∧
    (readReq 4096 pathOnlyURI (connOf ["GET /x HTTP/1.1\nHost: a\n".toList])).map Prod.fst
      = some (Outcome.fail Err.EOF) ∧
    (readReq 4096 pathOnlyURI (connOf [])).map Prod.fst = some (Outcome.fail Err.EOF) := by
  refine ⟨?_, ?_, ?_, ?_⟩
  · decide
  · decide
  · decide
  · decide

/-- C16, amended: whenever the line reader reports an error, `readReq` returns that
error, in whatever step it is and whatever it has read (so the end of the stream gives
`io.EOF` before the first line of a request and after some of its lines alike); the
failures that `readReq` raises itself on a line are never `io.EOF`. -/
theorem reader_error_returned (parseURI : Str → Option URL) :
    (∀ (st : ReadState) (r : ReadLineResult) (e : Err), r.err = some e →
      readReqStep parseURI st r = LoopStep.fail e) ∧
    (∀ (st : ReadState) (r : ReadLineResult), r.err = none →
      readReqStep parseURI st r ≠ LoopStep.fail Err.EOF) := by
  constructor
  · intro st r e he
    simp [readReqStep, he]
  · intro st r he
    by_cases hb : st.step = RequestStep.Body
    · unfold readReqStep
      simp only [he, hb]
      cases r.isPrefix <;> simp
    · exact (readReqStep_safe parseURI st r hb).2 he

/-- C16, amended, at the end of the stream in the header step. -/
theorem reader_error_returned_witness :
    readReqStep pathOnlyURI sampleHeaderState { line := [], isPrefix := false, err := some Err.EOF }
      = LoopStep.fail Err.EOF :=
  (reader_error_returned pathOnlyURI).1 sampleHeaderState
    { line := [], isPrefix := false, err := some Err.EOF } Err.EOF rfl

/-! ## Properties of registration -/

theorem mem_set {V : Type} (m : GoMap V) (k : Str) (v : V) (kv : Str × V)
    (h : kv ∈ m.set k v) : kv = (k, v) ∨ (kv ∈ m ∧ kv.1 ≠ k) := by
  unfold GoMap.set at h
  rcases List.mem_cons.mp h with h | h
  · exact Or.inl h
  · right
    have := List.mem_filter.mp h
    exact ⟨this.1, by simpa using this.2⟩

theorem nodup_set {V : Type} (m : GoMap V) (k : Str) (v : V)
    (h : (m.map Prod.fst).Nodup) : ((m.set k v).map Prod.fst).Nodup := by
  unfold GoMap.set
  rw [List.map_cons, List.nodup_cons]
  constructor
  · intro hmem
    obtain ⟨kv, hkv, hk⟩ := List.mem_map.mp hmem
    have := (List.mem_filter.mp hkv).2
    simp only [ne_eq, decide_not, Bool.not_eq_true', decide_eq_false_iff_not] at this
    exact this hk
  · exact h.sublist ((List.filter_sublist m).map Prod.fst)

theorem mem_of_get {V : Type} (m : GoMap V) (k : Str) (v : V) (h : m.get k = some v) :
    (k, v) ∈ m := by
  unfold GoMap.get at h
  cases hf : m.find? (fun kv => decide (kv.1 = k)) with
  | none => rw [hf] at h; cases h
  | some kv =>
    rw [hf] at h
    simp only [Option.map_some', Option.some.injEq] at h
    have hmem := List.mem_of_find?_eq_some hf
    have hk := List.find?_some hf
    simp only [decide_eq_true_eq] at hk
    obtain ⟨k2, v2⟩ := kv
    simp only at hk h
    rw [← hk, ← h]
    exact hmem

/-- The invariant of the handler table: distinct patterns, none empty, no nil handler. -/
theorem AddHandler_keeps {H : Type} (t : GoMap (Handler H)) (pattern : Str)
    (handler : Handler H)
    (hnd : (t.map Prod.fst).Nodup) (hok : ∀ kv ∈ t, kv.1 ≠ [] ∧ kv.2 ≠ Handler.nil)
    (hs : (Server.AddHandler t pattern handler).1 = none) :
    (((Server.AddHandler t pattern handler).2).map Prod.fst).Nodup ∧
    ∀ kv ∈ (Server.AddHandler t pattern handler).2, kv.1 ≠ [] ∧ kv.2 ≠ Handler.nil := by
  unfold Server.AddHandler at hs ⊢
  by_cases hp : pattern = []
  · rw [if_pos hp] at hs; cases hs
  · rw [if_neg hp] at hs ⊢
    cases handler with
    | nil => cases hs
    | val f =>
      refine ⟨nodup_set t pattern _ hnd, ?_⟩
      intro kv hkv
      rcases mem_set t pattern _ kv hkv with e | ⟨hm, _⟩
      · rw [e]; exact ⟨hp, fun h => by cases h⟩
      · exact hok kv hm

theorem registerAll_keeps {H : Type} :
    ∀ (regs : List (Str × Handler H)) (t0 t : GoMap (Handler H)),
      (t0.map Prod.fst).Nodup → (∀ kv ∈ t0, kv.1 ≠ [] ∧ kv.2 ≠ Handler.nil) →
      registerAll regs t0 = some t →
      (t.map Prod.fst).Nodup ∧ ∀ kv ∈ t, kv.1 ≠ [] ∧ kv.2 ≠ Handler.nil
  | [], t0, t, hnd, hok, h => by
    simp only [registerAll, Option.some.injEq] at h
    rw [← h]; exact ⟨hnd, hok⟩
  | (p, hd) :: rest, t0, t, hnd, hok, h => by
    unfold registerAll at h
    cases hs : (Server.AddHandler t0 p hd).1 with
    | some msg => simp only [hs] at h; cases h
    | none =>
      simp only [hs] at h
      obtain ⟨g1, g2⟩ := AddHandler_keeps t0 p hd hnd hok hs
      exact registerAll_keeps rest _ t g1 g2 h

/-- C15: `AddHandler(pattern, handler)` panics exactly when the pattern is empty or the
handler is nil, and then the table is as before; otherwise the table afterwards maps the
pattern to the handler and every other pattern as before; so a table built from that of
`NewServer` by calls of `AddHandler` has distinct patterns, none of them empty, and no
nil handler. -/
theorem AddHandler_contract {H : Type} :
    (∀ (t : GoMap (Handler H)) (pattern : Str) (handler : Handler H),
      ((Server.AddHandler t pattern handler).1 ≠ none ↔
        (pattern = [] ∨ handler = Handler.nil)) ∧
      ((Server.AddHandler t pattern handler).1 ≠ none →
        (Server.AddHandler t pattern handler).2 = t) ∧
      ((Server.AddHandler t pattern handler).1 = none →
        (Server.AddHandler t pattern handler).2.get pattern = some handler ∧
        ∀ q, q ≠ pattern → (Server.AddHandler t pattern handler).2.get q = t.get q)) ∧
    (∀ (regs : List (Str × Handler H)) (t : GoMap (Handler H)),
      registerAll regs NewServer = some t →
      (t.map Prod.fst).Nodup ∧ ∀ kv ∈ t, kv.1 ≠ [] ∧ kv.2 ≠ Handler.nil) := by
  constructor
  · intro t pattern handler
    unfold Server.AddHandler
    by_cases hp : pattern = []
    · simp only [hp, if_true]
      exact ⟨⟨fun _ => Or.inl trivial, fun _ h => by cases h⟩, fun _ => trivial,
        fun h => by cases h⟩
    · rw [if_neg hp]
      cases handler with
      | nil =>
        exact ⟨⟨fun _ => Or.inr rfl, fun _ h => (by cases h)⟩, fun _ => rfl,
          fun h => (by cases h)⟩
      | val f =>
        refine ⟨⟨fun h => absurd rfl h, ?_⟩, fun h => absurd rfl h, fun _ => ⟨?_, ?_⟩⟩
        · rintro (h | h)
          · exact absurd h hp
          · cases h
        · simp only [get_set, if_true]
        · intro q hq
          simp only [get_set]
          rw [if_neg hq]
  · intro regs t h
    exact registerAll_keeps regs NewServer t (by simp [NewServer])
      (fun kv hkv => by simp [NewServer] at hkv) h

/-- C15, at an empty pattern, a nil handler and a registration that replaces one. -/
theorem AddHandler_contract_witness :
    (Server.AddHandler [("/a".toList, Handler.val 1)] [] (Handler.val 2)).1 ≠ none ∧
    (Server.AddHandler [("/a".toList, Handler.val 1)] "/b".toList (Handler.nil : Handler Nat)).2
      = [("/a".toList, Handler.val 1)] ∧
    (Server.AddHandler [("/a".toList, Handler.val 1)] "/a".toList (Handler.val 2)).2.get
      "/a".toList = some (Handler.val 2) :=
  ⟨((AddHandler_contract.1 [("/a".toList, Handler.val 1)] [] (Handler.val 2)).1).mpr
      (Or.inl rfl),
   (AddHandler_contract.1 [("/a".toList, Handler.val 1)] "/b".toList Handler.nil).2.1
      (by decide),
   ((AddHandler_contract.1 [("/a".toList, Handler.val 1)] "/a".toList (Handler.val 2)).2.2
      (by decide)).1⟩

/-- When an entry of the table matches the path and no matching entry is longer, its
handler is what `Server.match` returns, in every order of iteration. -/
theorem match_of_longest {H : Type} (nf : H) (t order : List (Str × Handler H))
    (path P : Str) (f : H)
    (hkeys : (t.map Prod.fst).Nodup) (hperm : order.Perm t)
    (hP : (P, Handler.val f) ∈ t) (hPm : pathMatch P path = some true)
    (hmax : ∀ kv ∈ t, pathMatch kv.1 path = some true → kv.1.length ≤ P.length) :
    Server.match nf order path = some (Handler.val f) := by
  obtain ⟨r, hr, hcase⟩ := matchLoop_spec path order ((0 : Nat), (Handler.nil : Handler H))
  rcases hcase with ⟨_, hle⟩ | ⟨kv, hmem, hm, hreq, _, hle⟩
  · have h0 := hle (P, Handler.val f) (hperm.symm.subset hP) hPm
    have := List.length_pos.mpr ((pathMatch_true_iff P path).mp hPm).1
    simp only at h0
    omega
  · have h1 := hle (P, Handler.val f) (hperm.symm.subset hP) hPm
    have h2 := hmax kv (hperm.subset hmem) hm
    have hk : kv.1 = P := pathMatch_same_length hm hPm (by simp only at h1; omega)
    obtain ⟨k, v⟩ := kv
    simp only at hk
    subst hk
    have hv : v = Handler.val f := value_unique t hkeys k v _ (hperm.subset hmem) hP
    rw [hreq, hv] at hr
    exact match_of_loop nf order path _ f hr

theorem pathMatch_self (P : Str) (h : P ≠ []) : pathMatch P P = some true := by
  rw [pathMatch_true_iff]
  refine ⟨h, ?_⟩
  by_cases hs : P.getLast? = some '/'
  · exact Or.inr ⟨hs, List.prefix_refl P⟩
  · exact Or.inl ⟨hs, rfl⟩

theorem lastRegistered_cons {H : Type} (p : Str) (hd : Handler H)
    (rest : List (Str × Handler H)) (P : Str) :
    lastRegistered ((p, hd) :: rest) P =
      match lastRegistered rest P with
      | some h => some h
      | none => if p = P then some hd else none := by
  unfold lastRegistered
  rw [List.reverse_cons, List.find?_append]
  cases hf : rest.reverse.find? (fun r => decide (r.1 = P)) with
  | some x => simp
  | none =>
    by_cases hp : p = P
    · simp [hp]
    · simp [hp]

/-- The table after a sequence of registrations holds, for every pattern, the handler
of the last registration for it. -/
theorem registerAll_get {H : Type} (P : Str) :
    ∀ (regs : List (Str × Handler H)) (t0 t : GoMap (Handler H)),
      registerAll regs t0 = some t →
      t.get P = match lastRegistered regs P with
        | some h => some h
        | none => t0.get P
  | [], t0, t, h => by
    simp only [registerAll, Option.some.injEq] at h
    rw [← h]
    rfl
  | (p, hd) :: rest, t0, t, h => by
    unfold registerAll at h
    cases hs : (Server.AddHandler t0 p hd).1 with
    | some msg => simp only [hs] at h; cases h
    | none =>
      simp only [hs] at h
      have ih := registerAll_get P rest _ t h
      have h2 : (Server.AddHandler t0 p hd).2 = t0.set p hd := by
        unfold Server.AddHandler at hs ⊢
        by_cases hp : p = []
        · rw [if_pos hp] at hs; cases hs
        · rw [if_neg hp] at hs ⊢
          cases hd with
          | nil => cases hs
          | val f => rfl
      rw [ih, lastRegistered_cons, h2]
      cases hl : lastRegistered rest P with
      | some x => rfl
      | none =>
        simp only [get_set]
        by_cases hp : P = p
        · rw [if_pos hp, if_pos hp.symm]
        · rw [if_neg hp, if_neg (fun e => hp e.symm)]

/-- C19: in a table built from that of `NewServer` by calls of `AddHandler`, all of
which succeed, looking up a registered pattern itself as the path returns the handler of
the last registration for that pattern, whatever other patterns are registered and in
whatever order the table is iterated. -/
theorem match_registered_pattern {H : Type} (NotFoundHandler : H)
    (regs : List (Str × Handler H)) (t order : GoMap (Handler H)) (P : Str) (h : Handler H)
    (hbuilt : registerAll regs NewServer = some t) (hperm : order.Perm t)
    (hlast : lastRegistered regs P = some h) :
    Server.match NotFoundHandler order P = some h := by
  obtain ⟨hnd, hok⟩ := registerAll_keeps regs NewServer t (by simp [NewServer])
    (fun kv hkv => by simp [NewServer] at hkv) hbuilt
  have hget : t.get P = some h := by
    rw [registerAll_get P regs NewServer t hbuilt, hlast]
  have hmem : (P, h) ∈ t := mem_of_get t P h hget
  obtain ⟨hPne, hnn⟩ := hok (P, h) hmem
  cases h with
  | nil => exact absurd rfl hnn
  | val f =>
    refine match_of_longest NotFoundHandler t order P P f hnd hperm hmem
      (pathMatch_self P hPne) ?_
    intro kv _ hm
    exact (prefix_of_pathMatch hm).length_le

/-- C19, at the pattern `/a/`, registered twice, beside the patterns `/` and `/a/b`. -/
theorem match_registered_pattern_witness :
    Server.match 0
        [("/a/b".toList, Handler.val 4), ("/a/".toList, Handler.val 3),
          ("/".toList, Handler.val 1)]
        "/a/".toList = some (Handler.val 3) :=
  match_registered_pattern 0
    [("/".toList, Handler.val 1), ("/a/".toList, Handler.val 2),
      ("/a/".toList, Handler.val 3), ("/a/b".toList, Handler.val 4)]
    [("/a/b".toList, Handler.val 4), ("/a/".toList, Handler.val 3),
      ("/".toList, Handler.val 1)]
    [("/a/b".toList, Handler.val 4), ("/a/".toList, Handler.val 3),
      ("/".toList, Handler.val 1)]
    "/a/".toList (Handler.val 3) (by decide) (List.Perm.refl _) (by decide)

/-! ## The accept loop, fragments of a line, and the request target -/

/-- C14 fails on the code: when `Accept` fails with `srv.doneChan` closed, `Serve`
returns the error of `Accept`, as it does with the channel open; no run of `Serve`
returns `ErrServerClosed`. -/
theorem serve_returns_accept_error :
    Server.Serve false [AcceptResult.conn, AcceptResult.err (Err.transport 1) true]
      = some (some (ServeErr.accept (Err.transport 1))) ∧
    Server.Serve false [AcceptResult.conn, AcceptResult.err (Err.transport 1) false]
      = some (some (ServeErr.accept (Err.transport 1))) ∧
    (∀ (closed : Bool) (results : List AcceptResult),
      Server.Serve closed results ≠ some (some ServeErr.ErrServerClosed)) := by
  refine ⟨by decide, by decide, ?_⟩
  intro closed results
  induction results with
  | nil =>
    unfold Server.Serve
    cases closed <;> simp
  | cons r rest ih =>
    cases r with
    | conn =>
      unfold Server.Serve
      cases closed
      · simpa using ih
      · simp
    | err e done =>
      unfold Server.Serve
      cases closed <;> cases done <;> simp

/-- C12 fails on the code: the header line `Host: a` delivered as the fragment
`Host: a` flagged as a continuation and an empty last fragment. The header step tests
the length of the last fragment, not of the assembled line, so it takes the line for the
end of the headers: `readReq` returns a request without the header and leaves the empty
line that follows unread, while with the line delivered whole the header is stored. The
same happens on the bytes of a request whose header line has exactly the 16 bytes of
the reader's buffer, which a buffer of 4096 bytes delivers whole. -/
theorem empty_last_fragment_ends_headers :
    readReqOn pathOnlyURI
        [wholeLineResult "GET /x HTTP/1.1".toList,
          { line := "Host: a".toList, isPrefix := true, err := none },
          { line := [], isPrefix := false, err := none },
          wholeLineResult []]
      = some (Outcome.ok
          { Method := MethodGet,
            URL := some { Scheme := [], Host := [], Path := "/x".toList },
            Proto := HTTPVersion,
            Header := [(HeaderContentLength, "0".toList)],
            ContentLength := 0 }, [wholeLineResult []]) ∧
    readReqOn pathOnlyURI
        [wholeLineResult "GET /x HTTP/1.1".toList, wholeLineResult "Host: a".toList,
          wholeLineResult []]
      = some (Outcome.ok
          { Method := MethodGet,
            URL := some { Scheme := [], Host := [], Path := "/x".toList },
            Proto := HTTPVersion,
            Header := [(HeaderContentLength, "0".toList), ("Host".toList, "a".toList)],
            ContentLength := 0 }, []) ∧
    (readReq 16 pathOnlyURI
        (connOf ["GET /x HTTP/1.1\nContent-Len: 123\n\n".toList])).map
        (fun r => (r.1, r.2.rest))
      = some (Outcome.ok
          { Method := MethodGet,
            URL := some { Scheme := [], Host := [], Path := "/x".toList },
            Proto := HTTPVersion,
            Header := [(HeaderContentLength, "0".toList)],
            ContentLength := 0 }, "\n".toList) ∧
    (readReq 4096 pathOnlyURI
        (connOf ["GET /x HTTP/1.1\nContent-Len: 123\n\n".toList])).map
        (fun r => (r.1, r.2.rest))
      = some (Outcome.ok
          { Method := MethodGet,
            URL := some { Scheme := [], Host := [], Path := "/x".toList },
            Proto := HTTPVersion,
            Header := [(HeaderContentLength, "0".toList),
              ("Content-Len".toList, "123".toList)],
            ContentLength := 0 }, []) := by
  refine ⟨by decide, by decide, by decide, by decide⟩

/-- C17 fails on the code: the package comment of `server.go` says that the request
URI must be an absolute path, but `readReq` only calls `url.ParseRequestURI`. With the
target an absolute URI with scheme and host, and with the target `*`, the request is
decoded; the target does not begin with `/`, and the first one carries a scheme and a
host. The last part is the first request as bytes on a connection. -/
theorem absolute_uri_target_accepted :
    readReqOn ParseRequestURI
        [wholeLineResult "GET http://h/x HTTP/1.1".toList, wholeLineResult []]
      = some (Outcome.ok
          { Method := MethodGet,
            URL := some { Scheme := "http".toList, Host := "h".toList, Path := "/x".toList },
            Proto := HTTPVersion,
            Header := [(HeaderContentLength, "0".toList)],
            ContentLength := 0 }, []) ∧
    readReqOn ParseRequestURI
        [wholeLineResult "GET * HTTP/1.1".toList, wholeLineResult []]
      = some (Outcome.ok
          { Method := MethodGet,
            URL := some { Scheme := [], Host := [], Path := "*".toList },
            Proto := HTTPVersion,
            Header := [(HeaderContentLength, "0".toList)],
            ContentLength := 0 }, []) ∧
    (readReq 4096 ParseRequestURI (connOf ["GET http://h/x HTTP/1.1\n\n".toList])).map
        Prod.fst
      = some (Outcome.ok
          { Method := MethodGet,
            URL := some { Scheme := "http".toList, Host := "h".toList, Path := "/x".toList },
            Proto := HTTPVersion,
            Header := [(HeaderContentLength, "0".toList)],
            ContentLength := 0 }) := by
  refine ⟨by decide, by decide, by decide⟩

/-- For a request line of three fields with a known method and version, delivered
whole, `readReq` rejects the target exactly when `url.ParseRequestURI` rejects the second
field, and otherwise goes on with the URL that `ParseRequestURI` returns, which is the
URL of the request it finally returns; `readReq` makes no check of its own on the
target. -/
theorem target_as_parser_accepts (parseURI : Str → Option URL) (line f0 f1 f2 : Str)
    (hok : RequestLineOK line f0 f1 f2) :
    (readReqStep parseURI ReadState.init (wholeLineResult line) = LoopStep.fail Err.InvalidURI
      ↔ parseURI f1 = none) ∧
    (∀ u, parseURI f1 = some u →
      ∃ st2, readReqStep parseURI ReadState.init (wholeLineResult line) = LoopStep.next st2 ∧
        st2.req.URL = some u) ∧
    (∀ (rest rest2 : List ReadLineResult) (req : Request),
      readReqOn parseURI (wholeLineResult line :: rest) = some (Outcome.ok req, rest2) →
      req.URL = parseURI f1 ∧ req.URL ≠ none) := by
  have hstep : readReqStep parseURI ReadState.init (wholeLineResult line)
      = match parseURI f1 with
        | none => LoopStep.fail Err.InvalidURI
        | some urlObj =>
          LoopStep.next
            { req := { ReadState.init.req with Method := f0, URL := some urlObj, Proto := f2 },
              wholeLine := line, lastWait := false, step := RequestStep.Header } := by
    rw [readReqStep_whole parseURI ReadState.init line rfl]
    exact requestLineStep_of_ok parseURI ReadState.init line false f0 f1 f2 hok
  refine ⟨?_, ?_, ?_⟩
  · rw [hstep]
    cases hp : parseURI f1 with
    | none => simp
    | some u => simp
  · intro u hu
    rw [hstep, hu]
    exact ⟨_, rfl, rfl⟩
  · intro rest rest2 req h
    unfold readReqOn at h
    simp only [List.length_cons] at h
    unfold readReqLoop at h
    simp only [scriptReadLine, afterAppend_script] at h
    rw [hstep] at h
    cases hp : parseURI f1 with
    | none => simp only [hp, Option.some.injEq, Prod.mk.injEq] at h; cases h.1
    | some u =>
      simp only [hp] at h
      obtain ⟨_, hkeep⟩ := readReqLoop_ok scriptReadLine scriptWrite parseURI _ _ rest rest2 req
        (fun e => by cases e) h
      obtain ⟨_, _, g3⟩ := hkeep rfl
      rw [g3]
      exact ⟨rfl, fun e => by cases e⟩

/-- The request-line step at the target `x`, which `ParseRequestURI` rejects. -/
theorem target_as_parser_accepts_witness :
    readReqStep ParseRequestURI ReadState.init (wholeLineResult "GET x HTTP/1.1".toList)
      = LoopStep.fail Err.InvalidURI :=
  (target_as_parser_accepts ParseRequestURI "GET x HTTP/1.1".toList "GET".toList "x".toList
    "HTTP/1.1".toList
    ⟨by decide, by decide, by decide, by decide, Or.inl (by decide), by decide⟩).1.mpr
    (by decide)

/-! ## Properties of runs of `serve` -/

theorem ReadLine_sent (b : Reader) : (b.ReadLine).2.rd.sent = b.rd.sent := by
  unfold Reader.ReadLine Reader.ReadSlice
  simp only
  split_ifs <;> rfl

theorem readReqLoop_sent (parseURI : Str → Option URL) :
    ∀ (fuel : Nat) (st : ReadState) (rd rd2 : Reader) (out : Outcome Request),
      readReqLoop Reader.ReadLine Reader.writeAt parseURI fuel st rd = some (out, rd2) →
      rd2.rd.sent = rd.rd.sent
  | 0, _, _, _, _, h => by simp [readReqLoop] at h
  | fuel + 1, st, rd, rd2, out, h => by
    unfold readReqLoop at h
    cases hs : readReqStep parseURI st (Reader.ReadLine rd).1 with
    | next st2 =>
      simp only [hs] at h
      rw [readReqLoop_sent parseURI fuel st2 _ rd2 out h, afterAppend_rd, ReadLine_sent]
    | done req =>
      simp only [hs, Option.some.injEq, Prod.mk.injEq] at h
      rw [← h.2, afterAppend_rd, ReadLine_sent]
    | fail e =>
      simp only [hs, Option.some.injEq, Prod.mk.injEq] at h
      rw [← h.2, afterAppend_rd, ReadLine_sent]
    | panic =>
      simp only [hs, Option.some.injEq, Prod.mk.injEq] at h
      rw [← h.2, afterAppend_rd, ReadLine_sent]

/-- The decoder writes nothing to the peer. -/
theorem readReq_sent (bufSize : Nat) (parseURI : Str → Option URL) (c : Conn)
    (out : Outcome Request) (reader : Reader)
    (h : readReq bufSize parseURI c = some (out, reader)) : reader.rd.sent = c.sent := by
  unfold readReq at h
  exact readReqLoop_sent parseURI _ _ _ reader out h

theorem Conn_Read_sent (c : Conn) (n : Nat) : (c.Read n).2.sent = c.sent := by
  unfold Conn.Read
  split_ifs
  · rfl
  · cases readPending n c.pending with
    | none => rfl
    | some dr => rfl

theorem Reader_Read_sent (b : Reader) (n : Nat) : (b.Read n).2.rd.sent = b.rd.sent := by
  unfold Reader.Read
  simp only
  split_ifs <;> first | rfl | exact Conn_Read_sent _ _

theorem LimitedReader_Read_sent (l : LimitedReader) (n : Nat) :
    (l.Read n).2.R.rd.sent = l.R.rd.sent := by
  unfold LimitedReader.Read
  simp only
  split_ifs <;> first | rfl | exact Reader_Read_sent _ _

theorem readToEndLoop_sent (chunk : Nat) :
    ∀ (fuel : Nat) (l : LimitedReader),
      (readToEndLoop chunk fuel l).2.R.rd.sent = l.R.rd.sent
  | 0, _ => rfl
  | fuel + 1, l => by
    unfold readToEndLoop
    cases (l.Read chunk).1.2 with
    | some e => exact LimitedReader_Read_sent l chunk
    | none =>
      simp only
      rw [readToEndLoop_sent chunk fuel, LimitedReader_Read_sent]

/-- Discarding the rest of the body writes nothing to the peer. -/
theorem copyDiscard_sent (l : LimitedReader) : (copyDiscard l).R.rd.sent = l.R.rd.sent := by
  unfold copyDiscard readToEnd
  exact readToEndLoop_sent 8192 _ l

/-- What `Server.match` returns is `NotFoundHandler` or the handler of an entry. -/
theorem match_result {H : Type} (nf : H) (order : List (Str × Handler H)) (path : Str)
    (f : H) (h : Server.match nf order path = some (Handler.val f)) :
    f = nf ∨ ∃ k, (k, Handler.val f) ∈ order := by
  obtain ⟨r, hr, hcase⟩ := matchLoop_spec path order ((0 : Nat), (Handler.nil : Handler H))
  unfold Server.match at h
  rw [hr] at h
  rcases hcase with ⟨hreq, _⟩ | ⟨kv, hmem, _, hreq, _, _⟩
  · rw [hreq] at h
    simp only [Option.some.injEq, Handler.val.injEq] at h
    exact Or.inl h.symm
  · rw [hreq] at h
    obtain ⟨k, v⟩ := kv
    cases v with
    | nil =>
      simp only [Option.some.injEq, Handler.val.injEq] at h
      exact Or.inl h.symm
    | val g =>
      simp only [Option.some.injEq, Handler.val.injEq] at h
      right
      exact ⟨k, by rw [← h]; exact hmem⟩

/-! ## Properties of the buffered writer -/

theorem Conn_Write_ok (c : Conn) (p : Str) (h : (c.Write p).1.2 = none) :
    (c.Write p).2.sent = c.sent ++ p ∧ (c.Write p).1.1 = p.length := by
  unfold Conn.Write at h ⊢
  cases hl : c.writeLimit with
  | none => simp
  | some ke =>
    obtain ⟨k, e⟩ := ke
    simp only [hl] at h ⊢
    by_cases hk : p.length ≤ k
    · rw [if_pos hk]; simp
    · rw [if_neg hk] at h; cases h

theorem Conn_Write_free (c : Conn) (p : Str) (h : c.writeLimit = none) :
    (c.Write p).1.2 = none ∧ (c.Write p).2.writeLimit = none := by
  unfold Conn.Write
  simp [h]

theorem Flush_err (b : Writer) : b.Flush.2.err = b.Flush.1 := by
  unfold Writer.Flush
  cases he : b.err with
  | some e => simp only [he]
  | none =>
    simp only
    by_cases hb : b.buf.isEmpty = true
    · rw [if_pos hb]; exact he
    · rw [if_neg hb]
      cases hw : (b.wr.Write b.buf).1.2 with
      | none => rfl
      | some e => rfl

theorem Flush_ok (b : Writer) (he : b.err = none) (h : b.Flush.1 = none) :
    b.Flush.2.buf = [] ∧ b.Flush.2.wr.sent = b.wr.sent ++ b.buf := by
  unfold Writer.Flush at h ⊢
  simp only [he] at h ⊢
  by_cases hb : b.buf.isEmpty = true
  · rw [if_pos hb]
    have : b.buf = [] := List.isEmpty_iff.mp hb
    simp [this]
  · rw [if_neg hb] at h ⊢
    cases hw : (b.wr.Write b.buf).1.2 with
    | none =>
      simp only [hw]
      exact ⟨trivial, (Conn_Write_ok b.wr b.buf hw).1⟩
    | some e => simp only [hw] at h; cases h

theorem Flush_healthy (b : Writer) (h : b.Healthy) : b.Flush.1 = none ∧ b.Flush.2.Healthy := by
  obtain ⟨he, hl⟩ := h
  unfold Writer.Flush
  simp only [he]
  by_cases hb : b.buf.isEmpty = true
  · rw [if_pos hb]; exact ⟨rfl, he, hl⟩
  · rw [if_neg hb]
    obtain ⟨g1, g2⟩ := Conn_Write_free b.wr b.buf hl
    simp only [g1]
    exact ⟨trivial, rfl, g2⟩

theorem writeStringLoop_err (fuel : Nat) (b : Writer) (s : Str) (e : Err)
    (h : b.err = some e) : writeStringLoop fuel b s = (b, s) := by
  cases fuel with
  | zero => rfl
  | succ n =>
    unfold writeStringLoop
    rw [if_neg]
    rintro ⟨_, h2⟩
    rw [h] at h2; cases h2

/-- The loop of `WriteString` loses no byte: when it ends without an error, what was
sent, what is buffered and the text left make up what was there before. -/
theorem writeStringLoop_total :
    ∀ (fuel : Nat) (b : Writer) (s : Str), b.err = none →
      (writeStringLoop fuel b s).1.err = none →
      (writeStringLoop fuel b s).1.wr.sent ++ (writeStringLoop fuel b s).1.buf
          ++ (writeStringLoop fuel b s).2
        = b.wr.sent ++ b.buf ++ s
  | 0, b, s, _, _ => rfl
  | fuel + 1, b, s, he, h => by
    unfold writeStringLoop at h ⊢
    by_cases hc : s.length > b.size - b.buf.length ∧ b.err = none
    · rw [if_pos hc] at h ⊢
      generalize hb1 : ({ b with buf := b.buf ++ s.take (b.size - b.buf.length) } : Writer)
        = b1 at h ⊢
      have hb1e : b1.err = none := by rw [← hb1]; exact he
      cases hf : b1.Flush.2.err with
      | some e =>
        rw [writeStringLoop_err fuel _ _ e hf] at h
        rw [hf] at h; cases h
      | none =>
        have hf1 : b1.Flush.1 = none := by rw [← Flush_err]; exact hf
        obtain ⟨g1, g2⟩ := Flush_ok b1 hb1e hf1
        rw [writeStringLoop_total fuel _ _ hf h, g1, g2, ← hb1]
        simp only [List.append_nil, List.append_assoc, List.take_append_drop]
    · rw [if_neg hc]

theorem writeStringLoop_healthy :
    ∀ (fuel : Nat) (b : Writer) (s : Str), b.Healthy → (writeStringLoop fuel b s).1.Healthy
  | 0, _, _, h => h
  | fuel + 1, b, s, h => by
    unfold writeStringLoop
    by_cases hc : s.length > b.size - b.buf.length ∧ b.err = none
    · rw [if_pos hc]
      exact writeStringLoop_healthy fuel _ _
        (Flush_healthy { b with buf := b.buf ++ s.take (b.size - b.buf.length) } h).2
    · rw [if_neg hc]; exact h

/-- A call of `WriteString` that reports no error has added the text behind what was
sent and buffered; the error it reports is the error of the writer. -/
theorem WriteString_spec (b : Writer) (s : Str) (he : b.err = none) :
    (b.WriteString s).2.err = (b.WriteString s).1 ∧
    ((b.WriteString s).1 = none →
      (b.WriteString s).2.wr.sent ++ (b.WriteString s).2.buf = b.wr.sent ++ b.buf ++ s) := by
  unfold Writer.WriteString
  cases hl : (writeStringLoop (s.length + 2) b s).1.err with
  | some e => exact ⟨hl, fun h => by cases h⟩
  | none =>
    refine ⟨hl, fun _ => ?_⟩
    have := writeStringLoop_total (s.length + 2) b s he hl
    simpa [List.append_assoc] using this

theorem WriteString_healthy (b : Writer) (s : Str) (h : b.Healthy) :
    (b.WriteString s).1 = none ∧ (b.WriteString s).2.Healthy := by
  have hl := writeStringLoop_healthy (s.length + 2) b s h
  unfold Writer.WriteString
  simp only [hl.1]
  exact ⟨trivial, rfl, hl.2⟩

theorem WriteByte_spec (b : Writer) (c : Char) (he : b.err = none) :
    (b.WriteByte c).2.err = (b.WriteByte c).1 ∧
    ((b.WriteByte c).1 = none →
      (b.WriteByte c).2.wr.sent ++ (b.WriteByte c).2.buf = b.wr.sent ++ b.buf ++ [c]) := by
  unfold Writer.WriteByte
  simp only [he]
  by_cases hfull : b.size - b.buf.length ≤ 0
  · rw [if_pos hfull]
    cases hf : b.Flush.1 with
    | some e =>
      simp only
      exact ⟨by rw [Flush_err]; exact hf, fun h => by cases h⟩
    | none =>
      simp only
      obtain ⟨g1, g2⟩ := Flush_ok b he hf
      refine ⟨by rw [Flush_err]; exact hf, fun _ => ?_⟩
      rw [g1, g2]
      simp
  · rw [if_neg hfull]
    exact ⟨rfl, fun _ => by simp⟩

theorem WriteByte_healthy (b : Writer) (c : Char) (h : b.Healthy) :
    (b.WriteByte c).1 = none ∧ (b.WriteByte c).2.Healthy := by
  obtain ⟨g1, g2⟩ := Flush_healthy b h
  unfold Writer.WriteByte
  simp only [h.1]
  by_cases hfull : b.size - b.buf.length ≤ 0
  · rw [if_pos hfull]
    simp only [g1]
    exact ⟨trivial, g2.1, g2.2⟩
  · rw [if_neg hfull]
    exact ⟨rfl, rfl, h.2⟩

theorem writeLoop_err (fuel : Nat) (b : Writer) (p : Str) (e : Err)
    (h : b.err = some e) : writeLoop fuel b p = (b, p) := by
  cases fuel with
  | zero => rfl
  | succ n =>
    unfold writeLoop
    rw [if_neg]
    rintro ⟨_, h2⟩
    rw [h] at h2; cases h2

theorem writeLoop_total :
    ∀ (fuel : Nat) (b : Writer) (p : Str), b.err = none →
      (writeLoop fuel b p).1.err = none →
      (writeLoop fuel b p).1.wr.sent ++ (writeLoop fuel b p).1.buf ++ (writeLoop fuel b p).2
        = b.wr.sent ++ b.buf ++ p
  | 0, b, p, _, _ => rfl
  | fuel + 1, b, p, he, h => by
    unfold writeLoop at h ⊢
    by_cases hc : p.length > b.size - b.buf.length ∧ b.err = none
    · rw [if_pos hc] at h ⊢
      by_cases hb : b.buf.isEmpty = true
      · rw [if_pos hb] at h ⊢
        have hbuf : b.buf = [] := List.isEmpty_iff.mp hb
        cases hw : (b.wr.Write p).1.2 with
        | some e =>
          rw [writeLoop_err fuel _ _ e (by simp only [hw])] at h
          simp only [hw] at h
          cases h
        | none =>
          obtain ⟨g1, g2⟩ := Conn_Write_ok b.wr p hw
          rw [hw] at h
          rw [writeLoop_total fuel _ _ rfl h]
          simp only [g1, g2, hbuf, List.drop_length, List.append_nil]
      · rw [if_neg hb] at h ⊢
        generalize hb1 : ({ b with buf := b.buf ++ p.take (b.size - b.buf.length) } : Writer)
          = b1 at h ⊢
        have hb1e : b1.err = none := by rw [← hb1]; exact he
        cases hf : b1.Flush.2.err with
        | some e =>
          rw [writeLoop_err fuel _ _ e hf] at h
          rw [hf] at h; cases h
        | none =>
          have hf1 : b1.Flush.1 = none := by rw [← Flush_err]; exact hf
          obtain ⟨g1, g2⟩ := Flush_ok b1 hb1e hf1
          rw [writeLoop_total fuel _ _ hf h, g1, g2, ← hb1]
          simp only [List.append_nil, List.append_assoc, List.take_append_drop]
    · rw [if_neg hc]

theorem writeLoop_healthy :
    ∀ (fuel : Nat) (b : Writer) (p : Str), b.Healthy → (writeLoop fuel b p).1.Healthy
  | 0, _, _, h => h
  | fuel + 1, b, p, h => by
    unfold writeLoop
    by_cases hc : p.length > b.size - b.buf.length ∧ b.err = none
    · rw [if_pos hc]
      by_cases hb : b.buf.isEmpty = true
      · rw [if_pos hb]
        obtain ⟨g1, g2⟩ := Conn_Write_free b.wr p h.2
        exact writeLoop_healthy fuel _ _ ⟨g1, g2⟩
      · rw [if_neg hb]
        exact writeLoop_healthy fuel _ _
          (Flush_healthy { b with buf := b.buf ++ p.take (b.size - b.buf.length) } h).2
    · rw [if_neg hc]; exact h

theorem Write_spec (b : Writer) (p : Str) (he : b.err = none) :
    (b.Write p).2.err = (b.Write p).1 ∧
    ((b.Write p).1 = none →
      (b.Write p).2.wr.sent ++ (b.Write p).2.buf = b.wr.sent ++ b.buf ++ p) := by
  unfold Writer.Write
  cases hl : (writeLoop (p.length + 2) b p).1.err with
  | some e => exact ⟨hl, fun h => by cases h⟩
  | none =>
    refine ⟨hl, fun _ => ?_⟩
    have := writeLoop_total (p.length + 2) b p he hl
    simpa [List.append_assoc] using this

theorem Write_healthy (b : Writer) (p : Str) (h : b.Healthy) :
    (b.Write p).1 = none ∧ (b.Write p).2.Healthy := by
  have hl := writeLoop_healthy (p.length + 2) b p h
  unfold Writer.Write
  simp only [hl.1]
  exact ⟨trivial, rfl, hl.2⟩

theorem slice_zero_some (s : Str) (n : Int) (body : Str) (h : slice s 0 n = some body) :
    0 ≤ n ∧ n ≤ (s.length : Int) ∧ body = s.take n.toNat := by
  unfold slice at h
  by_cases hc : (0 : Int) ≤ 0 ∧ 0 ≤ n ∧ n ≤ (s.length : Int)
  · rw [if_pos hc] at h
    simp only [Option.some.injEq] at h
    refine ⟨hc.2.1, hc.2.2, ?_⟩
    rw [← h]
    simp
  · rw [if_neg hc] at h; cases h

theorem slice_zero_none (s : Str) (n : Int) (h : slice s 0 n = none) :
    n < 0 ∨ (s.length : Int) < n := by
  unfold slice at h
  by_cases hc : (0 : Int) ≤ 0 ∧ 0 ≤ n ∧ n ≤ (s.length : Int)
  · rw [if_pos hc] at h; cases h
  · omega

/-- The loop over the header entries hands one line for each entry, in order, when no
call reports an error. -/
theorem writeHeaderLines_spec :
    ∀ (lines : List (Str × Str)) (w : Writer) (handed : List Str), w.err = none →
      (writeHeaderLines lines w handed).2.1.err = (writeHeaderLines lines w handed).1 ∧
      ((writeHeaderLines lines w handed).1 = none →
        (writeHeaderLines lines w handed).2.1.wr.sent ++ (writeHeaderLines lines w handed).2.1.buf
          = w.wr.sent ++ w.buf ++ (lines.map headerLine).flatten ∧
        (writeHeaderLines lines w handed).2.2 = handed ++ lines.map headerLine)
  | [], w, handed, he => by
    unfold writeHeaderLines
    exact ⟨he, fun _ => by simp⟩
  | kv :: rest, w, handed, he => by
    obtain ⟨s1, s2⟩ := WriteString_spec w (headerLine kv) he
    unfold writeHeaderLines
    cases h1 : (w.WriteString (headerLine kv)).1 with
    | some e =>
      simp only
      exact ⟨by rw [s1, h1], fun h => by cases h⟩
    | none =>
      simp only
      obtain ⟨r1, r2⟩ := writeHeaderLines_spec rest (w.WriteString (headerLine kv)).2
        (handed ++ [headerLine kv]) (by rw [s1, h1])
      refine ⟨r1, fun h => ?_⟩
      obtain ⟨t1, t2⟩ := r2 h
      rw [t1, t2, s2 h1]
      simp

theorem writeHeaderLines_healthy :
    ∀ (lines : List (Str × Str)) (w : Writer) (handed : List Str), w.Healthy →
      (writeHeaderLines lines w handed).1 = none ∧ (writeHeaderLines lines w handed).2.1.Healthy
  | [], w, handed, h => by
    unfold writeHeaderLines
    exact ⟨rfl, h⟩
  | kv :: rest, w, handed, h => by
    obtain ⟨s1, s2⟩ := WriteString_healthy w (headerLine kv) h
    unfold writeHeaderLines
    simp only [s1]
    exact writeHeaderLines_healthy rest _ _ s2

/-- When `writeResp` returns without an error, the slice of the body buffer was in
range, the texts handed to the writer are the status line, the header lines, the empty
line and the body, and exactly these bytes were added to what the connection was sent. -/
theorem writeResp_ok (range : GoMap Str → List (Str × Str)) (bufSize : Nat) (c : Conn)
    (resp : Response) (h : (writeResp range bufSize c resp).outcome = Outcome.ok ()) :
    ∃ body, slice (resp.writeBuff ++ resp.writeBuffSpare) 0 resp.ContentLength = some body ∧
      (writeResp range bufSize c resp).handed
        = [statusLine resp]
          ++ (range (resp.Header.set HeaderContentLength (FormatInt resp.ContentLength))).map
              headerLine
          ++ ["\n".toList] ++ [body] ∧
      (writeResp range bufSize c resp).conn.sent
        = c.sent ++ (writeResp range bufSize c resp).handed.flatten := by
  have e0 : (NewWriterSize c bufSize).err = none := rfl
  obtain ⟨a1, a2⟩ := WriteString_spec (NewWriterSize c bufSize) (statusLine resp) e0
  unfold writeResp at h ⊢
  simp only at h ⊢
  cases h1 : ((NewWriterSize c bufSize).WriteString (statusLine resp)).1 with
  | some e => simp only [h1] at h; cases h
  | none =>
    simp only [h1] at h ⊢
    have e1 : ((NewWriterSize c bufSize).WriteString (statusLine resp)).2.err = none := by
      rw [a1, h1]
    obtain ⟨b1, b2⟩ := writeHeaderLines_spec
      (range (resp.Header.set HeaderContentLength (FormatInt resp.ContentLength)))
      ((NewWriterSize c bufSize).WriteString (statusLine resp)).2 [statusLine resp] e1
    cases h2 : (writeHeaderLines
        (range (resp.Header.set HeaderContentLength (FormatInt resp.ContentLength)))
        ((NewWriterSize c bufSize).WriteString (statusLine resp)).2 [statusLine resp]).1 with
    | some e => simp only [h2] at h; cases h
    | none =>
      simp only [h2] at h ⊢
      obtain ⟨b3, b4⟩ := b2 h2
      generalize hw2 : (writeHeaderLines
        (range (resp.Header.set HeaderContentLength (FormatInt resp.ContentLength)))
        ((NewWriterSize c bufSize).WriteString (statusLine resp)).2 [statusLine resp]) = w2
        at h b1 b3 b4 h2 ⊢
      have e2 : w2.2.1.err = none := by rw [b1, h2]
      obtain ⟨c1, c2⟩ := WriteByte_spec w2.2.1 '\n' e2
      cases h3 : (w2.2.1.WriteByte '\n').1 with
      | some e => simp only [h3] at h; cases h
      | none =>
        simp only [h3] at h ⊢
        have e3 : (w2.2.1.WriteByte '\n').2.err = none := by rw [c1, h3]
        cases hs : slice (resp.writeBuff ++ resp.writeBuffSpare) 0 resp.ContentLength with
        | none => simp only [hs] at h; cases h
        | some body =>
          simp only [hs] at h ⊢
          obtain ⟨d1, d2⟩ := Write_spec (w2.2.1.WriteByte '\n').2 body e3
          cases h4 : ((w2.2.1.WriteByte '\n').2.Write body).1 with
          | some e => simp only [h4] at h; cases h
          | none =>
            simp only [h4] at h ⊢
            have e4 : ((w2.2.1.WriteByte '\n').2.Write body).2.err = none := by rw [d1, h4]
            cases h5 : ((w2.2.1.WriteByte '\n').2.Write body).2.Flush.1 with
            | some e => simp only [h5] at h; cases h
            | none =>
              simp only [h5]
              obtain ⟨f1, f2⟩ := Flush_ok _ e4 h5
              refine ⟨body, rfl, ?_, ?_⟩
              · rw [b4]
              · rw [f2, d2 h4, c2 h3, b3, a2 h1, b4]
                simp [NewWriterSize]

/-- On a connection that takes every write, `writeResp` returns without an error when
the slice of the body buffer is in range, and panics, after the header lines and the
empty line were handed to the writer, when it is not. -/
theorem writeResp_free (range : GoMap Str → List (Str × Str)) (bufSize : Nat) (c : Conn)
    (resp : Response) (hc : c.writeLimit = none) :
    (∀ body, slice (resp.writeBuff ++ resp.writeBuffSpare) 0 resp.ContentLength = some body →
      (writeResp range bufSize c resp).outcome = Outcome.ok ()) ∧
    (slice (resp.writeBuff ++ resp.writeBuffSpare) 0 resp.ContentLength = none →
      (writeResp range bufSize c resp).outcome = Outcome.panic ∧
      (writeResp range bufSize c resp).handed
        = [statusLine resp]
          ++ (range (resp.Header.set HeaderContentLength (FormatInt resp.ContentLength))).map
              headerLine
          ++ ["\n".toList]) := by
  have e0 : (NewWriterSize c bufSize).Healthy := ⟨rfl, hc⟩
  obtain ⟨a1, a2⟩ := WriteString_healthy (NewWriterSize c bufSize) (statusLine resp) e0
  obtain ⟨b1, b2⟩ := writeHeaderLines_healthy
    (range (resp.Header.set HeaderContentLength (FormatInt resp.ContentLength)))
    ((NewWriterSize c bufSize).WriteString (statusLine resp)).2 [statusLine resp] a2
  obtain ⟨b3, b4⟩ := (writeHeaderLines_spec
    (range (resp.Header.set HeaderContentLength (FormatInt resp.ContentLength)))
    ((NewWriterSize c bufSize).WriteString (statusLine resp)).2 [statusLine resp] a2.1).2 b1
  obtain ⟨c1, c2⟩ := WriteByte_healthy _ '\n' b2
  constructor
  · intro body hs
    obtain ⟨d1, d2⟩ := Write_healthy _ body c2
    obtain ⟨f1, f2⟩ := Flush_healthy _ d2
    unfold writeResp
    simp only [a1, b1, c1, hs, d1, f1]
  · intro hs
    unfold writeResp
    simp only [a1, b1, c1, hs, b4, true_and]

/-- The bytes of a response that `writeResp` leaves on a connection that takes every
write, when the declared length is within the body buffer. -/
theorem writeResp_sent (range : GoMap Str → List (Str × Str)) (bufSize : Nat) (c : Conn)
    (hsink : c.writeLimit = none) (resp : Response) (h0 : 0 ≤ resp.ContentLength)
    (hlen : resp.ContentLength ≤ ((resp.writeBuff ++ resp.writeBuffSpare).length : Int)) :
    (writeResp range bufSize c resp).outcome = Outcome.ok () ∧
    (writeResp range bufSize c resp).handed
      = [statusLine resp]
        ++ (range (resp.Header.set HeaderContentLength (FormatInt resp.ContentLength))).map
            headerLine
        ++ ["\n".toList]
        ++ [(resp.writeBuff ++ resp.writeBuffSpare).take resp.ContentLength.toNat] ∧
    (writeResp range bufSize c resp).conn.sent
      = c.sent ++ responseBytes
          (range (resp.Header.set HeaderContentLength (FormatInt resp.ContentLength))) resp := by
  have hs : slice (resp.writeBuff ++ resp.writeBuffSpare) 0 resp.ContentLength
      = some ((resp.writeBuff ++ resp.writeBuffSpare).take resp.ContentLength.toNat) := by
    have := slice_zero (resp.writeBuff ++ resp.writeBuffSpare) resp.ContentLength.toNat
      (by omega)
    rw [Int.toNat_of_nonneg h0] at this
    exact this
  have hok := (writeResp_free range bufSize c resp hsink).1 _ hs
  obtain ⟨body, hb, hh, hsent⟩ := writeResp_ok range bufSize c resp hok
  rw [hs] at hb
  simp only [Option.some.injEq] at hb
  subst hb
  refine ⟨hok, hh, ?_⟩
  rw [hsent, hh]
  have hm : ∀ l : List (Str × Str),
      l.map headerLine = l.map (fun kv => kv.1 ++ ": ".toList ++ kv.2 ++ "\n".toList) :=
    fun _ => rfl
  simp [responseBytes, statusLine, hm, List.append_assoc]

/-- Once the status line is handed to the writer, `writeResp` has set the
`Content-Length` entry of the header map of the response. -/
theorem writeResp_header (range : GoMap Str → List (Str × Str)) (bufSize : Nat) (c : Conn)
    (resp : Response)
    (h1 : ((NewWriterSize c bufSize).WriteString (statusLine resp)).1 = none) :
    (writeResp range bufSize c resp).resp
      = { resp with
          Header := resp.Header.set HeaderContentLength (FormatInt resp.ContentLength) } := by
  unfold writeResp
  simp only [h1]
  repeat' split
  all_goals rfl

/-- C11: for a response with `0 ≤ ContentLength ≤ len(writeBuff)` and a connection that
takes every write, `writeResp` returns without an error and hands to the writer, in this
order, the status line `Proto StatusCode Status` and a newline, one line `name: value`
and a newline for each entry of the header map (as it is after the `Content-Length`
entry is set; each entry once, in the order of iteration), one newline, and the first
`ContentLength` bytes of the body buffer, and nothing after them; and these bytes, in
this order, are what the connection is sent. -/
theorem writeResp_wire_format (range : GoMap Str → List (Str × Str))
    (hrange : ∀ m, (range m).Perm m) (bufSize : Nat) (c : Conn)
    (hsink : c.writeLimit = none) (resp : Response)
    (h0 : 0 ≤ resp.ContentLength) (hlen : resp.ContentLength ≤ (resp.writeBuff.length : Int)) :
    ∃ lines : List (Str × Str),
      lines.Perm (resp.Header.set HeaderContentLength (FormatInt resp.ContentLength)) ∧
      (writeResp range bufSize c resp).outcome = Outcome.ok () ∧
      (writeResp range bufSize c resp).handed =
        [resp.Proto ++ " ".toList ++ FormatInt resp.StatusCode ++ " ".toList ++ resp.Status
            ++ "\n".toList]
          ++ lines.map (fun kv => kv.1 ++ ": ".toList ++ kv.2 ++ "\n".toList)
          ++ ["\n".toList] ++ [resp.writeBuff.take resp.ContentLength.toNat] ∧
      (writeResp range bufSize c resp).conn.sent =
        c.sent ++ (resp.Proto ++ " ".toList ++ FormatInt resp.StatusCode ++ " ".toList
            ++ resp.Status ++ "\n".toList)
          ++ (lines.map (fun kv => kv.1 ++ ": ".toList ++ kv.2 ++ "\n".toList)).flatten
          ++ "\n".toList ++ resp.writeBuff.take resp.ContentLength.toNat ∧
      (resp.writeBuff.take resp.ContentLength.toNat).length = resp.ContentLength.toNat := by
  have hcap : resp.ContentLength ≤ ((resp.writeBuff ++ resp.writeBuffSpare).length : Int) := by
    rw [List.length_append]; omega
  have htake : (resp.writeBuff ++ resp.writeBuffSpare).take resp.ContentLength.toNat
      = resp.writeBuff.take resp.ContentLength.toNat :=
    List.take_append_of_le_length (by omega)
  obtain ⟨hok, hh, hsent⟩ := writeResp_sent range bufSize c hsink resp h0 hcap
  refine ⟨range (resp.Header.set HeaderContentLength (FormatInt resp.ContentLength)),
    hrange _, hok, ?_, ?_, ?_⟩
  · rw [hh, htake]; rfl
  · rw [hsent, responseBytes, htake]
    simp only [List.append_assoc]
  · rw [List.length_take]
    omega

/-- C11, at a response with two header entries and a body buffer longer than the
declared length, on a writer of 8 bytes. -/
theorem writeResp_wire_format_witness :
    ∃ lines : List (Str × Str),
      lines.Perm (GoMap.set [("X".toList, "y".toList)] HeaderContentLength (FormatInt 2)) ∧
      (writeResp id 8 (connOf [])
          { Proto := HTTPVersion, StatusCode := 200, Status := "OK".toList,
            Header := [("X".toList, "y".toList)], writeBuff := "hello".toList,
            ContentLength := 2 }).outcome = Outcome.ok () ∧
      (writeResp id 8 (connOf [])
          { Proto := HTTPVersion, StatusCode := 200, Status := "OK".toList,
            Header := [("X".toList, "y".toList)], writeBuff := "hello".toList,
            ContentLength := 2 }).handed =
        [HTTPVersion ++ " ".toList ++ FormatInt 200 ++ " ".toList ++ "OK".toList
            ++ "\n".toList]
          ++ lines.map (fun kv => kv.1 ++ ": ".toList ++ kv.2 ++ "\n".toList)
          ++ ["\n".toList] ++ ["hello".toList.take (2 : Int).toNat] ∧
      (writeResp id 8 (connOf [])
          { Proto := HTTPVersion, StatusCode := 200, Status := "OK".toList,
            Header := [("X".toList, "y".toList)], writeBuff := "hello".toList,
            ContentLength := 2 }).conn.sent =
        (connOf []).sent ++ (HTTPVersion ++ " ".toList ++ FormatInt 200 ++ " ".toList
            ++ "OK".toList ++ "\n".toList)
          ++ (lines.map (fun kv => kv.1 ++ ": ".toList ++ kv.2 ++ "\n".toList)).flatten
          ++ "\n".toList ++ "hello".toList.take (2 : Int).toNat ∧
      ("hello".toList.take (2 : Int).toNat).length = (2 : Int).toNat :=
  writeResp_wire_format id (fun m => List.Perm.refl m) 8 (connOf []) rfl
    { Proto := HTTPVersion, StatusCode := 200, Status := "OK".toList,
      Header := [("X".toList, "y".toList)], writeBuff := "hello".toList,
      ContentLength := 2 }
    (by decide) (by decide)

/-- C10, as stated, fails: for a response whose `ContentLength` is beyond the capacity
of its body buffer, or negative, `writeResp` panics at `resp.writeBuff[:n]` with the
status line and the header lines still in the buffer of its writer, so that no byte,
and no `Content-Length` line, reaches the connection. -/
theorem writeResp_out_of_range_panics :
    (writeResp id 4096 (connOf []) { sampleResponse with ContentLength := 5 }).outcome
        = Outcome.panic ∧
      (writeResp id 4096 (connOf []) { sampleResponse with ContentLength := 5 }).conn.sent = [] ∧
    (writeResp id 4096 (connOf []) { sampleResponse with ContentLength := -1 }).outcome
        = Outcome.panic ∧
      (writeResp id 4096 (connOf []) { sampleResponse with ContentLength := -1 }).conn.sent
        = [] := by
  decide

/-- C10, amended: for every response whose `ContentLength` is within the capacity of
its body buffer, written to a connection that takes every write, whatever its header
map holds for `Content-Length` before: the connection is sent the status line, then one
line `name: value` for each entry of the header map in the order of iteration, then the
empty line and the body; among these entries exactly one has the name `Content-Length`,
and its value is the decimal text of `resp.ContentLength`, which is also what the header
map of the response holds afterwards. -/
theorem writeResp_content_length (range : GoMap Str → List (Str × Str))
    (hrange : ∀ m, (range m).Perm m) (bufSize : Nat) (c : Conn)
    (hsink : c.writeLimit = none) (resp : Response) (h0 : 0 ≤ resp.ContentLength)
    (hlen : resp.ContentLength ≤ ((resp.writeBuff ++ resp.writeBuffSpare).length : Int)) :
    ∃ lines : List (Str × Str),
      (writeResp range bufSize c resp).outcome = Outcome.ok () ∧
      (writeResp range bufSize c resp).conn.sent =
        c.sent ++ (resp.Proto ++ " ".toList ++ FormatInt resp.StatusCode ++ " ".toList
            ++ resp.Status ++ "\n".toList)
          ++ (lines.map (fun kv => kv.1 ++ ": ".toList ++ kv.2 ++ "\n".toList)).flatten
          ++ "\n".toList
          ++ (resp.writeBuff ++ resp.writeBuffSpare).take resp.ContentLength.toNat ∧
      lines.filter (fun kv => decide (kv.1 = "Content-Length".toList))
        = [("Content-Length".toList, FormatInt resp.ContentLength)] ∧
      (writeResp range bufSize c resp).resp.Header.get "Content-Length".toList
        = some (FormatInt resp.ContentLength) := by
  obtain ⟨hok, hh, hsent⟩ := writeResp_sent range bufSize c hsink resp h0 hlen
  refine ⟨range (resp.Header.set HeaderContentLength (FormatInt resp.ContentLength)),
    hok, ?_, ?_, ?_⟩
  · rw [hsent, responseBytes]
    simp only [List.append_assoc]
  · have hp := (hrange (resp.Header.set HeaderContentLength
      (FormatInt resp.ContentLength))).filter
        (fun kv => decide (kv.1 = HeaderContentLength))
    rw [filter_set_key] at hp
    exact List.perm_singleton.mp hp
  · rw [writeResp_header range bufSize c resp
      (WriteString_healthy (NewWriterSize c bufSize) (statusLine resp) ⟨rfl, hsink⟩).1]
    exact (get_set resp.Header HeaderContentLength (FormatInt resp.ContentLength)
      HeaderContentLength).trans (if_pos rfl)

/-- C10 amended, at a response whose caller had set `Content-Length: 999` for a body of
2 bytes, on a writer of 8 bytes. -/
theorem writeResp_content_length_witness :
    ∃ lines : List (Str × Str),
      (writeResp id 8 (connOf []) sampleResponse).outcome = Outcome.ok () ∧
      (writeResp id 8 (connOf []) sampleResponse).conn.sent =
        (connOf []).sent ++ (sampleResponse.Proto ++ " ".toList
            ++ FormatInt sampleResponse.StatusCode ++ " ".toList
            ++ sampleResponse.Status ++ "\n".toList)
          ++ (lines.map (fun kv => kv.1 ++ ": ".toList ++ kv.2 ++ "\n".toList)).flatten
          ++ "\n".toList
          ++ (sampleResponse.writeBuff ++ sampleResponse.writeBuffSpare).take
              sampleResponse.ContentLength.toNat ∧
      lines.filter (fun kv => decide (kv.1 = "Content-Length".toList))
        = [("Content-Length".toList, FormatInt sampleResponse.ContentLength)] ∧
      (writeResp id 8 (connOf []) sampleResponse).resp.Header.get "Content-Length".toList
        = some (FormatInt sampleResponse.ContentLength) :=
  writeResp_content_length id (fun m => List.Perm.refl m) 8 (connOf []) rfl sampleResponse
    (by decide) (by decide)

/-- When `writeResp` returns without an error, the connection was sent the bytes of the
response, with the header lines in the order of iteration, behind what it was sent
before. -/
theorem writeResp_ok_bytes (range : GoMap Str → List (Str × Str)) (bufSize : Nat) (c : Conn)
    (resp : Response) (h : (writeResp range bufSize c resp).outcome = Outcome.ok ()) :
    (writeResp range bufSize c resp).conn.sent
      = c.sent ++ responseBytes
          (range (resp.Header.set HeaderContentLength (FormatInt resp.ContentLength))) resp := by
  obtain ⟨body, hb, hh, hsent⟩ := writeResp_ok range bufSize c resp h
  obtain ⟨_, _, hbody⟩ := slice_zero_some _ _ _ hb
  have hm : ∀ l : List (Str × Str),
      l.map headerLine = l.map (fun kv => kv.1 ++ ": ".toList ++ kv.2 ++ "\n".toList) :=
    fun _ => rfl
  rw [hsent, hh, hbody]
  simp [responseBytes, statusLine, hm, List.append_assoc]

/-- A pass of `serve` closes the connection after `readReq` returned an error, with the
connection as `readReq` left it, or after `writeResp` returned an error for a decoded
request. -/
theorem serveStep_closed (env : ServeEnv) (c c2 : Conn)
    (h : serveStep env c = ServeStep.closed c2) :
    ((∃ e reader, readReq env.bufSize env.parseURI c = some (Outcome.fail e, reader) ∧
        c2 = { reader.rd with closed := true }) ∨
      (∃ req reader, readReq env.bufSize env.parseURI c = some (Outcome.ok req, reader))) ∧
    c2.closed = true := by
  unfold serveStep at h
  split at h
  · cases h
  · cases h
  · rename_i e reader hdec
    simp only [ServeStep.closed.injEq] at h
    exact ⟨Or.inl ⟨e, reader, hdec, h.symm⟩, by rw [← h]⟩
  · rename_i req reader hdec
    simp only at h
    split at h
    · cases h
    · split at h
      · cases h
      · cases h
      · split at h
        · cases h
        · simp only [ServeStep.closed.injEq] at h
          exact ⟨Or.inr ⟨req, reader, hdec⟩, by rw [← h]⟩
        · cases h

/-- A pass of `serve` that goes round again has decoded a request, found its handler
with `match`, called it on a fresh response, and sent the bytes of that response, once,
behind what was sent before. -/
theorem serveStep_next (env : ServeEnv) (hk : HandlersKeepSent env)
    (hperm : (env.rangeHandlers env.handlers).Perm env.handlers) (c c2 : Conn)
    (h : serveStep env c = ServeStep.next c2) :
    ∃ req reader u handler,
      readReq env.bufSize env.parseURI c = some (Outcome.ok req, reader) ∧
      req.URL = some u ∧
      Server.match env.NotFoundHandler (env.rangeHandlers env.handlers) u.Path
        = some (Handler.val handler) ∧
      c2.sent = c.sent ++ responseBytes
        (env.rangeHeader
          ((handler freshResponse req { R := reader, N := req.ContentLength }).1.Header.set
            HeaderContentLength
            (FormatInt
              (handler freshResponse req
                { R := reader, N := req.ContentLength }).1.ContentLength)))
        (handler freshResponse req { R := reader, N := req.ContentLength }).1 := by
  unfold serveStep at h
  split at h
  · cases h
  · cases h
  · cases h
  · rename_i req reader hdec
    simp only at h
    split at h
    · cases h
    · rename_i u hurl
      split at h
      · cases h
      · cases h
      · rename_i handler hmatch
        have hkeep : KeepsSent handler := by
          rcases match_result _ _ _ _ hmatch with e | ⟨k, hmem⟩
          · rw [e]; exact hk.1
          · exact hk.2 (k, Handler.val handler) (hperm.subset hmem) handler rfl
        split at h
        · cases h
        · cases h
        · rename_i u0 hw
          simp only [ServeStep.next.injEq] at h
          have hw2 : (writeResp env.rangeHeader env.respBufSize
              (copyDiscard
                (handler freshResponse req { R := reader, N := req.ContentLength }).2).R.rd
              (handler freshResponse req { R := reader, N := req.ContentLength }).1).outcome
              = Outcome.ok () := hw
          refine ⟨req, reader, u, handler, hdec, hurl, hmatch, ?_⟩
          rw [← h, writeResp_ok_bytes _ _ _ _ hw2, copyDiscard_sent, hkeep,
            readReq_sent _ _ _ _ _ hdec]

/-- C13: once `readReq` returns an error, `serve` closes the connection and returns at
once, with nothing written for that request and no further call of `readReq`; and when
`serve` returns, its run was a sequence of passes, in each of which `readReq` decoded a
request and exactly the bytes of one response, that of the handler found for the
request, were sent behind what was sent before, ended by the pass in which `readReq`
returned an error or by one in which `writeResp` did. The connection is then closed,
and when the run ended with an error of `readReq`, what it was sent is exactly the
responses of the passes, one for each decoded request, in the order of the requests.
Handlers are taken to leave the write side of the connection alone. -/
theorem serve_stops_at_error (env : ServeEnv) (hk : HandlersKeepSent env)
    (hperm : (env.rangeHandlers env.handlers).Perm env.handlers)
    (hrange : ∀ m, (env.rangeHeader m).Perm m) :
    (∀ (c : Conn) (e : Err) (reader : Reader) (fuel : Nat),
      readReq env.bufSize env.parseURI c = some (Outcome.fail e, reader) →
      serve env (fuel + 1) c = some { reader.rd with closed := true } ∧
      reader.rd.sent = c.sent) ∧
    (∀ (fuel : Nat) (c cEnd : Conn), serve env fuel c = some cEnd →
      ∃ log ending, ServeRun env c log ending cEnd ∧ cEnd.closed = true ∧
        (ending = RunEnd.readError → cEnd.sent = c.sent ++ (log.map Prod.snd).flatten)) := by
  constructor
  · intro c e reader fuel hdec
    refine ⟨?_, readReq_sent _ _ _ _ _ hdec⟩
    unfold serve serveStep
    simp only [hdec]
  · intro fuel
    induction fuel with
    | zero => intro c cEnd h; simp [serve] at h
    | succ fuel ih =>
      intro c cEnd h
      unfold serve at h
      cases hs : serveStep env c with
      | next c2 =>
        simp only [hs] at h
        obtain ⟨log, ending, hrun, hclosed, hsent⟩ := ih c2 cEnd h
        obtain ⟨req, reader, u, handler, hdec, hurl, hmatch, hs2⟩ :=
          serveStep_next env hk hperm c c2 hs
        refine ⟨_, ending,
          ServeRun.pass c c2 cEnd req reader u handler _ log ending hdec hurl hmatch
            (hrange _) hs hs2 hrun, hclosed, ?_⟩
        intro he
        rw [hsent he, hs2]
        simp
      | closed c2 =>
        simp only [hs, Option.some.injEq] at h
        obtain ⟨hcase, hcl⟩ := serveStep_closed env c c2 hs
        rcases hcase with ⟨e, reader, hdec, hc2⟩ | ⟨req, reader, hdec⟩
        · refine ⟨[], RunEnd.readError, ?_, ?_, ?_⟩
          · rw [← h, hc2]
            exact ServeRun.stop c reader e hdec
          · rw [← h]; exact hcl
          · intro _
            rw [← h, hc2]
            simp only [List.map_nil, List.flatten_nil, List.append_nil]
            exact readReq_sent _ _ _ _ _ hdec
        · refine ⟨[], RunEnd.writeError, ?_, ?_, ?_⟩
          · rw [← h]
            exact ServeRun.stopWrite c c2 req reader hdec hs
          · rw [← h]; exact hcl
          · intro he; cases he
      | panic => simp only [hs] at h; cases h
      | outOfFuel => simp only [hs] at h; cases h

/-- C13, at a connection that delivers a request and then a malformed line: one
response is written and the connection is closed. -/
theorem serve_stops_at_error_witness :
    ∃ log ending, ServeRun (plainEnv 4096)
        (connOf ["GET /a HTTP/1.1\n\n".toList, "bad\n".toList]) log ending
        { pending := [], closeErr := Err.EOF,
          sent := "HTTP/1.1 404 Not Found\nContent-Length: 0\n\n".toList, closed := true } ∧
      (true = true) ∧
      (ending = RunEnd.readError →
        "HTTP/1.1 404 Not Found\nContent-Length: 0\n\n".toList
          = [] ++ (log.map Prod.snd).flatten) :=
  (serve_stops_at_error (plainEnv 4096)
      ⟨fun _ _ _ => rfl, fun kv hkv => by simp [plainEnv] at hkv⟩
      (List.Perm.refl _) (fun m => List.Perm.refl m)).2 3
    (connOf ["GET /a HTTP/1.1\n\n".toList, "bad\n".toList])
    { pending := [], closeErr := Err.EOF,
      sent := "HTTP/1.1 404 Not Found\nContent-Length: 0\n\n".toList, closed := true }
    (by decide)

/-! ## Header lines longer than the buffer of the reader -/

/-- C4 fails on the code: the `GET` request with the single header line
`A: bcdefghijklmnopqr`, which has no `Content-Length`, read through a buffer of 16 bytes.
The line comes as the fragment `A: bcdefghijklmn` and the rest `opqr`; `wholeLine` is a
view of the buffer of the reader, which the second `ReadLine` has filled anew, so the
line is assembled from the new bytes of the buffer and `opqr`, has no `": "`, and
`readReq` fails with "Invalid request header". Through a buffer of 4096 bytes the same
bytes are decoded with `ContentLength = 0`. -/
theorem long_header_line_rejected :
    (readReq 16 pathOnlyURI
        (connOf ["GET /x HTTP/1.1\nA: bcdefghijklmnopqr\n\n".toList])).map Prod.fst
      = some (Outcome.fail Err.InvalidRequestHeader) ∧
    (readReq 4096 pathOnlyURI
        (connOf ["GET /x HTTP/1.1\nA: bcdefghijklmnopqr\n\n".toList])).map Prod.fst
      = some (Outcome.ok
          { Method := MethodGet,
            URL := some { Scheme := [], Host := [], Path := "/x".toList },
            Proto := HTTPVersion,
            Header := [(HeaderContentLength, "0".toList),
              ("A".toList, "bcdefghijklmnopqr".toList)],
            ContentLength := 0 }) := by
  refine ⟨by decide, by decide⟩

/-- C7 fails on the code. In the header step, after the fragment `Content-Len: 123`
flagged as a continuation, the empty last fragment completes the line
`Content-Len: 123`, which is not empty and contains `": "`: the step neither rejects it
nor stores it, but ends the headers, because it tests the length of the last fragment.
And the line `X-Header-Name: value` read through a buffer of 16 bytes is stored under
the name `alue\n\ner-Name`, because the first fragment is kept as a view of the buffer,
which the next `ReadLine` fills anew; through a buffer of 4096 bytes it is stored under
`X-Header-Name`. -/
theorem fragmented_header_line_mishandled :
    readReqStep pathOnlyURI sampleHeaderState
        { line := "Content-Len: 123".toList, isPrefix := true, err := none,
          front := "Content-Len: 123".toList }
      = LoopStep.next
          { sampleHeaderState with
            wholeLine := "Content-Len: 123".toList, lastWait := true, aliased := true } ∧
    readReqStep pathOnlyURI
        { sampleHeaderState with
          wholeLine := "Content-Len: 123".toList, lastWait := true, aliased := true }
        { line := [], isPrefix := false, err := none, front := "\n".toList }
      = LoopStep.done
          { Method := MethodGet,
            URL := some { Scheme := [], Host := [], Path := "/x".toList },
            Proto := HTTPVersion,
            Header := [(HeaderContentLength, "0".toList), ("Host".toList, "a".toList)],
            ContentLength := 0 } ∧
    (readReq 16 pathOnlyURI
        (connOf ["GET /x HTTP/1.1\nX-Header-Name: value\n\n".toList])).map Prod.fst
      = some (Outcome.ok
          { Method := MethodGet,
            URL := some { Scheme := [], Host := [], Path := "/x".toList },
            Proto := HTTPVersion,
            Header := [(HeaderContentLength, "0".toList),
              ("alue\n\ner-Name".toList, "value".toList)],
            ContentLength := 0 }) ∧
    (readReq 4096 pathOnlyURI
        (connOf ["GET /x HTTP/1.1\nX-Header-Name: value\n\n".toList])).map Prod.fst
      = some (Outcome.ok
          { Method := MethodGet,
            URL := some { Scheme := [], Host := [], Path := "/x".toList },
            Proto := HTTPVersion,
            Header := [(HeaderContentLength, "0".toList),
              ("X-Header-Name".toList, "value".toList)],
            ContentLength := 0 }) := by
  refine ⟨by decide, by decide, by decide, by decide⟩

/-- C8 fails on the code: a `POST` with `Content-Length: 3`, a header line of exactly
the 32 bytes of the buffer of the reader, the empty line and the body `abc`. The header
line comes as a fragment of 32 bytes and an empty last fragment, which the header step
takes for the empty line: the request is decoded without that header, and the bytes left
for the body start at the end of line of the empty line, so that reading `req.Body` to
its end yields the three bytes of a newline and `ab`, not `abc`. Through a buffer of
4096 bytes the body read is `abc`. -/
theorem body_misaligned_after_full_line :
    (readReq 32 pathOnlyURI
        (connOf ["POST /a HTTP/1.1\nContent-Length: 3\nX-Padding-Name: 0123456789abcdef\n\nabc".toList])).map
        (fun r => (r.1, r.2.rest, (readToEnd 8192 { R := r.2, N := 3 }).1))
      = some (Outcome.ok
          { Method := MethodPost,
            URL := some { Scheme := [], Host := [], Path := "/a".toList },
            Proto := HTTPVersion,
            Header := [(HeaderContentLength, "3".toList)],
            ContentLength := 3 }, "\nabc".toList, "\nab".toList) ∧
    (readReq 4096 pathOnlyURI
        (connOf ["POST /a HTTP/1.1\nContent-Length: 3\nX-Padding-Name: 0123456789abcdef\n\nabc".toList])).map
        (fun r => (r.1, r.2.rest, (readToEnd 8192 { R := r.2, N := 3 }).1))
      = some (Outcome.ok
          { Method := MethodPost,
            URL := some { Scheme := [], Host := [], Path := "/a".toList },
            Proto := HTTPVersion,
            Header := [("X-Padding-Name".toList, "0123456789abcdef".toList),
              (HeaderContentLength, "3".toList)],
            ContentLength := 3 }, "abc".toList, "abc".toList) := by
  refine ⟨by decide, by decide⟩

end GoHttp
